import Mathlib

/-!
# sqlite_acl: the authorization core

A shallow embedding of the permission model (`model/permissions/permissions.go`),
the permission manager (`internal/acl/acl.go`) and the requirement analyzer
(`internal/parsing/parse.go`), followed by theorems about them.

Conventions of the embedding:

* a Go slice that the code compares with `nil` is an `Option (List _)`:
  `none` is the nil slice, `some []` an empty non-nil slice;
* a run-time panic (index out of range) is the result `none` of a function
  returning `Option`;
* `*permissions.Permission` is an address into a heap of `Permission` values.
-/

namespace SqliteAcl

/-! ## model/permissions/permissions.go -/

/-- The Go type `PermissionType` is an `int`. -/
abbrev PermissionType := Int

/-- The constant `Read = iota + 1`. -/
def Read : PermissionType := 1

/-- The constant `Write`, the second of the `iota` block. -/
def Write : PermissionType := 2

/-- The struct `Permission`. The field `Type` is written `Typ`. `RowKeys = none` is the
nil slice, which the code reads as "all rows". -/
structure Permission where
  Typ : PermissionType
  Table : String
  RowKeys : Option (List (List String))
  deriving DecidableEq, Repr

/-! ## Library functions used by internal/acl/acl.go -/

/-- Lexicographic comparison of two character sequences by code point: `-1`, `0`, `+1`. -/
def compareChars : List Char → List Char → Int
  | [], [] => 0
  | [], _ :: _ => -1
  | _ :: _, [] => 1
  | c :: cs, d :: ds =>
    if c.toNat < d.toNat then -1
    else if d.toNat < c.toNat then 1
    else compareChars cs ds

/-- Go's `strings.Compare`: `-1`, `0` or `+1` by lexicographic order. Go compares bytes;
on UTF-8 text that is the lexicographic order of the code points. -/
def stringsCompare (a b : String) : Int :=
  compareChars a.data b.data

/-- The loop of `slices.BinarySearchFunc` (golang.org/x/exp/slices):
`for i < j { h := (i+j)/2; if cmp(x[h], target) < 0 { i = h + 1 } else { j = h } }`.
The first argument bounds the number of iterations; `j - i` iterations are enough. -/
def binarySearchLoop {E T : Type} (x : List E) (target : T) (cmp : E → T → Option Int) :
    Nat → Nat → Nat → Option Nat
  | 0, i, j => if i < j then none else some i
  | fuel + 1, i, j =>
    if i < j then
      let h := (i + j) / 2
      match x[h]? with
      | none => none
      | some e =>
        match cmp e target with
        | none => none
        | some c =>
          if c < 0 then binarySearchLoop x target cmp fuel (h + 1) j
          else binarySearchLoop x target cmp fuel i h
    else some i

/-- Go's `slices.BinarySearchFunc(x, target, cmp)`: the position where `target` is found
or would be inserted, and whether it is found there
(`return i, i < n && cmp(x[i], target) == 0`). -/
def BinarySearchFunc {E T : Type} (x : List E) (target : T) (cmp : E → T → Option Int) :
    Option (Nat × Bool) :=
  match binarySearchLoop x target cmp x.length 0 x.length with
  | none => none
  | some i =>
    match x[i]? with
    | none => some (i, false)
    | some e =>
      match cmp e target with
      | none => none
      | some c => some (i, decide (c = 0))

/-! ## internal/acl/acl.go: pure helpers -/

/-- The function `pkCmp(a, b)`: `for i := range a` compares `a[i]` with `b[i]` and returns
the first non-zero comparison, `0` when there is none. Reading `b[i]` past the end of `b`
panics. -/
def pkCmp : List String → List String → Option Int
  | [], _ => some 0
  | _ :: _, [] => none
  | x :: a, y :: b =>
    if stringsCompare x y ≠ 0 then some (stringsCompare x y) else pkCmp a b

/-- The inner loop of `reqPasses`: `false` as soon as a key of the requirement is not found
in the grant's keys by binary search, `true` when the loop runs to its end. -/
def reqKeysFound (granted : List (List String)) : List (List String) → Option Bool
  | [] => some true
  | k :: ks =>
    match BinarySearchFunc granted k pkCmp with
    | none => none
    | some (_, ok) => if !ok then some false else reqKeysFound granted ks

/-- The function `reqPasses(req, perms)` on the permissions the slice points to. When the
key loop of a matching permission ends without a miss, control leaves the `if` and the
outer loop goes on with the next permission; after the last one the result is `false`. -/
def reqPasses (req : Permission) : List Permission → Option Bool
  | [] => some false
  | p :: perms =>
    if p.Table = req.Table ∧ p.Typ = req.Typ then
      match p.RowKeys with
      | none => some true
      | some granted =>
        match req.RowKeys with
        | none => some false
        | some wanted =>
          match reqKeysFound granted wanted with
          | none => none
          | some false => some false
          | some true => reqPasses req perms
    else reqPasses req perms

/-! ## The SQL syntax tree read by internal/parsing/parse.go

The tree comes from the vitess `sqlparser` package. The types below carry the node kinds
and the fields that `parse.go` reads. -/

/-- The `sqlparser.ComparisonExprOperator` values; the code names `EqualOp` only. -/
inductive ComparisonExprOperator
  | EqualOp
  | LessThanOp
  | GreaterThanOp
  | LessEqualOp
  | GreaterEqualOp
  | NotEqualOp
  | NullSafeEqualOp
  | InOp
  | NotInOp
  | LikeOp
  | NotLikeOp
  | RegexpOp
  | NotRegexpOp
  deriving DecidableEq, Repr

/-- The `sqlparser.Expr` node kinds. `ColName` carries `Name.String()`, `Literal` carries
`Val`. The arguments of a function call and the body of a subquery are not read by
`recurseOnWhereExpr` and are left out. -/
inductive Expr
  | ColName (Name : String)
  | Literal (Val : String)
  | ComparisonExpr (Operator : ComparisonExprOperator) (Left Right : Expr)
  | AndExpr (Left Right : Expr)
  | OrExpr (Left Right : Expr)
  | NotExpr (Expr : Expr)
  | BetweenExpr (Left From To : Expr)
  | IsExpr (Left : Expr)
  | FuncExpr (Name : String)
  | Subquery
  deriving DecidableEq, Repr

/-- The struct `sqlparser.Where`; a nil `*Where` is `none : Option Where`. -/
structure Where where
  Expr : Expr
  deriving DecidableEq, Repr

/-- The `sqlparser.TableExpr` node kinds of a FROM list: a table with an optional alias
(`As = ""` when there is none) and a join of two table expressions. -/
inductive TableExpr
  | AliasedTableExpr (Expr : String) (As : String)
  | JoinTableExpr (LeftExpr : TableExpr) (Join : String) (RightExpr : TableExpr)
  deriving DecidableEq, Repr

/-- The canonical printer `sqlparser.String` on a table expression: the table name,
followed by `as alias` when aliased; the two sides of a join around the join keyword. -/
def sqlString : TableExpr → String
  | .AliasedTableExpr name as_ => if as_ = "" then name else name ++ " as " ++ as_
  | .JoinTableExpr l join r => sqlString l ++ " " ++ join ++ " " ++ sqlString r

/-- The node kinds that the visitor of `Parse` tells apart, with the fields it reads:
`Select.From`, `Select.Where`, `Update.TableExprs`, `Update.Where`, `Delete.TableExprs`,
`Delete.Where` and the printed `Insert.Table.Expr`. Every other node is `Other`. -/
inductive SQLNode
  | Select (From : List TableExpr) (Where : Option Where)
  | Update (TableExprs : List TableExpr) (Where : Option Where)
  | Delete (TableExprs : List TableExpr) (Where : Option Where)
  | Insert (Table : String)
  | Other
  deriving DecidableEq, Repr

/-- A parsed statement, as `sqlparser.Walk` presents it to a visitor that always asks to
continue: the nodes of the tree in the order of the walk (pre-order), the statement's own
node first. A nested SELECT is a `Select` node further down the list. -/
structure Statement where
  nodes : List SQLNode
  deriving DecidableEq, Repr

/-- The two functions of `sqlparser` that `Parse` calls on the SQL text. -/
structure SqlParser where
  SplitStatementToPieces : String → Except String (List String)
  Parse2 : String → Except String Statement

/-! ## internal/parsing/parse.go -/

/-- The struct `RequiredPermission`. -/
structure RequiredPermission where
  Perm : Permission
  fromNode : SQLNode
  deriving DecidableEq, Repr

/-- The Go `error` values that the analyzer and the permission manager return. -/
inductive Error
  | sqlparser (msg : String)
  | unsupportedUpdate (stmt : SQLNode)
  | unsupportedDelete (stmt : SQLNode)
  | noSuchKey
  | notAdmin
  | fetching (user : String) (cause : String)
  | storing (user : String) (cause : String)
  | insufficientPermissions (failingRequirements : List RequiredPermission)
  | removeSpecificFromBlanket
  deriving DecidableEq, Repr

/-- A Go `map[string]string` of column requirements, by its lookup. -/
abbrev Spec := String → Option String

/-- The map literal `{col: val}`. -/
def Spec.single (col val : String) : Spec :=
  fun c => if c = col then some val else none

/-- The loop `for k, v := range src { dst[k] = v }`. -/
def Spec.copyInto (dst src : Spec) : Spec :=
  fun c => match src c with
    | some v => some v
    | none => dst c

/-- The function `recurseOnWhereExpr`; `none` is the nil slice. -/
def recurseOnWhereExpr : Expr → Option (List Spec)
  | .ComparisonExpr op left right =>
    if op ≠ ComparisonExprOperator.EqualOp then none
    else
      match left, right with
      | .ColName name, .Literal val => some [Spec.single name val]
      | _, _ => none
  | .AndExpr left right =>
    let lV := recurseOnWhereExpr left
    let rV := recurseOnWhereExpr right
    match lV, rV with
    | some [l], some [r] =>
      let specced : Spec := fun _ => none
      let specced := Spec.copyInto specced l
      let specced := Spec.copyInto specced r
      some [specced]
    | _, _ => none
  | .OrExpr left right =>
    let lV := recurseOnWhereExpr left
    let rV := recurseOnWhereExpr right
    match lV, rV with
    | some l, some r => some (([] ++ l) ++ r)
    | _, _ => none
  | _ => none

/-- The inner loop of `whereNodeToRows`: the row of one spec, `none` when the spec has no
value for one of the primary-key columns (the code then returns nil). -/
def specRow (spec : Spec) : List String → Option (List String)
  | [] => some []
  | c :: pk =>
    match spec c with
    | some v =>
      match specRow spec pk with
      | some row => some (v :: row)
      | none => none
    | none => none

/-- The outer loop of `whereNodeToRows`: the rows of all specs in order, `none` when the
loop is left by `return nil`. -/
def specRows (pk : List String) : List Spec → Option (List (List String))
  | [] => some []
  | spec :: specs =>
    match specRow spec pk with
    | none => none
    | some row =>
      match specRows pk specs with
      | none => none
      | some rows => some (row :: rows)

/-- The function `whereNodeToRows`; the result `none` is the nil slice (scope All).
Ranging over a nil spec list runs no iteration. -/
def whereNodeToRows (where_ : Option Where) (pk : List String) : Option (List (List String)) :=
  match where_ with
  | none => none
  | some w =>
    match specRows pk ((recurseOnWhereExpr w.Expr).getD []) with
    | none => none
    | some rows => if rows.length = 0 then none else some rows

/-- Indexing the Go map `tableToPK`: a missing table gives the nil slice. -/
def pkOf (tableToPK : String → Option (List String)) (tableName : String) : List String :=
  (tableToPK tableName).getD []

/-- The visitor that `Parse` hands to `sqlparser.Walk`, applied to one node: the
requirements so far with the node's requirement appended, or the error that stops the
walk. `none` is the panic of indexing an empty `From` or `TableExprs` with `[0]`. -/
def visitNode (tableToPK : String → Option (List String)) (reqs : List RequiredPermission)
    (node : SQLNode) : Option (Except Error (List RequiredPermission)) :=
  match node with
  | .Select from_ where_ =>
    match from_ with
    | [] => none
    | t :: _ =>
      let tableName := sqlString t
      some (.ok (reqs ++ [⟨⟨Read, tableName, whereNodeToRows where_ (pkOf tableToPK tableName)⟩,
        node⟩]))
  | .Update tableExprs where_ =>
    if tableExprs.length > 1 then some (.error (Error.unsupportedUpdate node))
    else
      match tableExprs with
      | [] => none
      | t :: _ =>
        let tableName := sqlString t
        some (.ok (reqs ++ [⟨⟨Write, tableName,
          whereNodeToRows where_ (pkOf tableToPK tableName)⟩, node⟩]))
  | .Delete tableExprs where_ =>
    if tableExprs.length > 1 then some (.error (Error.unsupportedDelete node))
    else
      match tableExprs with
      | [] => none
      | t :: _ =>
        let tableName := sqlString t
        some (.ok (reqs ++ [⟨⟨Write, tableName,
          whereNodeToRows where_ (pkOf tableToPK tableName)⟩, node⟩]))
  | .Insert table => some (.ok (reqs ++ [⟨⟨Write, table, none⟩, node⟩]))
  | .Other => some (.ok reqs)

/-- The call `sqlparser.Walk(visit, stmt)`: the visitor on every node in walk order, until
it returns an error. -/
def walkNodes (tableToPK : String → Option (List String)) :
    List RequiredPermission → List SQLNode → Option (Except Error (List RequiredPermission))
  | reqs, [] => some (.ok reqs)
  | reqs, node :: nodes =>
    match visitNode tableToPK reqs node with
    | none => none
    | some (.error e) => some (.error e)
    | some (.ok reqs') => walkNodes tableToPK reqs' nodes

/-- The loop `for _, p := range pieces` of `Parse`: parse the piece, walk it, go on. -/
def parsePieces (parser : SqlParser) (tableToPK : String → Option (List String)) :
    List RequiredPermission → List String → Option (Except Error (List RequiredPermission))
  | reqs, [] => some (.ok reqs)
  | reqs, p :: pieces =>
    match parser.Parse2 p with
    | .error msg => some (.error (Error.sqlparser msg))
    | .ok stmt =>
      match walkNodes tableToPK reqs stmt.nodes with
      | none => none
      | some (.error e) => some (.error e)
      | some (.ok reqs') => parsePieces parser tableToPK reqs' pieces

/-- The function `Parse(sql, tableToPK)`. -/
def Parse (parser : SqlParser) (sql : String) (tableToPK : String → Option (List String)) :
    Option (Except Error (List RequiredPermission)) :=
  match parser.SplitStatementToPieces sql with
  | .error msg => some (.error (Error.sqlparser msg))
  | .ok pieces => parsePieces parser tableToPK [] pieces


/-! ## internal/acl/acl.go: the manager -/

/-- The address of a `Permission` object (`*permissions.Permission`). -/
abbrev Ptr := Nat

/-- The interface `ACLStorage` as the manager uses it, over the states `σ` of a store.
`StoreUserPerms` receives the permissions the slice points to and returns its error (or
`none` for nil) and the store after the call; `GetUserPerms` returns the permissions read
or its error, and the store after the call. -/
structure ACLStorage (σ : Type) where
  StoreUserPerms : σ → String → List Permission → Option String × σ
  GetUserPerms : σ → String → Except String (List Permission) × σ

/-- The struct `ACLManager` together with the memory its slices point into.
`heap` gives the object at each address and `next` is the first address not yet in use;
`perms`, `adminKeys`, `keyToUser` and `tablePKs` are the Go maps by their lookups, the
set `adminKeys` by its membership test. -/
structure ACLManager (σ : Type) where
  storage : σ
  heap : Ptr → Permission
  next : Ptr
  perms : String → Option (List Ptr)
  adminKeys : String → Bool
  keyToUser : String → Option String
  tablePKs : String → Option (List String)

/-- What a method call does: it panics, or it returns `ret` and leaves the manager in the
state `acl`. -/
inductive Outcome (ρ σ : Type)
  | panics
  | returns (ret : ρ) (acl : ACLManager σ)

/-- The objects a slice of pointers points to. -/
def deref {σ : Type} (acl : ACLManager σ) (ptrs : List Ptr) : List Permission :=
  ptrs.map acl.heap

/-- The grant list of a user as the manager holds it in memory, `none` when the map
`perms` has no entry for the user. -/
def memoryGrants {σ : Type} (acl : ACLManager σ) (user : String) : Option (List Permission) :=
  (acl.perms user).map (deref acl)

/-- Placing new objects in memory: each value gets the next free address. -/
def allocate {σ : Type} (acl : ACLManager σ) : List Permission → List Ptr × ACLManager σ
  | [] => ([], acl)
  | v :: vs =>
    let acl1 := { acl with heap := Function.update acl.heap acl.next v, next := acl.next + 1 }
    let (ptrs, acl2) := allocate acl1 vs
    (acl.next :: ptrs, acl2)

/-- The method `getPerms`: the user's slice from the map `perms`, read from the store when
the map has none; in both cases the slice is assigned to `acl.perms[user]`. The objects
that the store returns are new objects in memory. -/
def getPerms {σ : Type} (S : ACLStorage σ) (acl : ACLManager σ) (user : String) :
    Except Error (List Ptr) × ACLManager σ :=
  match acl.perms user with
  | some perms => (.ok perms, { acl with perms := Function.update acl.perms user (some perms) })
  | none =>
    match S.GetUserPerms acl.storage user with
    | (.error cause, st) => (.error (Error.fetching user cause), { acl with storage := st })
    | (.ok vals, st) =>
      let (perms, acl1) := allocate { acl with storage := st } vals
      (.ok perms, { acl1 with perms := Function.update acl1.perms user (some perms) })

/-- The loop of `CheckPermissions` that collects the requirements for which `reqPasses` is
false, in order. -/
def failingReqs (perms : List Permission) : List RequiredPermission →
    Option (List RequiredPermission)
  | [] => some []
  | req :: reqs =>
    match reqPasses req.Perm perms with
    | none => none
    | some pass =>
      match failingReqs perms reqs with
      | none => none
      | some failing => some (if !pass then req :: failing else failing)

/-- The method `CheckPermissions`. The result `.ok ()` is the nil error. -/
def CheckPermissions {σ : Type} (parser : SqlParser) (S : ACLStorage σ) (acl : ACLManager σ)
    (key sql : String) : Outcome (Except Error Unit) σ :=
  match acl.keyToUser key with
  | none => .returns (.error Error.noSuchKey) acl
  | some user =>
    match Parse parser sql acl.tablePKs with
    | none => .panics
    | some (.error e) => .returns (.error e) acl
    | some (.ok reqs) =>
      match getPerms S acl user with
      | (.error e, acl1) => .returns (.error e) acl1
      | (.ok perms, acl1) =>
        match failingReqs (deref acl1 perms) reqs with
        | none => .panics
        | some failing =>
          if failing.length > 0 then
            .returns (.error (Error.insufficientPermissions failing)) acl1
          else .returns (.ok ()) acl1

/-- One `append(original.RowKeys, dummy); copy(...); original.RowKeys[idx] = k`: the key
`k` placed at position `idx`, the keys from `idx` on moved up by one. -/
def insertAt (keys : List (List String)) (idx : Nat) (k : List String) : List (List String) :=
  keys.take idx ++ k :: keys.drop idx

/-- The loop of `updatePermAdd` over the keys of the addition. -/
def addKeys : List (List String) → List (List String) → Option (List (List String))
  | keys, [] => some keys
  | keys, k :: ks =>
    match BinarySearchFunc keys k pkCmp with
    | none => none
    | some (idx, ok) => if !ok then addKeys (insertAt keys idx k) ks else addKeys keys ks

/-- The function `updatePermAdd(original, addition)` on two distinct objects: the new value
of `*original`. -/
def updatePermAdd (original addition : Permission) : Option Permission :=
  let original :=
    if addition.RowKeys = none then { original with RowKeys := none } else original
  match original.RowKeys with
  | none => some original
  | some keys =>
    match addKeys keys (addition.RowKeys.getD []) with
    | none => none
    | some keys' => some { original with RowKeys := some keys' }

/-- The inner loop of `AddPermissions`, `for _, p := range perms`: every object with the
table and type of `ta` is updated in place. -/
def addToMatching {σ : Type} (ta : Permission) : ACLManager σ → List Ptr →
    Option (ACLManager σ)
  | acl, [] => some acl
  | acl, p :: ps =>
    if (acl.heap p).Table = ta.Table ∧ (acl.heap p).Typ = ta.Typ then
      match updatePermAdd (acl.heap p) ta with
      | none => none
      | some v => addToMatching ta { acl with heap := Function.update acl.heap p v } ps
    else addToMatching ta acl ps

/-- The outer loop of `AddPermissions`, `for _, ta := range toAdd`: the inner loop, then
`perms = append(perms, ta)`. The additions are objects of the caller, distinct from one
another and from the manager's; they enter memory at fresh addresses. The slice header
stored in `acl.perms[user]` is not touched by the append. -/
def addLoop {σ : Type} : ACLManager σ → List Ptr → List Permission →
    Option (List Ptr × ACLManager σ)
  | acl, perms, [] => some (perms, acl)
  | acl, perms, ta :: toAdd =>
    match addToMatching ta acl perms with
    | none => none
    | some acl1 =>
      let acl2 := { acl1 with heap := Function.update acl1.heap acl1.next ta,
                              next := acl1.next + 1 }
      addLoop acl2 (perms ++ [acl1.next]) toAdd

/-- The method `AddPermissions`. -/
def AddPermissions {σ : Type} (S : ACLStorage σ) (acl : ACLManager σ) (key user : String)
    (toAdd : List Permission) : Outcome (Except Error Unit) σ :=
  if acl.adminKeys key = false then .returns (.error Error.notAdmin) acl
  else
    match getPerms S acl user with
    | (.error e, acl1) => .returns (.error e) acl1
    | (.ok perms, acl1) =>
      match addLoop acl1 perms toAdd with
      | none => .panics
      | some (perms', acl2) =>
        match S.StoreUserPerms acl2.storage user (deref acl2 perms') with
        | (some cause, st) =>
          .returns (.error (Error.storing user cause)) { acl2 with storage := st }
        | (none, st) => .returns (.ok ()) { acl2 with storage := st }

/-- One `original.RowKeys = append(original.RowKeys[:idx], original.RowKeys[idx+1:]...)`. -/
def removeAt (keys : List (List String)) (idx : Nat) : List (List String) :=
  keys.take idx ++ keys.drop (idx + 1)

/-- The loop of `updatePermRemove` over the keys to remove. -/
def removeKeys : List (List String) → List (List String) → Option (List (List String))
  | keys, [] => some keys
  | keys, k :: ks =>
    match BinarySearchFunc keys k pkCmp with
    | none => none
    | some (idx, ok) => if ok then removeKeys (removeAt keys idx) ks else removeKeys keys ks

/-- The function `updatePermRemove(original, toRemove)`: the returned `(bool, error)` and
the new value of `*original`. -/
def updatePermRemove (original toRemove : Permission) :
    Option (Except Error Bool × Permission) :=
  match toRemove.RowKeys, original.RowKeys with
  | some _, none => some (.error Error.removeSpecificFromBlanket, original)
  | none, none => some (.ok true, original)
  | none, some _ => some (.ok false, original)
  | some rem, some keys =>
    match removeKeys keys rem with
    | none => none
    | some keys' => some (.ok (decide (keys'.length = 0)), { original with RowKeys := some keys' })

/-- The state of the loops of `RemovePermissions`: the array behind the slice `perms`,
which is also the array behind `acl.perms[user]`, and the current length of `perms`. -/
structure RemoveState (σ : Type) where
  acl : ACLManager σ
  arr : List Ptr
  len : Nat

/-- The inner loop of `RemovePermissions`, `for i, p := range perms`, from index `i` on,
for the `n` elements the slice had when the loop began. The result is the error that ends
the whole call, or the state after the loop. On `shouldDelete` the last element of the
slice is written over element `i` and the slice loses its last element. -/
def removeFromMatching {σ : Type} (ta : Permission) (n : Nat) :
    Nat → Nat → RemoveState σ → Option (Except Error Unit × RemoveState σ)
  | 0, _, st => some (.ok (), st)
  | steps + 1, i, st =>
    if i < n then
      match st.arr[i]? with
      | none => none
      | some p =>
        if (st.acl.heap p).Table = ta.Table ∧ (st.acl.heap p).Typ = ta.Typ then
          match updatePermRemove (st.acl.heap p) ta with
          | none => none
          | some (.error e, _) => some (.error e, st)
          | some (.ok shouldDelete, v) =>
            let acl1 := { st.acl with heap := Function.update st.acl.heap p v }
            if shouldDelete then
              match st.arr[st.len - 1]? with
              | none => none
              | some last =>
                some (.ok (), { acl := acl1, arr := st.arr.set i last, len := st.len - 1 })
            else removeFromMatching ta n steps (i + 1) { st with acl := acl1 }
        else removeFromMatching ta n steps (i + 1) st
    else some (.ok (), st)

/-- The outer loop of `RemovePermissions`, `for _, ta := range toRem`. -/
def removeLoop {σ : Type} : RemoveState σ → List Permission →
    Option (Except Error Unit × RemoveState σ)
  | st, [] => some (.ok (), st)
  | st, ta :: toRem =>
    match removeFromMatching ta st.len st.len 0 st with
    | none => none
    | some (.error e, st1) => some (.error e, st1)
    | some (.ok (), st1) => removeLoop st1 toRem

/-- The manager after the loops of `RemovePermissions`: the writes `perms[i] = ...` went
to the array that `acl.perms[user]` also has, with its own length. -/
def RemoveState.manager {σ : Type} (user : String) (st : RemoveState σ) : ACLManager σ :=
  { st.acl with perms := Function.update st.acl.perms user (some st.arr) }

/-- The grant list that the slice `perms` of the loops of `RemovePermissions` points to:
the first `len` elements of the array, read in the memory. -/
def RemoveState.grants {σ : Type} (st : RemoveState σ) : List Permission :=
  deref st.acl (st.arr.take st.len)

/-- The method `RemovePermissions`. -/
def RemovePermissions {σ : Type} (S : ACLStorage σ) (acl : ACLManager σ) (key user : String)
    (toRem : List Permission) : Outcome (Except Error Unit) σ :=
  if acl.adminKeys key = false then .returns (.error Error.notAdmin) acl
  else
    match getPerms S acl user with
    | (.error e, acl1) => .returns (.error e) acl1
    | (.ok perms, acl1) =>
      match removeLoop { acl := acl1, arr := perms, len := perms.length } toRem with
      | none => .panics
      | some (.error e, st) => .returns (.error e) (st.manager user)
      | some (.ok (), st) =>
        let acl2 := st.manager user
        match S.StoreUserPerms acl2.storage user (deref acl2 (st.arr.take st.len)) with
        | (some cause, sto) =>
          .returns (.error (Error.storing user cause)) { acl2 with storage := sto }
        | (none, sto) => .returns (.ok ()) { acl2 with storage := sto }

/-- The method `GetPermissions`. -/
def GetPermissions {σ : Type} (S : ACLStorage σ) (acl : ACLManager σ) (key user : String) :
    Outcome (Except Error (List Ptr)) σ :=
  if acl.adminKeys key = false then .returns (.error Error.notAdmin) acl
  else
    match getPerms S acl user with
    | (r, acl1) => .returns r acl1

/-- The method `GetAllPermissions`. -/
def GetAllPermissions {σ : Type} (acl : ACLManager σ) (key : String) :
    Outcome (Except Error (String → Option (List Ptr))) σ :=
  if acl.adminKeys key = false then .returns (.error Error.notAdmin) acl
  else .returns (.ok acl.perms) acl

/-! ## Reference definitions and concrete collaborators -/

/-- The walk of the WHERE inference in the words of the specification:
`col = literal` gives the one spec `{col: literal}`; `a AND b` gives, when both sides
yield exactly one spec, the union of the two maps with the right side overwriting the
left on conflict, and null otherwise; `a OR b` gives, when both sides are non-null, the
two spec lists concatenated, and null otherwise; any other expression gives null. -/
def walkSpec : Expr → Option (List Spec)
  | .ComparisonExpr .EqualOp (.ColName col) (.Literal literal) =>
    some [fun c => if c = col then some literal else none]
  | .AndExpr a b =>
    match walkSpec a, walkSpec b with
    | some [sa], some [sb] => some [fun c => (sb c).orElse (fun _ => sa c)]
    | _, _ => none
  | .OrExpr a b =>
    match walkSpec a, walkSpec b with
    | some la, some lb => some (la ++ lb)
    | _, _ => none
  | _ => none

/-- A store that keeps every grant list written, the latest first, and reads a user's
latest list; reading a user never written is an error. -/
def logStore : ACLStorage (List (String × List Permission)) where
  StoreUserPerms := fun st user perms => (none, (user, perms) :: st)
  GetUserPerms := fun st user =>
    match st.lookup user with
    | some perms => (.ok perms, st)
    | none => (.error "no rows in result set", st)

/-- A parser given by a table from SQL text to statement: the text is one piece, and a
text that is not in the table does not parse. -/
def tableParser (table : List (String × Statement)) : SqlParser where
  SplitStatementToPieces := fun sql => .ok [sql]
  Parse2 := fun piece =>
    match table.lookup piece with
    | some stmt => .ok stmt
    | none => .error "cannot parse"

/-- A manager for the examples: admin key `KA`, key `KU` of user `U`, primary keys
`t1(k)` and `t2(k1, k2)`, and the given grants of `U` at the addresses `0, 1, ...`. -/
def exampleManager (grants : List Permission) : ACLManager (List (String × List Permission)) where
  storage := [("U", grants)]
  heap := fun p => grants.getD p ⟨0, "", none⟩
  next := grants.length
  perms := fun u => if u = "U" then some (List.range grants.length) else none
  adminKeys := fun k => decide (k = "KA")
  keyToUser := fun k => if k = "KU" then some "U" else if k = "KA" then some "A" else none
  tablePKs := fun t =>
    if t = "t1" then some ["k"] else if t = "t2" then some ["k1", "k2"] else none

/-- Keys in strictly ascending order of `pkCmp`: each key compares below every later key,
so the list is sorted ascending, componentwise, and has no duplicate. -/
def keysSorted (keys : List (List String)) : Prop :=
  keys.Pairwise (fun a b => pkCmp a b = some (-1))

instance keysSortedDecidable (keys : List (List String)) : Decidable (keysSorted keys) := by
  unfold keysSorted
  infer_instance

/-- The test `p.Table == ta.Table && p.Type == ta.Type` of the loops of the manager. -/
def sameTableAndType (p ta : Permission) : Prop :=
  p.Table = ta.Table ∧ p.Typ = ta.Typ

instance sameTableAndTypeDecidable (p ta : Permission) : Decidable (sameTableAndType p ta) := by
  unfold sameTableAndType
  infer_instance

/-- The last step of `AddPermissions` and of `RemovePermissions`: the call
`acl.storage.StoreUserPerms(ctx, user, perms)` with the slice `perms`, then the return of
the wrapped error or of nil. The grant list written to the store is `deref acl perms`. -/
def storeAndReturn {σ : Type} (S : ACLStorage σ) (acl : ACLManager σ) (user : String)
    (perms : List Ptr) : Outcome (Except Error Unit) σ :=
  match S.StoreUserPerms acl.storage user (deref acl perms) with
  | (some cause, st) => .returns (.error (Error.storing user cause)) { acl with storage := st }
  | (none, st) => .returns (.ok ()) { acl with storage := st }

/-- A store whose writes fail: `StoreUserPerms` returns an error and keeps the store as it
is; reads are those of `logStore`. -/
def failingStore : ACLStorage (List (String × List Permission)) where
  StoreUserPerms := fun st _ _ => (some "disk I/O error", st)
  GetUserPerms := logStore.GetUserPerms

/-- The memory after the inner loop of `AddPermissions` for the addition `ta` over the
slice `ptrs`: each object of the slice that has the table and type of `ta` holds the
result of `updatePermAdd`, every other object is as before. -/
def mergedHeap (ta : Permission) (heap : Ptr → Permission) (ptrs : List Ptr) :
    Ptr → Permission :=
  fun q =>
    if q ∈ ptrs ∧ sameTableAndType (heap q) ta then (updatePermAdd (heap q) ta).getD (heap q)
    else heap q

/-! ## internal/db/sqlite/sqlite_db.go -/

/-- One row of `PRAGMA table_info(t)`, with the six columns that `GetPKs` scans: the
declaration index `cid`, the column name, its type, the not-null flag, the default value,
and `pk`, which is `0` for a column outside the primary key and the position of the
column within the primary key, from `1`, otherwise. -/
structure ColumnInfo where
  cid : Int
  name : String
  ttype : String
  notnull : Int
  dflt_value : Option String
  pk : Int
  deriving DecidableEq, Repr

/-- The answers of the `*sql.DB` behind `SQLiteDB` to the two queries of `GetPKs`: the
rows of `SELECT name FROM sqlite_master WHERE type='table'` and, per table, the rows of
`PRAGMA table_info(t)`. A query may fail, and so may the scan of a row. -/
structure SQLiteDB where
  tables : Except String (List (Except String String))
  tableInfo : String → Except String (List (Except String ColumnInfo))

/-- The inner loop of `GetPKs`, `for pkRows.Next()`: the name of a scanned column is
appended to `pksForTable` when its `pk` is `1`. -/
def scanColumns : List (Except String ColumnInfo) → List String → Except String (List String)
  | [], pksForTable => .ok pksForTable
  | .error err :: _, _ => .error err
  | .ok col :: pkRows, pksForTable =>
    if col.pk = 1 then scanColumns pkRows (pksForTable ++ [col.name])
    else scanColumns pkRows pksForTable

/-- The outer loop of `GetPKs`, `for rows.Next()`, on the map `pks`. The list
`pksForTable` that the inner loop builds for a table is not assigned to `pks[tableName]`
or used in any other way: the next iteration begins with the map as it was. -/
def scanTables (db : SQLiteDB) :
    List (Except String String) → (String → Option (List String)) →
      Except String (String → Option (List String))
  | [], pks => .ok pks
  | .error err :: _, _ => .error err
  | .ok tableName :: rows, pks =>
    match db.tableInfo tableName with
    | .error err => .error err
    | .ok pkRows =>
      match scanColumns pkRows [] with
      | .error err => .error err
      | .ok _ => scanTables db rows pks

/-- The method `GetPKs`: the map `pks` starts empty and is returned after the loop over
the tables. -/
def SQLiteDB.GetPKs (db : SQLiteDB) : Except String (String → Option (List String)) :=
  match db.tables with
  | .error err => .error err
  | .ok rows => scanTables db rows (fun _ => none)

/-! ## Reference definitions for the schema and the WHERE inference -/

/-- A database for the examples: table `t1(k, v)` with primary key `k` and table
`t2(k1, k2, v)` with the composite primary key `(k1, k2)`. -/
def exampleDB : SQLiteDB where
  tables := .ok [.ok "t1", .ok "t2"]
  tableInfo := fun t =>
    if t = "t1" then
      .ok [.ok ⟨0, "k", "INTEGER", 1, none, 1⟩, .ok ⟨1, "v", "TEXT", 0, none, 0⟩]
    else if t = "t2" then
      .ok [.ok ⟨0, "k1", "INTEGER", 1, none, 1⟩, .ok ⟨1, "k2", "INTEGER", 1, none, 2⟩,
        .ok ⟨2, "v", "TEXT", 0, none, 0⟩]
    else .error "no such table"

/-- The usual boolean reading of a WHERE expression on a row, which gives every column a
value: `col = literal` holds exactly when the row has the literal for the column, `a AND b`
when both hold, `a OR b` when one holds. The truth of every other expression is given by
`other`. -/
def rowSatisfies (row : String → String) (other : Expr → Bool) : Expr → Bool
  | .ComparisonExpr .EqualOp (.ColName col) (.Literal literal) => decide (row col = literal)
  | .AndExpr a b => rowSatisfies row other a && rowSatisfies row other b
  | .OrExpr a b => rowSatisfies row other a || rowSatisfies row other b
  | e => other e

/-! ## Theorems: the satisfaction predicate `reqPasses` -/

/-- A permission that fails the test `p.Table == req.Table && p.Type == req.Type` is
skipped by `reqPasses`. -/
theorem reqPasses_cons_nomatch (req p : Permission) (perms : List Permission)
    (h : ¬ (p.Table = req.Table ∧ p.Typ = req.Typ)) :
    reqPasses req (p :: perms) = reqPasses req perms := by
  simp only [reqPasses, if_neg h]

/-- The result `true` of `reqPasses` always comes from a blanket permission for the
requirement's table and mode: no other path of the function returns `true`. -/
theorem reqPasses_true_blanket (req : Permission) (perms : List Permission)
    (h : reqPasses req perms = some true) :
    ∃ p ∈ perms, (p.Table = req.Table ∧ p.Typ = req.Typ) ∧ p.RowKeys = none := by
  induction perms with
  | nil => simp [reqPasses] at h
  | cons q rest ih =>
    by_cases hm : q.Table = req.Table ∧ q.Typ = req.Typ
    · cases hq : q.RowKeys with
      | none => exact ⟨q, List.mem_cons_self _ _, hm, hq⟩
      | some granted =>
        cases hr : req.RowKeys with
        | none => simp [reqPasses, hm, hq, hr] at h
        | some wanted =>
          cases hk : reqKeysFound granted wanted with
          | none => simp [reqPasses, hm, hq, hr, hk] at h
          | some b =>
            cases b with
            | false => simp [reqPasses, hm, hq, hr, hk] at h
            | true =>
              have h2 : reqPasses req rest = some true := by
                simpa [reqPasses, hm, hq, hr, hk] using h
              obtain ⟨p, hp, hpm, hpn⟩ := ih h2
              exact ⟨p, List.mem_cons_of_mem _ hp, hpm, hpn⟩
    · rw [reqPasses_cons_nomatch req q rest hm] at h
      obtain ⟨p, hp, hpm, hpn⟩ := ih h
      exact ⟨p, List.mem_cons_of_mem _ hp, hpm, hpn⟩

/-- C1, evaluated on the code: the requirement `(t2, Write, Rows [[5,10],[6,11]])` against
the single grant `(t2, Write, Rows [[5,10],[6,11]])`. The grant's keys are sorted and
duplicate-free, all keys have length 2 and every required key occurs in the grant, yet
`reqPasses` returns `false`: after the key loop has found every key the function does not
return `true` but falls through to the final `return false`. -/
theorem reqPasses_rows_subset_returns_false :
    (∀ k ∈ [["5", "10"], ["6", "11"]], k ∈ [["5", "10"], ["6", "11"]]) ∧
    pkCmp ["5", "10"] ["6", "11"] = some (-1) ∧
    reqKeysFound [["5", "10"], ["6", "11"]] [["5", "10"], ["6", "11"]] = some true ∧
    reqPasses ⟨Write, "t2", some [["5", "10"], ["6", "11"]]⟩
      [⟨Write, "t2", some [["5", "10"], ["6", "11"]]⟩] = some false := by
  refine ⟨fun k hk => hk, by decide, by decide, by decide⟩

/-- C2: in a grant list where no two permissions share (table, mode), a permission with
scope All for the requirement's table and mode makes `reqPasses` return `true`, whatever
the requirement's scope is. -/
theorem reqPasses_blanket_grant (req : Permission) (grants : List Permission) (p : Permission)
    (huniq : grants.Pairwise (fun a b => ¬ (a.Table = b.Table ∧ a.Typ = b.Typ)))
    (hp : p ∈ grants) (hm : p.Table = req.Table ∧ p.Typ = req.Typ)
    (hall : p.RowKeys = none) :
    reqPasses req grants = some true := by
  induction grants with
  | nil => simp at hp
  | cons q rest ih =>
    rw [List.pairwise_cons] at huniq
    rcases List.mem_cons.mp hp with hpq | hprest
    · subst hpq
      simp [reqPasses, hm, hall]
    · have hq : ¬ (q.Table = req.Table ∧ q.Typ = req.Typ) := by
        intro hq
        exact huniq.1 p hprest ⟨hq.1.trans hm.1.symm, hq.2.trans hm.2.symm⟩
      rw [reqPasses_cons_nomatch req q rest hq]
      exact ih huniq.2 hprest

/-- Witness of C2: a Rows requirement on `(t1, Read)` against a list holding a Write grant
on `t1` and the blanket Read grant on `t1`. -/
theorem reqPasses_blanket_grant_witness :
    reqPasses ⟨Read, "t1", some [["7"]]⟩
      [⟨Write, "t1", some [["5"]]⟩, ⟨Read, "t1", none⟩] = some true :=
  reqPasses_blanket_grant ⟨Read, "t1", some [["7"]]⟩
    [⟨Write, "t1", some [["5"]]⟩, ⟨Read, "t1", none⟩] ⟨Read, "t1", none⟩
    (by decide) (by decide) (by decide) rfl

/-- C3: when no permission of the grant list has both the table and the mode of the
requirement, `reqPasses` returns `false`; in particular a Write grant on the same table,
even a blanket one, does not satisfy a Read requirement, and a grant on another table does
not satisfy it either. -/
theorem reqPasses_no_matching_grant :
    (∀ (req : Permission) (grants : List Permission),
      (∀ p ∈ grants, ¬ (p.Table = req.Table ∧ p.Typ = req.Typ)) →
      reqPasses req grants = some false) ∧
    (∀ (t : String) (scope : Option (List (List String))),
      reqPasses ⟨Read, t, scope⟩ [⟨Write, t, none⟩] = some false) ∧
    (∀ (m : PermissionType) (t u : String) (scope granted : Option (List (List String))),
      u ≠ t → reqPasses ⟨m, t, scope⟩ [⟨m, u, granted⟩] = some false) := by
  have general : ∀ (req : Permission) (grants : List Permission),
      (∀ p ∈ grants, ¬ (p.Table = req.Table ∧ p.Typ = req.Typ)) →
      reqPasses req grants = some false := by
    intro req grants
    induction grants with
    | nil => intro _; rfl
    | cons q rest ih =>
      intro h
      rw [reqPasses_cons_nomatch req q rest (h q (List.mem_cons_self _ _))]
      exact ih (fun p hp => h p (List.mem_cons_of_mem _ hp))
  refine ⟨general, ?_, ?_⟩
  · intro t scope
    apply general
    intro p hp
    simp only [List.mem_singleton] at hp
    subst hp
    simp [Read, Write]
  · intro m t u scope granted hne
    apply general
    intro p hp
    simp only [List.mem_singleton] at hp
    subst hp
    simp [hne]

/-- Witness of C3: a Read requirement on `t1` against a blanket Write grant on `t1` and a
blanket Read grant on `t2`. -/
theorem reqPasses_no_matching_grant_witness :
    reqPasses ⟨Read, "t1", none⟩ [⟨Write, "t1", none⟩, ⟨Read, "t2", none⟩] = some false :=
  reqPasses_no_matching_grant.1 ⟨Read, "t1", none⟩
    [⟨Write, "t1", none⟩, ⟨Read, "t2", none⟩] (by decide)

/-- C4: a requirement with scope All on `(t, m)` fails against a grant list whose only
permission for `(t, m)` has scope `Rows K` with `K` non-empty. -/
theorem reqPasses_blanket_requirement_rows_grant (req : Permission)
    (grants : List Permission) (p : Permission) (K : List (List String))
    (hreq : req.RowKeys = none)
    (hp : p ∈ grants) (hm : p.Table = req.Table ∧ p.Typ = req.Typ)
    (honly : ∀ q ∈ grants, (q.Table = req.Table ∧ q.Typ = req.Typ) → q = p)
    (hK : p.RowKeys = some K) (hne : K ≠ []) :
    reqPasses req grants = some false := by
  have _hK : p.RowKeys ≠ some [] := by rw [hK]; simpa using hne
  induction grants with
  | nil => simp at hp
  | cons q rest ih =>
    by_cases hq : q.Table = req.Table ∧ q.Typ = req.Typ
    · have hqp : q = p := honly q (List.mem_cons_self _ _) hq
      subst hqp
      simp [reqPasses, hq, hK, hreq]
    · rw [reqPasses_cons_nomatch req q rest hq]
      rcases List.mem_cons.mp hp with hpq | hprest
      · exact absurd (hpq ▸ hm) hq
      · exact ih hprest (fun r hr => honly r (List.mem_cons_of_mem _ hr))

/-- Witness of C4: `SELECT * FROM t1` against the grant `(t1, Read, Rows [[5],[10]])`. -/
theorem reqPasses_blanket_requirement_rows_grant_witness :
    reqPasses ⟨Read, "t1", none⟩ [⟨Read, "t1", some [["10"], ["5"]]⟩] = some false :=
  reqPasses_blanket_requirement_rows_grant ⟨Read, "t1", none⟩
    [⟨Read, "t1", some [["10"], ["5"]]⟩] ⟨Read, "t1", some [["10"], ["5"]]⟩ [["10"], ["5"]]
    rfl (by decide) (by decide) (by decide) rfl (by decide)

/-! ## Theorems: the library functions return -/

/-- When `a` is no longer than `b`, the function `pkCmp(a, b)` reads no index past the end
of `b` and returns. -/
theorem pkCmp_returns (a b : List String) (h : a.length ≤ b.length) :
    ∃ c, pkCmp a b = some c := by
  induction a generalizing b with
  | nil => exact ⟨0, rfl⟩
  | cons x a ih =>
    cases b with
    | nil => simp at h
    | cons y b =>
      by_cases hc : stringsCompare x y = 0
      · obtain ⟨c, hc2⟩ := ih b (by simpa using h)
        exact ⟨c, by simp [pkCmp, hc, hc2]⟩
      · exact ⟨stringsCompare x y, by simp [pkCmp, hc]⟩

/-- The loop of the binary search ends within `j - i` iterations: when the comparison
returns on every element, the loop returns, with a position not past `j`. -/
theorem binarySearchLoop_returns {E T : Type} (x : List E) (target : T)
    (cmp : E → T → Option Int) (hcmp : ∀ e ∈ x, ∃ c, cmp e target = some c) :
    ∀ (fuel i j : Nat), j ≤ x.length → j - i ≤ fuel →
      ∃ r, binarySearchLoop x target cmp fuel i j = some r ∧ r ≤ max i j := by
  intro fuel
  induction fuel with
  | zero =>
    intro i j _ hfuel
    have hij : ¬ i < j := by omega
    exact ⟨i, by simp [binarySearchLoop, hij], le_max_left _ _⟩
  | succ fuel ih =>
    intro i j hj hfuel
    by_cases hij : i < j
    · have hh : (i + j) / 2 < x.length := by omega
      obtain ⟨c, hc⟩ := hcmp (x[(i + j) / 2]) (List.getElem_mem _)
      have hget : x[(i + j) / 2]? = some (x[(i + j) / 2]) := List.getElem?_eq_getElem hh
      by_cases hneg : c < 0
      · obtain ⟨r, hr, hle⟩ := ih ((i + j) / 2 + 1) j hj (by omega)
        refine ⟨r, ?_, ?_⟩
        · simp [binarySearchLoop, hij, hget, hc, hneg, hr]
        · have : max ((i + j) / 2 + 1) j ≤ max i j := by
            rw [max_eq_right (by omega), max_eq_right (by omega)]
          omega
      · obtain ⟨r, hr, hle⟩ := ih i ((i + j) / 2) (by omega) (by omega)
        refine ⟨r, ?_, ?_⟩
        · simp [binarySearchLoop, hij, hget, hc, hneg, hr]
        · have : max i ((i + j) / 2) ≤ max i j := by
            rw [max_eq_right (by omega), max_eq_right (by omega)]
            omega
          omega
    · exact ⟨i, by simp [binarySearchLoop, hij], le_max_left _ _⟩

/-- The binary search returns when the comparison returns on every element, and the
position it returns is at most the length of the slice. -/
theorem BinarySearchFunc_returns {E T : Type} (x : List E) (target : T)
    (cmp : E → T → Option Int) (hcmp : ∀ e ∈ x, ∃ c, cmp e target = some c) :
    ∃ idx ok, BinarySearchFunc x target cmp = some (idx, ok) ∧ idx ≤ x.length := by
  obtain ⟨i, hi, hle⟩ :=
    binarySearchLoop_returns x target cmp hcmp x.length 0 x.length (le_refl _) (by omega)
  have hle2 : i ≤ x.length := by simpa using hle
  by_cases hlt : i < x.length
  · obtain ⟨c, hc⟩ := hcmp (x[i]) (List.getElem_mem _)
    have hget : x[i]? = some (x[i]) := List.getElem?_eq_getElem hlt
    exact ⟨i, decide (c = 0), by simp [BinarySearchFunc, hi, hget, hc], hle2⟩
  · have hget : x[i]? = none := List.getElem?_eq_none (by omega)
    exact ⟨i, false, by simp [BinarySearchFunc, hi, hget], hle2⟩

/-- The key loop of `reqPasses` returns when no granted key is longer than a required
key. -/
theorem reqKeysFound_returns (granted wanted : List (List String))
    (hlen : ∀ a ∈ granted, ∀ b ∈ wanted, a.length ≤ b.length) :
    ∃ found, reqKeysFound granted wanted = some found := by
  induction wanted with
  | nil => exact ⟨true, rfl⟩
  | cons k ks ih =>
    obtain ⟨idx, ok, hb, _⟩ := BinarySearchFunc_returns granted k pkCmp
      (fun a ha => pkCmp_returns a k (hlen a ha k (List.mem_cons_self _ _)))
    obtain ⟨found, hf⟩ := ih (fun a ha b hb => hlen a ha b (List.mem_cons_of_mem _ hb))
    cases ok with
    | false => exact ⟨false, by simp [reqKeysFound, hb]⟩
    | true => exact ⟨found, by simp [reqKeysFound, hb, hf]⟩

/-- The function `reqPasses` returns (it does not panic) when, in every permission for
the table and mode of the requirement, no granted key is longer than a required key; so
it returns whenever the keys of one table all have the table's primary-key length. -/
theorem reqPasses_returns (req : Permission) (perms : List Permission)
    (hlen : ∀ p ∈ perms, (p.Table = req.Table ∧ p.Typ = req.Typ) →
      ∀ granted wanted, p.RowKeys = some granted → req.RowKeys = some wanted →
        ∀ a ∈ granted, ∀ b ∈ wanted, a.length ≤ b.length) :
    ∃ pass, reqPasses req perms = some pass := by
  induction perms with
  | nil => exact ⟨false, rfl⟩
  | cons q rest ih =>
    obtain ⟨pass, hpass⟩ := ih (fun p hp => hlen p (List.mem_cons_of_mem _ hp))
    by_cases hm : q.Table = req.Table ∧ q.Typ = req.Typ
    · cases hq : q.RowKeys with
      | none => exact ⟨true, by simp [reqPasses, hm, hq]⟩
      | some granted =>
        cases hr : req.RowKeys with
        | none => exact ⟨false, by simp [reqPasses, hm, hq, hr]⟩
        | some wanted =>
          obtain ⟨found, hf⟩ := reqKeysFound_returns granted wanted
            (hlen q (List.mem_cons_self _ _) hm granted wanted hq hr)
          cases found with
          | false => exact ⟨false, by simp [reqPasses, hm, hq, hr, hf]⟩
          | true => exact ⟨pass, by simp [reqPasses, hm, hq, hr, hf, hpass]⟩
    · exact ⟨pass, by rw [reqPasses_cons_nomatch req q rest hm, hpass]⟩

/-! ## Theorems: the permission manager -/

/-- The loop of `CheckPermissions` collects exactly the requirements for which `reqPasses`
returns `false`, when `reqPasses` returns for every requirement. -/
theorem failingReqs_eq_filter (perms : List Permission) (reqs : List RequiredPermission)
    (hdef : ∀ r ∈ reqs, reqPasses r.Perm perms ≠ none) :
    failingReqs perms reqs
      = some (reqs.filter (fun r => decide (reqPasses r.Perm perms = some false))) := by
  induction reqs with
  | nil => rfl
  | cons r rs ih =>
    have hr := hdef r (List.mem_cons_self _ _)
    have ih' := ih (fun q hq => hdef q (List.mem_cons_of_mem _ hq))
    cases hres : reqPasses r.Perm perms with
    | none => exact absurd hres hr
    | some b =>
      cases b <;> simp [failingReqs, hres, ih', List.filter_cons]

/-- When `reqPasses` returns on each requirement, `CheckPermissions` returns nil exactly
when every requirement passes, and otherwise returns the insufficient-permissions error
whose list is the sub-list of all requirements that fail, in the analyzer's order. -/
theorem CheckPermissions_of_reqPasses_returns {σ : Type} (parser : SqlParser)
    (S : ACLStorage σ) (acl acl1 : ACLManager σ) (key sql user : String)
    (reqs : List RequiredPermission) (perms : List Ptr)
    (hkey : acl.keyToUser key = some user)
    (hparse : Parse parser sql acl.tablePKs = some (.ok reqs))
    (hperms : getPerms S acl user = (.ok perms, acl1))
    (hdef : ∀ r ∈ reqs, reqPasses r.Perm (deref acl1 perms) ≠ none) :
    (CheckPermissions parser S acl key sql = .returns (.ok ()) acl1
      ↔ ∀ r ∈ reqs, reqPasses r.Perm (deref acl1 perms) = some true) ∧
    (¬ (∀ r ∈ reqs, reqPasses r.Perm (deref acl1 perms) = some true) →
      CheckPermissions parser S acl key sql
        = .returns (.error (Error.insufficientPermissions
            (reqs.filter (fun r => decide (reqPasses r.Perm (deref acl1 perms) = some false)))))
          acl1) := by
  have hcheck : CheckPermissions parser S acl key sql
      = if (reqs.filter (fun r =>
            decide (reqPasses r.Perm (deref acl1 perms) = some false))).length > 0
        then .returns (.error (Error.insufficientPermissions
            (reqs.filter (fun r => decide (reqPasses r.Perm (deref acl1 perms) = some false)))))
          acl1
        else .returns (.ok ()) acl1 := by
    simp only [CheckPermissions, hkey, hparse, hperms, failingReqs_eq_filter _ _ hdef]
  have hlen : (reqs.filter (fun r =>
        decide (reqPasses r.Perm (deref acl1 perms) = some false))).length > 0
      ↔ ¬ (∀ r ∈ reqs, reqPasses r.Perm (deref acl1 perms) = some true) := by
    rw [gt_iff_lt, List.length_pos, ne_eq, List.filter_eq_nil_iff]
    constructor
    · intro h hall
      apply h
      intro r hr
      simp [hall r hr]
    · intro h hnone
      apply h
      intro r hr
      have h1 := hnone r hr
      have h2 := hdef r hr
      cases hres : reqPasses r.Perm (deref acl1 perms) with
      | none => exact absurd hres h2
      | some b => cases b <;> simp_all
  constructor
  · rw [hcheck]
    constructor
    · intro h
      by_contra hnot
      rw [if_pos (hlen.mpr hnot)] at h
      simp at h
    · intro hall
      rw [if_neg (fun hpos => hlen.mp hpos hall)]
  · intro hnot
    rw [hcheck, if_pos (hlen.mpr hnot)]

/-- Counterexample to C5 as stated. In each case the key resolves to a user and the
analyzer returns a list of requirements. First: `U` holds `(t3, Read, Rows [[5]])`, the
schema has no table `t3`, and `U` runs `SELECT * FROM t3 WHERE k = 5`; the requirement has
the key `[]`, `pkCmp [5] []` indexes the empty key, and `CheckPermissions` panics. Second:
`U` holds `(t1, Read, Rows [[5,6]])`, a key longer than the primary key of `t1`, and runs
`SELECT * FROM t1 WHERE k = 5`; `pkCmp [5,6] [5]` indexes past the required key, and
`CheckPermissions` panics. Third: the key `KA` resolves to user `A`, whose grants are
neither in memory nor in the store; `CheckPermissions` returns the fetching error, which
is neither nil nor the insufficient-permissions error. -/
theorem CheckPermissions_panics_or_fetch_error :
    (exampleManager [⟨Read, "t3", some [["5"]]⟩]).keyToUser "KU" = some "U" ∧
    Parse
        (tableParser [("SELECT * FROM t3 WHERE k = 5", ⟨[.Select [.AliasedTableExpr "t3" ""]
          (some ⟨.ComparisonExpr .EqualOp (.ColName "k") (.Literal "5")⟩)]⟩)])
        "SELECT * FROM t3 WHERE k = 5" (exampleManager [⟨Read, "t3", some [["5"]]⟩]).tablePKs
      = some (.ok [⟨⟨Read, "t3", some [[]]⟩, .Select [.AliasedTableExpr "t3" ""]
          (some ⟨.ComparisonExpr .EqualOp (.ColName "k") (.Literal "5")⟩)⟩]) ∧
    pkCmp ["5"] [] = none ∧
    CheckPermissions
        (tableParser [("SELECT * FROM t3 WHERE k = 5", ⟨[.Select [.AliasedTableExpr "t3" ""]
          (some ⟨.ComparisonExpr .EqualOp (.ColName "k") (.Literal "5")⟩)]⟩)])
        logStore (exampleManager [⟨Read, "t3", some [["5"]]⟩]) "KU"
        "SELECT * FROM t3 WHERE k = 5"
      = .panics ∧
    Parse
        (tableParser [("SELECT * FROM t1 WHERE k = 5", ⟨[.Select [.AliasedTableExpr "t1" ""]
          (some ⟨.ComparisonExpr .EqualOp (.ColName "k") (.Literal "5")⟩)]⟩)])
        "SELECT * FROM t1 WHERE k = 5"
        (exampleManager [⟨Read, "t1", some [["5", "6"]]⟩]).tablePKs
      = some (.ok [⟨⟨Read, "t1", some [["5"]]⟩, .Select [.AliasedTableExpr "t1" ""]
          (some ⟨.ComparisonExpr .EqualOp (.ColName "k") (.Literal "5")⟩)⟩]) ∧
    pkCmp ["5", "6"] ["5"] = none ∧
    CheckPermissions
        (tableParser [("SELECT * FROM t1 WHERE k = 5", ⟨[.Select [.AliasedTableExpr "t1" ""]
          (some ⟨.ComparisonExpr .EqualOp (.ColName "k") (.Literal "5")⟩)]⟩)])
        logStore (exampleManager [⟨Read, "t1", some [["5", "6"]]⟩]) "KU"
        "SELECT * FROM t1 WHERE k = 5"
      = .panics ∧
    (exampleManager []).keyToUser "KA" = some "A" ∧
    Parse (tableParser [("SELECT * FROM t1", ⟨[.Select [.AliasedTableExpr "t1" ""] none]⟩)])
        "SELECT * FROM t1" (exampleManager []).tablePKs
      = some (.ok [⟨⟨Read, "t1", none⟩, .Select [.AliasedTableExpr "t1" ""] none⟩]) ∧
    CheckPermissions
        (tableParser [("SELECT * FROM t1", ⟨[.Select [.AliasedTableExpr "t1" ""] none]⟩)])
        logStore (exampleManager []) "KA" "SELECT * FROM t1"
      = .returns (.error (Error.fetching "A" "no rows in result set")) (exampleManager []) :=
  ⟨rfl, rfl, rfl, rfl, rfl, rfl, rfl, rfl, rfl, rfl⟩

/-- C5 as amended: for a key that resolves to a user whose grants `getPerms` delivers, from
memory or from the store, and the requirements the analyzer returns, when in every grant
with the table and mode of a requirement no granted key is longer than a key of the
requirement (as when all keys of a table have the length of its primary key):
`CheckPermissions` returns, it returns nil exactly when every requirement passes
`reqPasses`, and otherwise it returns the insufficient-permissions error whose list is the
sub-list of all requirements that fail, each once, in the analyzer's order. -/
theorem CheckPermissions_reports_every_failing {σ : Type} (parser : SqlParser)
    (S : ACLStorage σ) (acl acl1 : ACLManager σ) (key sql user : String)
    (reqs : List RequiredPermission) (perms : List Ptr)
    (hkey : acl.keyToUser key = some user)
    (hparse : Parse parser sql acl.tablePKs = some (.ok reqs))
    (hperms : getPerms S acl user = (.ok perms, acl1))
    (hlen : ∀ r ∈ reqs, ∀ p ∈ deref acl1 perms,
      (p.Table = r.Perm.Table ∧ p.Typ = r.Perm.Typ) →
      ∀ a ∈ p.RowKeys.getD [], ∀ b ∈ r.Perm.RowKeys.getD [], a.length ≤ b.length) :
    (CheckPermissions parser S acl key sql = .returns (.ok ()) acl1
      ↔ ∀ r ∈ reqs, reqPasses r.Perm (deref acl1 perms) = some true) ∧
    (¬ (∀ r ∈ reqs, reqPasses r.Perm (deref acl1 perms) = some true) →
      CheckPermissions parser S acl key sql
        = .returns (.error (Error.insufficientPermissions
            (reqs.filter (fun r => decide (reqPasses r.Perm (deref acl1 perms) = some false)))))
          acl1) ∧
    (∀ r ∈ reqs, ∃ pass, reqPasses r.Perm (deref acl1 perms) = some pass) := by
  have hret : ∀ r ∈ reqs, ∃ pass, reqPasses r.Perm (deref acl1 perms) = some pass := by
    intro r hr
    apply reqPasses_returns
    intro p hp hm granted wanted hg hw a ha b hb
    exact hlen r hr p hp hm a (by rw [hg]; exact ha) b (by rw [hw]; exact hb)
  have hdef : ∀ r ∈ reqs, reqPasses r.Perm (deref acl1 perms) ≠ none := by
    intro r hr hn
    obtain ⟨pass, hpass⟩ := hret r hr
    rw [hn] at hpass
    cases hpass
  obtain ⟨h1, h2⟩ := CheckPermissions_of_reqPasses_returns parser S acl acl1 key sql user
    reqs perms hkey hparse hperms hdef
  exact ⟨h1, h2, hret⟩

/-- Witness of C5 as amended: user `U` holds a blanket Read grant on `t1` and the Write
grant `Rows [[5,10]]` on `t2`; the batch reads `t1`, deletes the row `(6, 11)` of `t2` and
inserts into `t3`. The first requirement passes and the two others are both reported, in
statement order. -/
theorem CheckPermissions_reports_every_failing_witness :
    CheckPermissions
      (tableParser [("SELECT * FROM t1; DELETE FROM t2 WHERE k1 = 6 AND k2 = 11; INSERT INTO t3 VALUES (1)",
        ⟨[.Select [.AliasedTableExpr "t1" ""] none, .Other,
          .Delete [.AliasedTableExpr "t2" ""]
            (some ⟨.AndExpr (.ComparisonExpr .EqualOp (.ColName "k1") (.Literal "6"))
              (.ComparisonExpr .EqualOp (.ColName "k2") (.Literal "11"))⟩),
          .Other, .Insert "t3"]⟩)])
      logStore (exampleManager [⟨Read, "t1", none⟩, ⟨Write, "t2", some [["5", "10"]]⟩]) "KU"
      "SELECT * FROM t1; DELETE FROM t2 WHERE k1 = 6 AND k2 = 11; INSERT INTO t3 VALUES (1)"
    = .returns (.error (Error.insufficientPermissions
        [⟨⟨Write, "t2", some [["6", "11"]]⟩, .Delete [.AliasedTableExpr "t2" ""]
            (some ⟨.AndExpr (.ComparisonExpr .EqualOp (.ColName "k1") (.Literal "6"))
              (.ComparisonExpr .EqualOp (.ColName "k2") (.Literal "11"))⟩)⟩,
         ⟨⟨Write, "t3", none⟩, .Insert "t3"⟩]))
      (getPerms logStore
        (exampleManager [⟨Read, "t1", none⟩, ⟨Write, "t2", some [["5", "10"]]⟩]) "U").2 :=
  (CheckPermissions_reports_every_failing
    (tableParser [("SELECT * FROM t1; DELETE FROM t2 WHERE k1 = 6 AND k2 = 11; INSERT INTO t3 VALUES (1)",
        ⟨[.Select [.AliasedTableExpr "t1" ""] none, .Other,
          .Delete [.AliasedTableExpr "t2" ""]
            (some ⟨.AndExpr (.ComparisonExpr .EqualOp (.ColName "k1") (.Literal "6"))
              (.ComparisonExpr .EqualOp (.ColName "k2") (.Literal "11"))⟩),
          .Other, .Insert "t3"]⟩)])
    logStore (exampleManager [⟨Read, "t1", none⟩, ⟨Write, "t2", some [["5", "10"]]⟩])
    (getPerms logStore
      (exampleManager [⟨Read, "t1", none⟩, ⟨Write, "t2", some [["5", "10"]]⟩]) "U").2
    "KU" "SELECT * FROM t1; DELETE FROM t2 WHERE k1 = 6 AND k2 = 11; INSERT INTO t3 VALUES (1)"
    "U"
    [⟨⟨Read, "t1", none⟩, .Select [.AliasedTableExpr "t1" ""] none⟩,
     ⟨⟨Write, "t2", some [["6", "11"]]⟩, .Delete [.AliasedTableExpr "t2" ""]
        (some ⟨.AndExpr (.ComparisonExpr .EqualOp (.ColName "k1") (.Literal "6"))
          (.ComparisonExpr .EqualOp (.ColName "k2") (.Literal "11"))⟩)⟩,
     ⟨⟨Write, "t3", none⟩, .Insert "t3"⟩]
    [0, 1] rfl rfl rfl (by decide)).2.1 (by decide)

/-- C6: for a key that is not an admin key, `AddPermissions`, `RemovePermissions`,
`GetPermissions` and `GetAllPermissions` return the not-admin error and leave the manager,
its memory and the store as they were. -/
theorem notAdmin_rejected_unchanged {σ : Type} (S : ACLStorage σ) (acl : ACLManager σ)
    (key user : String) (permissions : List Permission)
    (hkey : acl.adminKeys key = false) :
    AddPermissions S acl key user permissions = .returns (.error Error.notAdmin) acl ∧
    RemovePermissions S acl key user permissions = .returns (.error Error.notAdmin) acl ∧
    GetPermissions S acl key user = .returns (.error Error.notAdmin) acl ∧
    GetAllPermissions acl key = .returns (.error Error.notAdmin) acl := by
  refine ⟨?_, ?_, ?_, ?_⟩
  · simp only [AddPermissions, hkey, if_true]
  · simp only [RemovePermissions, hkey, if_true]
  · simp only [GetPermissions, hkey, if_true]
  · simp only [GetAllPermissions, hkey, if_true]

/-- Witness of C6: the non-admin key `KU` asks to add a blanket Write grant on `t1`. -/
theorem notAdmin_rejected_unchanged_witness :
    AddPermissions logStore (exampleManager [⟨Read, "t1", some [["5"]]⟩]) "KU" "U"
        [⟨Write, "t1", none⟩]
      = .returns (.error Error.notAdmin) (exampleManager [⟨Read, "t1", some [["5"]]⟩]) :=
  (notAdmin_rejected_unchanged logStore (exampleManager [⟨Read, "t1", some [["5"]]⟩]) "KU" "U"
    [⟨Write, "t1", none⟩] rfl).1

/-! ## Theorems: the requirement analyzer -/

/-- A spec without a value for one of the primary-key columns has no row. -/
theorem specRow_missing_column (spec : Spec) (pk : List String)
    (h : ∃ c ∈ pk, spec c = none) : specRow spec pk = none := by
  induction pk with
  | nil => simp at h
  | cons d pk ih =>
    cases hd : spec d with
    | none => simp [specRow, hd]
    | some v =>
      obtain ⟨c, hc, hcn⟩ := h
      rcases List.mem_cons.mp hc with hcd | hcpk
      · rw [hcd, hd] at hcn
        cases hcn
      · simp [specRow, hd, ih ⟨c, hcpk, hcn⟩]

/-- One spec without a row makes the loop over the specs end with `return nil`. -/
theorem specRows_missing_column (pk : List String) (specs : List Spec)
    (h : ∃ s ∈ specs, specRow s pk = none) : specRows pk specs = none := by
  induction specs with
  | nil => simp at h
  | cons t specs ih =>
    cases ht : specRow t pk with
    | none => simp [specRows, ht]
    | some row =>
      obtain ⟨s, hs, hsn⟩ := h
      rcases List.mem_cons.mp hs with hst | hsrest
      · rw [hst, ht] at hsn
        cases hsn
      · simp [specRows, ht, ih ⟨s, hsrest, hsn⟩]

/-- C7: for a non-empty primary-key column list `P` and a WHERE expression whose walk is
non-null, if one of the returned specs has no value for one of the columns of `P`, then
`whereNodeToRows` returns nil (scope All), whatever the other specs hold. -/
theorem whereNodeToRows_spec_lacking_pk_column (w : Expr) (P : List String)
    (specs : List Spec) (hP : P ≠ [])
    (hwalk : recurseOnWhereExpr w = some specs)
    (hlack : ∃ s ∈ specs, ∃ c ∈ P, s c = none) :
    whereNodeToRows (some ⟨w⟩) P = none := by
  have _hP := hP
  obtain ⟨s, hs, hc⟩ := hlack
  have hrows : specRows P specs = none :=
    specRows_missing_column P specs ⟨s, hs, specRow_missing_column s P hc⟩
  simp [whereNodeToRows, hwalk, hrows]

/-- Witness of C7: `k = 5 OR y = 10` against `P = [k]`, where the first spec gives the
whole key and the second gives no `k`. -/
theorem whereNodeToRows_spec_lacking_pk_column_witness :
    whereNodeToRows
      (some ⟨.OrExpr (.ComparisonExpr .EqualOp (.ColName "k") (.Literal "5"))
        (.ComparisonExpr .EqualOp (.ColName "y") (.Literal "10"))⟩) ["k"] = none :=
  whereNodeToRows_spec_lacking_pk_column
    (.OrExpr (.ComparisonExpr .EqualOp (.ColName "k") (.Literal "5"))
      (.ComparisonExpr .EqualOp (.ColName "y") (.Literal "10")))
    ["k"] [Spec.single "k" "5", Spec.single "y" "10"] (by decide) rfl
    ⟨Spec.single "y" "10", by simp, "k", by simp, by decide⟩

/-- The two copy loops of the AND case build the union of the two maps in which the right
map wins. -/
theorem copyInto_eq_union (l r : Spec) :
    Spec.copyInto (Spec.copyInto (fun _ => none) l) r
      = fun c => (r c).orElse (fun _ => l c) := by
  funext c
  unfold Spec.copyInto
  cases r c <;> cases l c <;> rfl

/-- C8: `recurseOnWhereExpr` equals the reference walk on every expression. -/
theorem recurseOnWhereExpr_eq_walkSpec (e : Expr) :
    recurseOnWhereExpr e = walkSpec e := by
  induction e with
  | ColName name => rfl
  | Literal val => rfl
  | ComparisonExpr op left right _ _ =>
    cases op <;> cases left <;> cases right <;> rfl
  | AndExpr left right ihl ihr =>
    simp only [recurseOnWhereExpr, walkSpec, ihl, ihr]
    split <;> simp_all [copyInto_eq_union]
  | OrExpr left right ihl ihr =>
    simp only [recurseOnWhereExpr, walkSpec, ihl, ihr]
    split <;> simp_all
  | NotExpr e _ => rfl
  | BetweenExpr l f t _ _ _ => rfl
  | IsExpr l _ => rfl
  | FuncExpr name => rfl
  | Subquery => rfl

/-- The walk of nodes that are no statements leaves the requirements as they are. -/
theorem walkNodes_other (tableToPK : String → Option (List String))
    (reqs : List RequiredPermission) (nodes : List SQLNode)
    (h : ∀ n ∈ nodes, n = SQLNode.Other) :
    walkNodes tableToPK reqs nodes = some (.ok reqs) := by
  induction nodes with
  | nil => rfl
  | cons n nodes ih =>
    have hn : n = SQLNode.Other := h n (List.mem_cons_self _ _)
    subst hn
    simp only [walkNodes, visitNode]
    exact ih (fun m hm => h m (List.mem_cons_of_mem _ hm))

/-- A batch of one statement whose tree holds no statement node below its top node: the
result of `Parse` is the result of the visitor on the top node. -/
theorem Parse_single_statement (parser : SqlParser)
    (tableToPK : String → Option (List String)) (sql piece : String)
    (top : SQLNode) (below : List SQLNode)
    (hsplit : parser.SplitStatementToPieces sql = .ok [piece])
    (hparse : parser.Parse2 piece = .ok ⟨top :: below⟩)
    (hbelow : ∀ n ∈ below, n = SQLNode.Other) :
    Parse parser sql tableToPK = visitNode tableToPK [] top := by
  simp only [Parse, hsplit, parsePieces, hparse, walkNodes]
  cases hv : visitNode tableToPK [] top with
  | none => rfl
  | some r =>
    cases r with
    | error e => rfl
    | ok reqs => simp [walkNodes_other tableToPK reqs below hbelow]

/-- C9: for a statement with no nested statement below its top node (in SQL the only
statements nested in a SELECT, UPDATE, DELETE or INSERT are SELECTs), `Parse` returns
exactly one requirement: mode Read for a SELECT with one table in FROM, mode Write for an
UPDATE and a DELETE with one table, each with the scope `whereNodeToRows` of the
statement's WHERE against the primary key of the table (nil, that is All, when there is no
WHERE); and mode Write with scope All for an INSERT, whatever is inserted and whatever the
schema is. -/
theorem Parse_one_requirement_per_statement (parser : SqlParser)
    (tableToPK : String → Option (List String)) (sql piece : String)
    (top : SQLNode) (below : List SQLNode)
    (hsplit : parser.SplitStatementToPieces sql = .ok [piece])
    (hparse : parser.Parse2 piece = .ok ⟨top :: below⟩)
    (hbelow : ∀ n ∈ below, n = SQLNode.Other) :
    (∀ t w, top = .Select [t] w →
      Parse parser sql tableToPK = some (.ok [⟨⟨Read, sqlString t,
        whereNodeToRows w (pkOf tableToPK (sqlString t))⟩, top⟩])) ∧
    (∀ t w, top = .Update [t] w →
      Parse parser sql tableToPK = some (.ok [⟨⟨Write, sqlString t,
        whereNodeToRows w (pkOf tableToPK (sqlString t))⟩, top⟩])) ∧
    (∀ t w, top = .Delete [t] w →
      Parse parser sql tableToPK = some (.ok [⟨⟨Write, sqlString t,
        whereNodeToRows w (pkOf tableToPK (sqlString t))⟩, top⟩])) ∧
    (∀ table, top = .Insert table →
      Parse parser sql tableToPK = some (.ok [⟨⟨Write, table, none⟩, top⟩])) ∧
    (∀ pk, whereNodeToRows none pk = none) := by
  have hP := Parse_single_statement parser tableToPK sql piece top below hsplit hparse hbelow
  refine ⟨?_, ?_, ?_, ?_, ?_⟩
  · intro t w htop
    rw [hP, htop]
    simp [visitNode]
  · intro t w htop
    rw [hP, htop]
    simp [visitNode]
  · intro t w htop
    rw [hP, htop]
    simp [visitNode]
  · intro table htop
    rw [hP, htop]
    simp [visitNode]
  · intro pk
    rfl

/-- Witness of C9: `DELETE FROM table2 WHERE (k1 = 5 AND k2 = 10) OR (k1 = 6 AND k2 = 11)`
with the primary key `table2(k1, k2)`. -/
theorem Parse_one_requirement_per_statement_witness :
    Parse
      (tableParser [("DELETE FROM table2 WHERE (k1 = 5 AND k2 = 10) OR (k1 = 6 AND k2 = 11)",
        ⟨[.Delete [.AliasedTableExpr "table2" ""]
            (some ⟨.OrExpr
              (.AndExpr (.ComparisonExpr .EqualOp (.ColName "k1") (.Literal "5"))
                (.ComparisonExpr .EqualOp (.ColName "k2") (.Literal "10")))
              (.AndExpr (.ComparisonExpr .EqualOp (.ColName "k1") (.Literal "6"))
                (.ComparisonExpr .EqualOp (.ColName "k2") (.Literal "11")))⟩),
          .Other, .Other]⟩)])
      "DELETE FROM table2 WHERE (k1 = 5 AND k2 = 10) OR (k1 = 6 AND k2 = 11)"
      (fun t => if t = "table1" then some ["k"] else if t = "table2" then some ["k1", "k2"]
        else none)
    = some (.ok [⟨⟨Write, "table2", some [["5", "10"], ["6", "11"]]⟩,
        .Delete [.AliasedTableExpr "table2" ""]
          (some ⟨.OrExpr
            (.AndExpr (.ComparisonExpr .EqualOp (.ColName "k1") (.Literal "5"))
              (.ComparisonExpr .EqualOp (.ColName "k2") (.Literal "10")))
            (.AndExpr (.ComparisonExpr .EqualOp (.ColName "k1") (.Literal "6"))
              (.ComparisonExpr .EqualOp (.ColName "k2") (.Literal "11")))⟩)⟩]) :=
  (Parse_one_requirement_per_statement
    (tableParser [("DELETE FROM table2 WHERE (k1 = 5 AND k2 = 10) OR (k1 = 6 AND k2 = 11)",
        ⟨[.Delete [.AliasedTableExpr "table2" ""]
            (some ⟨.OrExpr
              (.AndExpr (.ComparisonExpr .EqualOp (.ColName "k1") (.Literal "5"))
                (.ComparisonExpr .EqualOp (.ColName "k2") (.Literal "10")))
              (.AndExpr (.ComparisonExpr .EqualOp (.ColName "k1") (.Literal "6"))
                (.ComparisonExpr .EqualOp (.ColName "k2") (.Literal "11")))⟩),
          .Other, .Other]⟩)])
    (fun t => if t = "table1" then some ["k"] else if t = "table2" then some ["k1", "k2"]
        else none)
    "DELETE FROM table2 WHERE (k1 = 5 AND k2 = 10) OR (k1 = 6 AND k2 = 11)"
    "DELETE FROM table2 WHERE (k1 = 5 AND k2 = 10) OR (k1 = 6 AND k2 = 11)"
    _ [.Other, .Other] rfl rfl (by decide)).2.2.1 _ _ rfl

/-- C10, evaluated on the code: for `SELECT * FROM table1, table2` and for
`SELECT table1.x, table2.y FROM table1 INNER JOIN table2`, with the primary keys of the
tests, `Parse` returns one requirement, not two: the visitor reads `v.From[0]` only. For
the comma list the requirement is on `table1`; for the join the FROM list has the join as
its single entry and the requirement is on the printed join. With a WHERE the scope of the
single requirement is inferred against the first table's key and need not be All. -/
theorem Parse_multi_table_select_one_requirement :
    Parse
      (tableParser [("SELECT * FROM table1, table2",
        ⟨[.Select [.AliasedTableExpr "table1" "", .AliasedTableExpr "table2" ""] none,
          .Other, .Other, .Other]⟩)])
      "SELECT * FROM table1, table2"
      (fun t => if t = "table1" then some ["k"] else if t = "table2" then some ["k1", "k2"]
        else none)
    = some (.ok [⟨⟨Read, "table1", none⟩,
        .Select [.AliasedTableExpr "table1" "", .AliasedTableExpr "table2" ""] none⟩]) ∧
    Parse
      (tableParser [("SELECT table1.x, table2.y FROM table1 INNER JOIN table2",
        ⟨[.Select [.JoinTableExpr (.AliasedTableExpr "table1" "") "join"
            (.AliasedTableExpr "table2" "")] none, .Other, .Other, .Other]⟩)])
      "SELECT table1.x, table2.y FROM table1 INNER JOIN table2"
      (fun t => if t = "table1" then some ["k"] else if t = "table2" then some ["k1", "k2"]
        else none)
    = some (.ok [⟨⟨Read, "table1 join table2", none⟩,
        .Select [.JoinTableExpr (.AliasedTableExpr "table1" "") "join"
            (.AliasedTableExpr "table2" "")] none⟩]) ∧
    Parse
      (tableParser [("SELECT * FROM table1, table2 WHERE k = 5",
        ⟨[.Select [.AliasedTableExpr "table1" "", .AliasedTableExpr "table2" ""]
            (some ⟨.ComparisonExpr .EqualOp (.ColName "k") (.Literal "5")⟩),
          .Other, .Other, .Other]⟩)])
      "SELECT * FROM table1, table2 WHERE k = 5"
      (fun t => if t = "table1" then some ["k"] else if t = "table2" then some ["k1", "k2"]
        else none)
    = some (.ok [⟨⟨Read, "table1", some [["5"]]⟩,
        .Select [.AliasedTableExpr "table1" "", .AliasedTableExpr "table2" ""]
          (some ⟨.ComparisonExpr .EqualOp (.ColName "k") (.Literal "5")⟩)⟩]) := by
  exact ⟨rfl, rfl, rfl⟩

/-! ## Theorems: the order of keys -/

/-- The comparison of character sequences returns `-1`, `0` or `1`. -/
theorem compareChars_values (a b : List Char) :
    compareChars a b = -1 ∨ compareChars a b = 0 ∨ compareChars a b = 1 := by
  induction a generalizing b with
  | nil => cases b <;> simp [compareChars]
  | cons c cs ih =>
    cases b with
    | nil => simp [compareChars]
    | cons d ds =>
      simp only [compareChars]
      split
      · simp
      · split
        · simp
        · exact ih ds

/-- Swapping the arguments of the comparison negates its result. -/
theorem compareChars_swap (a b : List Char) : compareChars b a = - compareChars a b := by
  induction a generalizing b with
  | nil => cases b <;> simp [compareChars]
  | cons c cs ih =>
    cases b with
    | nil => simp [compareChars]
    | cons d ds =>
      simp only [compareChars]
      by_cases h1 : c.toNat < d.toNat
      · have h2 : ¬ d.toNat < c.toNat := by omega
        simp [h1, h2]
      · by_cases h2 : d.toNat < c.toNat
        · simp [h1, h2]
        · simp [h1, h2, ih ds]

/-- The comparison is `0` exactly on equal sequences. -/
theorem compareChars_eq_zero (a b : List Char) : compareChars a b = 0 ↔ a = b := by
  induction a generalizing b with
  | nil => cases b <;> simp [compareChars]
  | cons c cs ih =>
    cases b with
    | nil => simp [compareChars]
    | cons d ds =>
      simp only [compareChars]
      by_cases h1 : c.toNat < d.toNat
      · have hne : c ≠ d := by intro h; subst h; omega
        simp [h1, hne]
      · by_cases h2 : d.toNat < c.toNat
        · have hne : c ≠ d := by intro h; subst h; omega
          simp [h1, h2, hne]
        · have heq : c = d := by
            apply Char.ext
            apply UInt32.ext
            have : c.toNat = d.toNat := by omega
            simpa [Char.toNat] using this
          simp [h1, h2, heq, ih ds]

/-- The comparison is transitive on "less". -/
theorem compareChars_trans (a b c : List Char)
    (hab : compareChars a b = -1) (hbc : compareChars b c = -1) : compareChars a c = -1 := by
  induction a generalizing b c with
  | nil =>
    cases c with
    | nil => cases b <;> simp [compareChars] at hab hbc
    | cons _ _ => simp [compareChars]
  | cons x xs ih =>
    cases b with
    | nil => simp [compareChars] at hab
    | cons y ys =>
      cases c with
      | nil => simp [compareChars] at hbc
      | cons z zs =>
        simp only [compareChars] at hab hbc ⊢
        by_cases hxy : x.toNat < y.toNat
        · by_cases hyz : y.toNat < z.toNat
          · have : x.toNat < z.toNat := by omega
            simp [this]
          · by_cases hzy : z.toNat < y.toNat
            · simp [hyz, hzy] at hbc
            · have : x.toNat < z.toNat := by omega
              simp [this]
        · by_cases hyx : y.toNat < x.toNat
          · simp [hxy, hyx] at hab
          · simp only [hxy, hyx, if_false] at hab
            by_cases hyz : y.toNat < z.toNat
            · have : x.toNat < z.toNat := by omega
              simp [this]
            · by_cases hzy : z.toNat < y.toNat
              · simp [hyz, hzy] at hbc
              · simp only [hyz, hzy, if_false] at hbc
                have h1 : ¬ x.toNat < z.toNat := by omega
                have h2 : ¬ z.toNat < x.toNat := by omega
                simp only [h1, h2, if_false]
                exact ih ys zs hab hbc

/-- The results of `strings.Compare`. -/
theorem stringsCompare_values (a b : String) :
    stringsCompare a b = -1 ∨ stringsCompare a b = 0 ∨ stringsCompare a b = 1 :=
  compareChars_values a.data b.data

/-- Swapping the arguments of `strings.Compare` negates its result. -/
theorem stringsCompare_swap (a b : String) : stringsCompare b a = - stringsCompare a b :=
  compareChars_swap a.data b.data

/-- The result of `strings.Compare` is `0` exactly on equal strings. -/
theorem stringsCompare_eq_zero (a b : String) : stringsCompare a b = 0 ↔ a = b := by
  unfold stringsCompare
  rw [compareChars_eq_zero]
  exact ⟨String.ext, fun h => by rw [h]⟩

/-- The order of `strings.Compare` is transitive on "less". -/
theorem stringsCompare_trans (a b c : String)
    (hab : stringsCompare a b = -1) (hbc : stringsCompare b c = -1) :
    stringsCompare a c = -1 :=
  compareChars_trans a.data b.data c.data hab hbc

/-- On keys of one length `pkCmp` returns `-1`, `0` or `1`. -/
theorem pkCmp_values (a b : List String) (h : a.length = b.length) :
    pkCmp a b = some (-1) ∨ pkCmp a b = some 0 ∨ pkCmp a b = some 1 := by
  induction a generalizing b with
  | nil => simp [pkCmp]
  | cons x xs ih =>
    cases b with
    | nil => simp at h
    | cons y ys =>
      simp only [pkCmp]
      by_cases hc : stringsCompare x y = 0
      · simp only [hc, ne_eq, not_true_eq_false, if_false]
        exact ih ys (by simpa using h)
      · simp only [ne_eq, hc, not_false_eq_true, if_true]
        rcases stringsCompare_values x y with h1 | h1 | h1
        · simp [h1]
        · exact absurd h1 hc
        · simp [h1]

/-- On keys of one length, swapping the arguments of `pkCmp` negates its result. -/
theorem pkCmp_swap (a b : List String) (c : Int) (h : a.length = b.length)
    (hab : pkCmp a b = some c) : pkCmp b a = some (-c) := by
  induction a generalizing b with
  | nil =>
    cases b with
    | nil => simp [pkCmp] at hab ⊢; omega
    | cons _ _ => simp at h
  | cons x xs ih =>
    cases b with
    | nil => simp at h
    | cons y ys =>
      simp only [pkCmp] at hab ⊢
      by_cases hc : stringsCompare x y = 0
      · have hc2 : stringsCompare y x = 0 := by rw [stringsCompare_swap, hc]; rfl
        simp only [hc, hc2, ne_eq, not_true_eq_false, if_false] at hab ⊢
        exact ih ys (by simpa using h) hab
      · have hc2 : stringsCompare y x ≠ 0 := by
          rw [stringsCompare_swap]; omega
        simp only [ne_eq, hc, hc2, not_false_eq_true, if_true] at hab ⊢
        rw [stringsCompare_swap]
        simp only [Option.some.injEq] at hab ⊢
        omega

/-- On keys of one length `pkCmp` is `0` exactly on equal keys. -/
theorem pkCmp_eq_zero (a b : List String) (h : a.length = b.length) :
    pkCmp a b = some 0 ↔ a = b := by
  induction a generalizing b with
  | nil =>
    cases b with
    | nil => simp [pkCmp]
    | cons _ _ => simp at h
  | cons x xs ih =>
    cases b with
    | nil => simp at h
    | cons y ys =>
      simp only [pkCmp]
      by_cases hc : stringsCompare x y = 0
      · have hxy : x = y := (stringsCompare_eq_zero x y).mp hc
        simp only [hc, ne_eq, not_true_eq_false, if_false]
        rw [ih ys (by simpa using h)]
        simp [hxy]
      · have hxy : x ≠ y := fun e => hc ((stringsCompare_eq_zero x y).mpr e)
        simp [hc, hxy]

/-- On keys of one length `pkCmp` is transitive on "less". -/
theorem pkCmp_trans (a b c : List String) (hab : a.length = b.length)
    (hbc : b.length = c.length)
    (h1 : pkCmp a b = some (-1)) (h2 : pkCmp b c = some (-1)) : pkCmp a c = some (-1) := by
  induction a generalizing b c with
  | nil =>
    simp [pkCmp] at h1
  | cons x xs ih =>
    cases b with
    | nil => simp at hab
    | cons y ys =>
      cases c with
      | nil => simp at hbc
      | cons z zs =>
        simp only [pkCmp] at h1 h2 ⊢
        by_cases hxy : stringsCompare x y = 0
        · have exy : x = y := (stringsCompare_eq_zero x y).mp hxy
          subst exy
          simp only [hxy, ne_eq, not_true_eq_false, if_false] at h1
          by_cases hyz : stringsCompare x z = 0
          · simp only [hyz, ne_eq, not_true_eq_false, if_false] at h2 ⊢
            exact ih ys zs (by simpa using hab) (by simpa using hbc) h1 h2
          · simp only [ne_eq, hyz, not_false_eq_true, if_true] at h2 ⊢
            exact h2
        · simp only [ne_eq, hxy, not_false_eq_true, if_true, Option.some.injEq] at h1
          by_cases hyz : stringsCompare y z = 0
          · have eyz : y = z := (stringsCompare_eq_zero y z).mp hyz
            subst eyz
            simp [h1]
          · simp only [ne_eq, hyz, not_false_eq_true, if_true, Option.some.injEq] at h2
            have := stringsCompare_trans x y z h1 h2
            simp [this]

/-! ## Theorems: the binary search on sorted keys -/

/-- Sorted keys by positions: an earlier key compares below a later key. -/
theorem keysSorted_getElem? (x : List (List String)) (hs : keysSorted x)
    (k1 k2 : Nat) (a b : List String) (hk : k1 < k2)
    (ha : x[k1]? = some a) (hb : x[k2]? = some b) : pkCmp a b = some (-1) := by
  obtain ⟨h1, rfl⟩ := List.getElem?_eq_some.mp ha
  obtain ⟨h2, rfl⟩ := List.getElem?_eq_some.mp hb
  exact (List.pairwise_iff_getElem.mp hs) k1 k2 h1 h2 hk

/-- The loop of the binary search on sorted keys of the target's length keeps its
invariant: every key before `i` is below the target and no key from `j` on is; it ends at
the position that parts the keys below the target from the others. -/
theorem binarySearchLoop_sorted (x : List (List String)) (t : List String)
    (hlen : ∀ a ∈ x, a.length = t.length) (hs : keysSorted x) :
    ∀ (fuel i j : Nat), i ≤ j → j ≤ x.length → j - i ≤ fuel →
      (∀ k a, k < i → x[k]? = some a → pkCmp a t = some (-1)) →
      (∀ k a, j ≤ k → x[k]? = some a → pkCmp a t ≠ some (-1)) →
      ∃ r, binarySearchLoop x t pkCmp fuel i j = some r ∧ r ≤ x.length ∧
        (∀ k a, k < r → x[k]? = some a → pkCmp a t = some (-1)) ∧
        (∀ k a, r ≤ k → x[k]? = some a → pkCmp a t ≠ some (-1)) := by
  intro fuel
  induction fuel with
  | zero =>
    intro i j hij hj hfuel hlo hhi
    have hnot : ¬ i < j := by omega
    have hieq : i = j := by omega
    refine ⟨i, by simp [binarySearchLoop, hnot], by omega, hlo, ?_⟩
    intro k a hk
    exact hhi k a (by omega)
  | succ fuel ih =>
    intro i j hij hj hfuel hlo hhi
    by_cases hlt : i < j
    · have hh : (i + j) / 2 < x.length := by omega
      have hget : x[(i + j) / 2]? = some (x[(i + j) / 2]) := List.getElem?_eq_getElem hh
      have hmem : x[(i + j) / 2] ∈ x := List.getElem_mem _
      have hel := hlen _ hmem
      rcases pkCmp_values _ t hel with hc | hc | hc
      · -- the middle key is below the target
        obtain ⟨r, hr, hrle, h1, h2⟩ := ih ((i + j) / 2 + 1) j (by omega) hj (by omega)
          (by
            intro k a hk ha
            by_cases hkh : k = (i + j) / 2
            · subst hkh
              rw [hget] at ha
              cases ha
              exact hc
            · have hlt2 : k < (i + j) / 2 := by omega
              have hsort := keysSorted_getElem? x hs k ((i + j) / 2) a _ hlt2 ha hget
              have hal : a.length = t.length := hlen a (List.getElem?_mem ha)
              exact pkCmp_trans a _ t (hal.trans hel.symm) hel hsort hc)
          hhi
        exact ⟨r, by simp [binarySearchLoop, hlt, hget, hc, hr], hrle, h1, h2⟩
      · obtain ⟨r, hr, hrle, h1, h2⟩ := ih i ((i + j) / 2) (by omega) (by omega) (by omega) hlo
          (by
            intro k a hk ha hneg
            by_cases hkh : k = (i + j) / 2
            · subst hkh
              rw [hget] at ha
              cases ha
              rw [hc] at hneg
              cases hneg
            · have hlt2 : (i + j) / 2 < k := by omega
              have hsort := keysSorted_getElem? x hs ((i + j) / 2) k _ a hlt2 hget ha
              have hal : a.length = t.length := hlen a (List.getElem?_mem ha)
              have := pkCmp_trans _ a t (hel.trans hal.symm) hal hsort hneg
              rw [hc] at this
              cases this)
        exact ⟨r, by simp [binarySearchLoop, hlt, hget, hc, hr], hrle, h1, h2⟩
      · obtain ⟨r, hr, hrle, h1, h2⟩ := ih i ((i + j) / 2) (by omega) (by omega) (by omega) hlo
          (by
            intro k a hk ha hneg
            by_cases hkh : k = (i + j) / 2
            · subst hkh
              rw [hget] at ha
              cases ha
              rw [hc] at hneg
              cases hneg
            · have hlt2 : (i + j) / 2 < k := by omega
              have hsort := keysSorted_getElem? x hs ((i + j) / 2) k _ a hlt2 hget ha
              have hal : a.length = t.length := hlen a (List.getElem?_mem ha)
              have := pkCmp_trans _ a t (hel.trans hal.symm) hal hsort hneg
              rw [hc] at this
              cases this)
        exact ⟨r, by simp [binarySearchLoop, hlt, hget, hc, hr], hrle, h1, h2⟩
    · have hieq : i = j := by omega
      refine ⟨i, by simp [binarySearchLoop, hlt], by omega, hlo, ?_⟩
      intro k a hk
      exact hhi k a (by omega)

/-- The binary search on sorted keys of the target's length: it returns the position
`idx` where the keys below the target end, and reports the target found exactly when the
target is one of the keys, which is then the key at `idx`. -/
theorem BinarySearchFunc_sorted (x : List (List String)) (t : List String)
    (hlen : ∀ a ∈ x, a.length = t.length) (hs : keysSorted x) :
    ∃ idx ok, BinarySearchFunc x t pkCmp = some (idx, ok) ∧ idx ≤ x.length ∧
      (∀ a ∈ x.take idx, pkCmp a t = some (-1)) ∧
      (∀ a ∈ x.drop idx, pkCmp a t ≠ some (-1)) ∧
      (ok = true ↔ t ∈ x) ∧ (ok = true → x[idx]? = some t) := by
  obtain ⟨r, hr, hrle, h1, h2⟩ := binarySearchLoop_sorted x t hlen hs x.length 0 x.length
    (Nat.zero_le _) (le_refl _) (by omega) (by intro k a hk; omega)
    (by
      intro k a hk ha
      have := (List.getElem?_eq_some.mp ha).1
      omega)
  have htake : ∀ a ∈ x.take r, pkCmp a t = some (-1) := by
    intro a ha
    obtain ⟨n, hn⟩ := List.mem_iff_getElem?.mp ha
    rw [List.getElem?_take] at hn
    by_cases hnr : n < r
    · rw [if_pos hnr] at hn
      exact h1 n a hnr hn
    · rw [if_neg hnr] at hn
      cases hn
  have hdrop : ∀ a ∈ x.drop r, pkCmp a t ≠ some (-1) := by
    intro a ha
    obtain ⟨n, hn⟩ := List.mem_iff_getElem?.mp ha
    rw [List.getElem?_drop] at hn
    exact h2 (r + n) a (by omega) hn
  have hnotbelow : ∀ k, k < r → x[k]? ≠ some t := by
    intro k hk hkt
    have := h1 k t hk hkt
    rw [(pkCmp_eq_zero t t rfl).mpr rfl] at this
    cases this
  by_cases hlt : r < x.length
  · have hget : x[r]? = some (x[r]) := List.getElem?_eq_getElem hlt
    have hel : (x[r]).length = t.length := hlen _ (List.getElem_mem _)
    rcases pkCmp_values _ t hel with hc | hc | hc
    · exact absurd hc (h2 r _ (le_refl _) hget)
    · have heq : x[r] = t := (pkCmp_eq_zero _ t hel).mp hc
      refine ⟨r, true, by simp [BinarySearchFunc, hr, hget, hc], hrle, htake, hdrop, ?_, ?_⟩
      · simp only [true_iff]
        rw [← heq]
        exact List.getElem_mem _
      · intro _
        rw [hget, heq]
    · refine ⟨r, false, by simp [BinarySearchFunc, hr, hget, hc], hrle, htake, hdrop, ?_, ?_⟩
      · simp only [Bool.false_eq_true, false_iff]
        intro hmem
        obtain ⟨k, hk⟩ := List.mem_iff_getElem?.mp hmem
        by_cases hkr : k < r
        · exact hnotbelow k hkr hk
        · by_cases hkeq : k = r
          · subst hkeq
            rw [hget] at hk
            injection hk with hk2
            rw [hk2, (pkCmp_eq_zero t t rfl).mpr rfl] at hc
            cases hc
          · have hsort := keysSorted_getElem? x hs r k _ t (by omega) hget hk
            rw [hc] at hsort
            cases hsort
      · intro h
        cases h
  · have hget : x[r]? = none := List.getElem?_eq_none (by omega)
    refine ⟨r, false, by simp [BinarySearchFunc, hr, hget], hrle, htake, hdrop, ?_, ?_⟩
    · simp only [Bool.false_eq_true, false_iff]
      intro hmem
      obtain ⟨k, hk⟩ := List.mem_iff_getElem?.mp hmem
      have hkl := (List.getElem?_eq_some.mp hk).1
      exact hnotbelow k (by omega) hk
    · intro h
      cases h

/-! ## Theorems: sorted union and sorted difference of keys -/

/-- The members of `insertAt keys idx k` are `k` and the members of `keys`. -/
theorem mem_insertAt (keys : List (List String)) (idx : Nat) (k a : List String) :
    a ∈ insertAt keys idx k ↔ a = k ∨ a ∈ keys := by
  have hx : a ∈ keys ↔ a ∈ keys.take idx ∨ a ∈ keys.drop idx := by
    rw [← List.mem_append, List.take_append_drop]
  unfold insertAt
  rw [List.mem_append, List.mem_cons, hx]
  tauto

/-- Placing a key that is not among sorted keys at the position the binary search
reports keeps the keys sorted. -/
theorem insertAt_sorted (x : List (List String)) (t : List String) (idx : Nat)
    (hlen : ∀ a ∈ x, a.length = t.length) (hs : keysSorted x)
    (htake : ∀ a ∈ x.take idx, pkCmp a t = some (-1))
    (hdrop : ∀ a ∈ x.drop idx, pkCmp a t ≠ some (-1))
    (hnot : t ∉ x) : keysSorted (insertAt x idx t) := by
  have hsplit : keysSorted (x.take idx ++ x.drop idx) := by
    rw [List.take_append_drop]; exact hs
  unfold keysSorted at hsplit ⊢
  rw [List.pairwise_append] at hsplit
  obtain ⟨hp1, hp2, hcross⟩ := hsplit
  unfold insertAt
  rw [List.pairwise_append]
  refine ⟨hp1, ?_, ?_⟩
  · rw [List.pairwise_cons]
    refine ⟨?_, hp2⟩
    intro b hb
    have hbx : b ∈ x := List.mem_of_mem_drop hb
    have hbl := hlen b hbx
    rcases pkCmp_values b t hbl with hc | hc | hc
    · exact absurd hc (hdrop b hb)
    · have : b = t := (pkCmp_eq_zero b t hbl).mp hc
      exact absurd (this ▸ hbx) hnot
    · exact pkCmp_swap b t 1 hbl hc
  · intro a ha b hb
    rcases List.mem_cons.mp hb with hbt | hbd
    · rw [hbt]; exact htake a ha
    · exact hcross a ha b hbd

/-- The loop of `updatePermAdd` on sorted keys of one length returns the sorted union:
keys sorted, of that length, each one a key of the original or of the addition. -/
theorem addKeys_sorted (L : Nat) (A : List (List String)) :
    ∀ (K : List (List String)), keysSorted K → (∀ a ∈ K, a.length = L) →
      (∀ a ∈ A, a.length = L) →
      ∃ K', addKeys K A = some K' ∧ keysSorted K' ∧ (∀ a ∈ K', a.length = L) ∧
        ∀ k, k ∈ K' ↔ k ∈ K ∨ k ∈ A := by
  induction A with
  | nil =>
    intro K hs hK _
    exact ⟨K, rfl, hs, hK, by simp⟩
  | cons t A ih =>
    intro K hs hK hA
    have ht : t.length = L := hA t (List.mem_cons_self _ _)
    have hKt : ∀ a ∈ K, a.length = t.length := fun a ha => (hK a ha).trans ht.symm
    obtain ⟨idx, ok, hb, _, htake, hdrop, hok, _⟩ := BinarySearchFunc_sorted K t hKt hs
    cases ok with
    | true =>
      have htK : t ∈ K := hok.mp rfl
      obtain ⟨K', h1, h2, h3, h4⟩ := ih K hs hK (fun a ha => hA a (List.mem_cons_of_mem _ ha))
      refine ⟨K', by simp [addKeys, hb, h1], h2, h3, ?_⟩
      intro k
      rw [h4 k, List.mem_cons]
      constructor
      · rintro (h | h)
        · exact Or.inl h
        · exact Or.inr (Or.inr h)
      · rintro (h | h | h)
        · exact Or.inl h
        · exact Or.inl (h ▸ htK)
        · exact Or.inr h
    | false =>
      have htK : t ∉ K := fun h => by
        have := hok.mpr h
        cases this
      have hs2 := insertAt_sorted K t idx hKt hs htake hdrop htK
      have hK2 : ∀ a ∈ insertAt K idx t, a.length = L := by
        intro a ha
        rcases (mem_insertAt K idx t a).mp ha with h | h
        · rw [h]; exact ht
        · exact hK a h
      obtain ⟨K', h1, h2, h3, h4⟩ := ih (insertAt K idx t) hs2 hK2
        (fun a ha => hA a (List.mem_cons_of_mem _ ha))
      refine ⟨K', by simp [addKeys, hb, h1], h2, h3, ?_⟩
      intro k
      rw [h4 k, mem_insertAt, List.mem_cons]
      tauto

/-- Adding keys that are all among the sorted keys already changes nothing. -/
theorem addKeys_of_subset (L : Nat) (K : List (List String)) (hs : keysSorted K)
    (hK : ∀ a ∈ K, a.length = L) (A : List (List String)) (hA : ∀ a ∈ A, a ∈ K) :
    addKeys K A = some K := by
  induction A with
  | nil => rfl
  | cons t A ih =>
    have htK : t ∈ K := hA t (List.mem_cons_self _ _)
    have hKt : ∀ a ∈ K, a.length = t.length := fun a ha => (hK a ha).trans (hK t htK).symm
    obtain ⟨idx, ok, hb, _, _, _, hok, _⟩ := BinarySearchFunc_sorted K t hKt hs
    have : ok = true := hok.mpr htK
    subst this
    simp [addKeys, hb, ih (fun a ha => hA a (List.mem_cons_of_mem _ ha))]

/-- The keys that the loop of `updatePermAdd` adds are keys of the addition: the keys
outside a list `B` that holds the addition are the same before and after, in order. -/
theorem addKeys_filter (B A : List (List String)) (hAB : ∀ a ∈ A, a ∈ B) :
    ∀ (K K' : List (List String)), addKeys K A = some K' →
      K'.filter (fun k => decide (k ∉ B)) = K.filter (fun k => decide (k ∉ B)) := by
  induction A with
  | nil =>
    intro K K' h
    simp [addKeys] at h
    rw [h]
  | cons t A ih =>
    intro K K' h
    have htB : t ∈ B := hAB t (List.mem_cons_self _ _)
    have hA' : ∀ a ∈ A, a ∈ B := fun a ha => hAB a (List.mem_cons_of_mem _ ha)
    cases hb : BinarySearchFunc K t pkCmp with
    | none => simp [addKeys, hb] at h
    | some r =>
      obtain ⟨idx, ok⟩ := r
      cases ok with
      | true =>
        simp only [addKeys, hb, Bool.not_true, Bool.false_eq_true, if_false] at h
        exact ih hA' K K' h
      | false =>
        simp only [addKeys, hb, Bool.not_false, if_true] at h
        rw [ih hA' (insertAt K idx t) K' h]
        unfold insertAt
        rw [List.filter_append, List.filter_cons]
        simp only [htB, not_true_eq_false, decide_False, Bool.false_eq_true, if_false]
        rw [← List.filter_append, List.take_append_drop]

/-- Removing the key at the position where the binary search found it removes exactly
that key from sorted keys. -/
theorem removeAt_eq_filter (x : List (List String)) (t : List String) (idx : Nat)
    (hlen : ∀ a ∈ x, a.length = t.length) (hs : keysSorted x)
    (hget : x[idx]? = some t) :
    removeAt x idx = x.filter (fun k => decide (k ≠ t)) := by
  obtain ⟨hidx, hxt⟩ := List.getElem?_eq_some.mp hget
  have hsplit : x = x.take idx ++ t :: x.drop (idx + 1) := by
    conv_lhs => rw [← List.take_append_drop idx x]
    rw [List.drop_eq_getElem_cons hidx, hxt]
  have hs2 : keysSorted (x.take idx ++ t :: x.drop (idx + 1)) := by
    rw [← hsplit]; exact hs
  unfold keysSorted at hs2
  rw [List.pairwise_append, List.pairwise_cons] at hs2
  obtain ⟨_, ⟨hafter, _⟩, hcross⟩ := hs2
  have hself : pkCmp t t = some 0 := (pkCmp_eq_zero t t rfl).mpr rfl
  have h1 : (x.take idx).filter (fun k => decide (k ≠ t)) = x.take idx := by
    rw [List.filter_eq_self]
    intro a ha
    have := hcross a ha t (List.mem_cons_self _ _)
    simp only [ne_eq, decide_not, Bool.not_eq_eq_eq_not, Bool.not_true, decide_eq_false_iff_not]
    intro hat
    rw [hat, hself] at this
    cases this
  have h2 : (x.drop (idx + 1)).filter (fun k => decide (k ≠ t)) = x.drop (idx + 1) := by
    rw [List.filter_eq_self]
    intro a ha
    have := hafter a ha
    simp only [ne_eq, decide_not, Bool.not_eq_eq_eq_not, Bool.not_true, decide_eq_false_iff_not]
    intro hat
    rw [hat, hself] at this
    cases this
  have _hl := hlen
  unfold removeAt
  conv_rhs => rw [hsplit]
  rw [List.filter_append, List.filter_cons, h1, h2]
  simp

/-- A filter of sorted keys is sorted. -/
theorem keysSorted_filter (x : List (List String)) (p : List String → Bool)
    (hs : keysSorted x) : keysSorted (x.filter p) :=
  List.Pairwise.sublist (List.filter_sublist x) hs

/-- The loop of `updatePermRemove` on sorted keys of one length returns the sorted
difference: the keys that are not among the keys to remove, in the same order. -/
theorem removeKeys_eq_filter (L : Nat) (R : List (List String)) :
    ∀ (K : List (List String)), keysSorted K → (∀ a ∈ K, a.length = L) →
      (∀ a ∈ R, a.length = L) →
      removeKeys K R = some (K.filter (fun k => decide (k ∉ R))) := by
  induction R with
  | nil =>
    intro K _ _ _
    simp [removeKeys]
  | cons t R ih =>
    intro K hs hK hR
    have ht : t.length = L := hR t (List.mem_cons_self _ _)
    have hKt : ∀ a ∈ K, a.length = t.length := fun a ha => (hK a ha).trans ht.symm
    have hR' : ∀ a ∈ R, a.length = L := fun a ha => hR a (List.mem_cons_of_mem _ ha)
    obtain ⟨idx, ok, hb, _, _, _, hok, hat⟩ := BinarySearchFunc_sorted K t hKt hs
    have hff : (K.filter (fun k => decide (k ≠ t))).filter (fun k => decide (k ∉ R))
        = K.filter (fun k => decide (k ∉ t :: R)) := by
      rw [List.filter_filter]
      congr 1
      funext k
      simp only [List.mem_cons, not_or, ne_eq, decide_not, Bool.decide_and]
      rw [Bool.and_comm]
    cases ok with
    | true =>
      have hrem := removeAt_eq_filter K t idx hKt hs (hat rfl)
      have hs2 : keysSorted (removeAt K idx) := by
        rw [hrem]; exact keysSorted_filter K _ hs
      have hK2 : ∀ a ∈ removeAt K idx, a.length = L := by
        rw [hrem]
        intro a ha
        exact hK a (List.mem_of_mem_filter ha)
      simp only [removeKeys, hb, if_true]
      rw [ih (removeAt K idx) hs2 hK2 hR', hrem, hff]
    | false =>
      have htK : t ∉ K := fun h => by
        have := hok.mpr h
        cases this
      have hself : K.filter (fun k => decide (k ≠ t)) = K := by
        rw [List.filter_eq_self]
        intro a ha
        simp only [ne_eq, decide_not, Bool.not_eq_eq_eq_not, Bool.not_true,
          decide_eq_false_iff_not]
        intro hat2
        exact htK (hat2 ▸ ha)
      simp only [removeKeys, hb, Bool.false_eq_true, if_false]
      rw [ih K hs hK hR', ← hff, hself]

/-! ## Theorems: `updatePermAdd` and `updatePermRemove` -/

/-- Sorted keys have no duplicate. -/
theorem keysSorted_nodup (K : List (List String)) (hs : keysSorted K) : K.Nodup := by
  unfold keysSorted at hs
  refine List.Pairwise.imp ?_ hs
  intro a b hab heq
  rw [heq, (pkCmp_eq_zero b b rfl).mpr rfl] at hab
  cases hab

/-- C11: `updatePermAdd` leaves the existing permission with scope All when it or the
addition has scope All; otherwise, when the existing keys are sorted ascending and
duplicate-free and all keys have one length, it leaves the permission with the keys `K'`
that are sorted ascending, duplicate-free and are exactly the keys of the existing
permission and of the addition, whose keys may come in any order. -/
theorem updatePermAdd_sorted_union (p a : Permission)
    (hsame : p.Table = a.Table ∧ p.Typ = a.Typ) :
    ((p.RowKeys = none ∨ a.RowKeys = none) →
      updatePermAdd p a = some { p with RowKeys := none }) ∧
    (∀ (K A : List (List String)) (L : Nat), p.RowKeys = some K → a.RowKeys = some A →
      keysSorted K → (∀ k ∈ K, k.length = L) → (∀ k ∈ A, k.length = L) →
      ∃ K', updatePermAdd p a = some { p with RowKeys := some K' } ∧
        keysSorted K' ∧ K'.Nodup ∧ ∀ k, k ∈ K' ↔ k ∈ K ∨ k ∈ A) := by
  have _h := hsame
  constructor
  · intro h
    cases ha : a.RowKeys with
    | none => simp [updatePermAdd, ha]
    | some A =>
      have hp : p.RowKeys = none := by
        rcases h with h | h
        · exact h
        · rw [ha] at h; cases h
      obtain ⟨ty, tb, rk⟩ := p
      simp only at hp
      subst hp
      simp [updatePermAdd, ha]
  · intro K A L hp ha hs hK hA
    obtain ⟨K', h1, h2, _, h4⟩ := addKeys_sorted L A K hs hK hA
    exact ⟨K', by simp [updatePermAdd, ha, hp, h1], h2, keysSorted_nodup K' h2, h4⟩

/-- Witness of C11: the keys `[[10],[5]]`, sorted as strings, merged with the unsorted
addition `[[7],[10],[1]]`. -/
theorem updatePermAdd_sorted_union_witness :
    ∃ K', updatePermAdd ⟨Read, "t1", some [["10"], ["5"]]⟩
        ⟨Read, "t1", some [["7"], ["10"], ["1"]]⟩
        = some { (⟨Read, "t1", some [["10"], ["5"]]⟩ : Permission) with RowKeys := some K' } ∧
      keysSorted K' ∧ K'.Nodup ∧
      ∀ k, k ∈ K' ↔ k ∈ [["10"], ["5"]] ∨ k ∈ [["7"], ["10"], ["1"]] :=
  (updatePermAdd_sorted_union ⟨Read, "t1", some [["10"], ["5"]]⟩
    ⟨Read, "t1", some [["7"], ["10"], ["1"]]⟩ (by decide)).2
    [["10"], ["5"]] [["7"], ["10"], ["1"]] 1 rfl rfl (by decide) (by decide) (by decide)

/-- The four cases of `updatePermRemove`: blanket from blanket asks for deletion; blanket
from rows is a no-op; rows from blanket is the error; rows from sorted rows of one length
leaves the keys that are not removed, in order, and asks for deletion exactly when none
is left. -/
theorem updatePermRemove_cases (p r : Permission) :
    (r.RowKeys = none → p.RowKeys = none → updatePermRemove p r = some (.ok true, p)) ∧
    (r.RowKeys = none → p.RowKeys ≠ none → updatePermRemove p r = some (.ok false, p)) ∧
    (r.RowKeys ≠ none → p.RowKeys = none →
      updatePermRemove p r = some (.error Error.removeSpecificFromBlanket, p)) ∧
    (∀ (K R : List (List String)) (L : Nat), p.RowKeys = some K → r.RowKeys = some R →
      keysSorted K → (∀ k ∈ K, k.length = L) → (∀ k ∈ R, k.length = L) →
      updatePermRemove p r
        = some (.ok (decide (K.filter (fun k => decide (k ∉ R)) = [])),
            { p with RowKeys := some (K.filter (fun k => decide (k ∉ R))) })) := by
  refine ⟨?_, ?_, ?_, ?_⟩
  · intro hr hp
    simp [updatePermRemove, hr, hp]
  · intro hr hp
    cases hk : p.RowKeys with
    | none => exact absurd hk hp
    | some K => simp [updatePermRemove, hr, hk]
  · intro hr hp
    cases hk : r.RowKeys with
    | none => exact absurd hk hr
    | some R => simp [updatePermRemove, hp, hk]
  · intro K R L hp hr hs hK hR
    simp [updatePermRemove, hp, hr, removeKeys_eq_filter L R K hs hK hR]

/-! ## Theorems: the manager evaluated on failing inputs -/

/-- C12, evaluated on the code: user `U` holds `(t1, Read, Rows [[5]])` and an admin adds
`(t1, Read, Rows [[7]])`. The addition is merged into the existing permission and then
appended as well (`perms = append(perms, ta)` runs for every addition), so the grant list
written to the store holds two permissions for `(t1, Read)`. -/
theorem AddPermissions_appends_merged_addition :
    ∃ acl1, AddPermissions logStore (exampleManager [⟨Read, "t1", some [["5"]]⟩]) "KA" "U"
        [⟨Read, "t1", some [["7"]]⟩] = .returns (.ok ()) acl1 ∧
      acl1.storage.head? = some ("U",
        [⟨Read, "t1", some [["5"], ["7"]]⟩, ⟨Read, "t1", some [["7"]]⟩]) ∧
      ¬ List.Pairwise (fun a b : Permission => ¬ (a.Table = b.Table ∧ a.Typ = b.Typ))
        [⟨Read, "t1", some [["5"], ["7"]]⟩, ⟨Read, "t1", some [["7"]]⟩] :=
  ⟨_, rfl, rfl, by decide⟩

/-- C14, evaluated on the code. First: `U` holds `(t1, Read, Rows [[5]])` and an admin
removes `(t1, Read, Rows [[5]])`; the call succeeds, the store gets the empty list, and
the grant list in memory still holds the permission, now with the empty non-nil key list.
Second: `U` holds sorted one-key permissions on `t1`, `t2`, `t3`; removing the `t1` key
and then, in a second call, the `t3` key both succeed, and the second call writes
`(t3, Read, Rows [])` to the store: the first call left the `t3` object twice in the
array behind `acl.perms[U]`, so the second call overwrote the emptied object with
itself. -/
theorem RemovePermissions_leaves_empty_rows :
    (∃ acl1, RemovePermissions logStore (exampleManager [⟨Read, "t1", some [["5"]]⟩]) "KA" "U"
        [⟨Read, "t1", some [["5"]]⟩] = .returns (.ok ()) acl1 ∧
      acl1.storage.head? = some ("U", []) ∧
      memoryGrants acl1 "U" = some [⟨Read, "t1", some []⟩]) ∧
    (∃ acl1 acl2,
      RemovePermissions logStore
        (exampleManager [⟨Read, "t1", some [["1"]]⟩, ⟨Read, "t2", some [["2"]]⟩,
          ⟨Read, "t3", some [["3"]]⟩]) "KA" "U" [⟨Read, "t1", some [["1"]]⟩]
        = .returns (.ok ()) acl1 ∧
      memoryGrants acl1 "U" = some [⟨Read, "t3", some [["3"]]⟩, ⟨Read, "t2", some [["2"]]⟩,
        ⟨Read, "t3", some [["3"]]⟩] ∧
      RemovePermissions logStore acl1 "KA" "U" [⟨Read, "t3", some [["3"]]⟩]
        = .returns (.ok ()) acl2 ∧
      acl2.storage.head? = some ("U",
        [⟨Read, "t3", some []⟩, ⟨Read, "t2", some [["2"]]⟩]) ∧
      memoryGrants acl2 "U" = some [⟨Read, "t3", some []⟩, ⟨Read, "t2", some [["2"]]⟩,
        ⟨Read, "t3", some []⟩]) :=
  ⟨⟨_, rfl, rfl, rfl⟩, ⟨_, _, rfl, rfl, rfl, rfl, rfl⟩⟩

/-- C15, evaluated on the code. First: `U` holds `(t1, Read, Rows [[5]])`, an admin adds
`(t1, Read, Rows [[7]])` and the store write fails; the call returns the storing error
and the grant in memory is `Rows [[5],[7]]`, no longer `Rows [[5]]`. Second: `U` holds
`(t1, Read, Rows [[10],[5]])` and `(t2, Write, All)`, an admin removes
`(t1, Read, Rows [[5]])` and `(t2, Write, Rows [[1]])`; the call returns the
remove-specific-from-blanket error after the first removal was applied, and the grant in
memory is `Rows [[10]]`. In both cases the store is as it was. -/
theorem failed_mutation_changes_memory :
    memoryGrants (exampleManager [⟨Read, "t1", some [["5"]]⟩]) "U"
      = some [⟨Read, "t1", some [["5"]]⟩] ∧
    (∃ acl1, AddPermissions failingStore (exampleManager [⟨Read, "t1", some [["5"]]⟩]) "KA" "U"
        [⟨Read, "t1", some [["7"]]⟩] = .returns (.error (Error.storing "U" "disk I/O error")) acl1 ∧
      acl1.storage = (exampleManager [⟨Read, "t1", some [["5"]]⟩]).storage ∧
      memoryGrants acl1 "U" = some [⟨Read, "t1", some [["5"], ["7"]]⟩]) ∧
    (∃ acl1, RemovePermissions logStore
        (exampleManager [⟨Read, "t1", some [["10"], ["5"]]⟩, ⟨Write, "t2", none⟩]) "KA" "U"
        [⟨Read, "t1", some [["5"]]⟩, ⟨Write, "t2", some [["1"]]⟩]
        = .returns (.error Error.removeSpecificFromBlanket) acl1 ∧
      acl1.storage
        = (exampleManager [⟨Read, "t1", some [["10"], ["5"]]⟩, ⟨Write, "t2", none⟩]).storage ∧
      memoryGrants acl1 "U" = some [⟨Read, "t1", some [["10"]]⟩, ⟨Write, "t2", none⟩]) :=
  ⟨rfl, ⟨_, rfl, rfl, rfl⟩, ⟨_, rfl, rfl, rfl⟩⟩

/-- C16, evaluated on the code. First: `U` holds nothing and an admin adds
`(t1, Read, All)`; the call succeeds and writes `[(t1, Read, All)]` to the store, the
grant list in memory stays empty, and a following `SELECT * FROM t1` by `U` is refused.
Second: `U` holds `(t1, Read, Rows [[5]])` and `(t2, Read, All)` and an admin removes
`(t1, Read, Rows [[5]])`; the call succeeds and writes `[(t2, Read, All)]`, and the grant
list in memory has two entries, both `(t2, Read, All)`. `AddPermissions` and
`RemovePermissions` never assign the new slice to `acl.perms[user]`. -/
theorem memory_differs_from_store_after_success :
    (∃ acl1, AddPermissions logStore (exampleManager []) "KA" "U" [⟨Read, "t1", none⟩]
        = .returns (.ok ()) acl1 ∧
      acl1.storage.head? = some ("U", [⟨Read, "t1", none⟩]) ∧
      memoryGrants acl1 "U" = some [] ∧
      ∃ acl2, CheckPermissions
          (tableParser [("SELECT * FROM t1", ⟨[.Select [.AliasedTableExpr "t1" ""] none]⟩)])
          logStore acl1 "KU" "SELECT * FROM t1"
        = .returns (.error (Error.insufficientPermissions
            [⟨⟨Read, "t1", none⟩, .Select [.AliasedTableExpr "t1" ""] none⟩])) acl2) ∧
    (∃ acl1, RemovePermissions logStore
        (exampleManager [⟨Read, "t1", some [["5"]]⟩, ⟨Read, "t2", none⟩]) "KA" "U"
        [⟨Read, "t1", some [["5"]]⟩] = .returns (.ok ()) acl1 ∧
      acl1.storage.head? = some ("U", [⟨Read, "t2", none⟩]) ∧
      memoryGrants acl1 "U" = some [⟨Read, "t2", none⟩, ⟨Read, "t2", none⟩]) :=
  ⟨⟨_, rfl, rfl, rfl, _, rfl⟩, ⟨_, rfl, rfl, rfl⟩⟩

/-! ## Theorems: the rows of a WHERE clause keep the order of the walk -/

/-- Counterexample to C20 as stated: for `k = 5 OR k = 10` with `P = [k]` the function
`whereNodeToRows` returns `[[5],[10]]`, which is not in ascending order (`pkCmp [5] [10]`
is `1`), and for `k = 5 OR k = 5` it returns `[[5],[5]]`, which has a duplicate. -/
theorem whereNodeToRows_unsorted_with_duplicates :
    whereNodeToRows
      (some ⟨.OrExpr (.ComparisonExpr .EqualOp (.ColName "k") (.Literal "5"))
        (.ComparisonExpr .EqualOp (.ColName "k") (.Literal "10"))⟩) ["k"]
      = some [["5"], ["10"]] ∧
    pkCmp ["5"] ["10"] = some 1 ∧
    ¬ keysSorted [["5"], ["10"]] ∧
    whereNodeToRows
      (some ⟨.OrExpr (.ComparisonExpr .EqualOp (.ColName "k") (.Literal "5"))
        (.ComparisonExpr .EqualOp (.ColName "k") (.Literal "5"))⟩) ["k"]
      = some [["5"], ["5"]] ∧
    ¬ List.Nodup [["5"], ["5"]] := by
  refine ⟨by decide, by decide, by decide, by decide, by decide⟩

/-- The row of a spec holds the spec's value for each primary-key column, in the order of
the columns. -/
theorem specRow_eq_map (spec : Spec) (pk row : List String) (h : specRow spec pk = some row) :
    (∀ c ∈ pk, spec c ≠ none) ∧ row = pk.map (fun c => (spec c).getD "") := by
  induction pk generalizing row with
  | nil =>
    simp [specRow] at h
    simp [h]
  | cons c pk ih =>
    cases hc : spec c with
    | none => simp [specRow, hc] at h
    | some v =>
      cases hr : specRow spec pk with
      | none => simp [specRow, hc, hr] at h
      | some row' =>
        simp [specRow, hc, hr] at h
        obtain ⟨h1, h2⟩ := ih row' hr
        refine ⟨?_, ?_⟩
        · intro d hd
          rcases List.mem_cons.mp hd with hdc | hdpk
          · rw [hdc, hc]; simp
          · exact h1 d hdpk
        · rw [← h, h2]
          simp [hc]

/-- The rows of the specs hold one row per spec, in the order of the specs. -/
theorem specRows_eq_map (pk : List String) (specs : List Spec) (rows : List (List String))
    (h : specRows pk specs = some rows) :
    (∀ s ∈ specs, ∀ c ∈ pk, s c ≠ none) ∧
      rows = specs.map (fun s => pk.map (fun c => (s c).getD "")) := by
  induction specs generalizing rows with
  | nil =>
    simp [specRows] at h
    simp [h]
  | cons s specs ih =>
    cases hs : specRow s pk with
    | none => simp [specRows, hs] at h
    | some row =>
      cases hr : specRows pk specs with
      | none => simp [specRows, hs, hr] at h
      | some rows' =>
        simp [specRows, hs, hr] at h
        obtain ⟨h1, h2⟩ := ih rows' hr
        obtain ⟨h3, h4⟩ := specRow_eq_map s pk row hs
        refine ⟨?_, ?_⟩
        · intro s' hs' c hc
          rcases List.mem_cons.mp hs' with he | hm
          · rw [he]; exact h3 c hc
          · exact h1 s' hm c hc
        · rw [← h, h2, h4]
          simp

/-- C20 as amended: whenever `whereNodeToRows` returns a Rows scope, the walk of the WHERE
expression is non-null and non-empty, every spec of the walk has a value for every
primary-key column, and the key list holds the key of each spec in the order of the walk:
the keys are neither sorted nor deduplicated. -/
theorem whereNodeToRows_keeps_walk_order (w : Expr) (P : List String)
    (rows : List (List String)) (h : whereNodeToRows (some ⟨w⟩) P = some rows) :
    ∃ specs, recurseOnWhereExpr w = some specs ∧ specs ≠ [] ∧
      (∀ s ∈ specs, ∀ c ∈ P, s c ≠ none) ∧
      rows = specs.map (fun s => P.map (fun c => (s c).getD "")) := by
  cases hw : recurseOnWhereExpr w with
  | none =>
    simp [whereNodeToRows, hw, specRows] at h
  | some specs =>
    cases hr : specRows P specs with
    | none => simp [whereNodeToRows, hw, hr] at h
    | some rows' =>
      simp [whereNodeToRows, hw, hr] at h
      obtain ⟨hne, heq⟩ := h
      obtain ⟨h1, h2⟩ := specRows_eq_map P specs rows' hr
      refine ⟨specs, rfl, ?_, h1, ?_⟩
      · intro hnil
        rw [hnil] at h2
        simp at h2
        exact hne h2
      · rw [← heq, h2]

/-- Witness of C20 as amended: `k = 5 OR k = 10 OR k = 5` with `P = [k]`. -/
theorem whereNodeToRows_keeps_walk_order_witness :
    ∃ specs, recurseOnWhereExpr
        (.OrExpr (.OrExpr (.ComparisonExpr .EqualOp (.ColName "k") (.Literal "5"))
          (.ComparisonExpr .EqualOp (.ColName "k") (.Literal "10")))
          (.ComparisonExpr .EqualOp (.ColName "k") (.Literal "5"))) = some specs ∧
      specs ≠ [] ∧ (∀ s ∈ specs, ∀ c ∈ ["k"], s c ≠ none) ∧
      [["5"], ["10"], ["5"]] = specs.map (fun s => ["k"].map (fun c => (s c).getD "")) :=
  whereNodeToRows_keeps_walk_order
    (.OrExpr (.OrExpr (.ComparisonExpr .EqualOp (.ColName "k") (.Literal "5"))
      (.ComparisonExpr .EqualOp (.ColName "k") (.Literal "10")))
      (.ComparisonExpr .EqualOp (.ColName "k") (.Literal "5")))
    ["k"] [["5"], ["10"], ["5"]] (by decide)

/-! ## Theorems: the loops of the manager -/

/-- For a user whose slice is in the map `perms`, the method `getPerms` returns that slice
and leaves the manager as it is. -/
theorem getPerms_of_memory {σ : Type} (S : ACLStorage σ) (acl : ACLManager σ)
    (user : String) (ptrs : List Ptr) (h : acl.perms user = some ptrs) :
    getPerms S acl user = (.ok ptrs, acl) := by
  have hupd : Function.update acl.perms user (some ptrs) = acl.perms := by
    rw [← h]
    exact Function.update_eq_self _ _
  simp only [getPerms, h, hupd]

/-- For an admin key and a user whose slice is in memory, `AddPermissions` is its loop
followed by the write to the store. -/
theorem AddPermissions_eq_addLoop {σ : Type} (S : ACLStorage σ) (acl : ACLManager σ)
    (key user : String) (toAdd : List Permission) (ptrs : List Ptr)
    (hadmin : acl.adminKeys key = true) (hperms : acl.perms user = some ptrs) :
    AddPermissions S acl key user toAdd
      = match addLoop acl ptrs toAdd with
        | none => .panics
        | some (written, acl1) => storeAndReturn S acl1 user written := by
  simp only [AddPermissions, hadmin, getPerms_of_memory S acl user ptrs hperms]
  cases addLoop acl ptrs toAdd with
  | none => rfl
  | some r => rfl

/-- For an admin key and a user whose slice is in memory, `RemovePermissions` is its loop
followed, when the loop ends without error, by the write to the store. -/
theorem RemovePermissions_eq_removeLoop {σ : Type} (S : ACLStorage σ) (acl : ACLManager σ)
    (key user : String) (toRem : List Permission) (ptrs : List Ptr)
    (hadmin : acl.adminKeys key = true) (hperms : acl.perms user = some ptrs) :
    RemovePermissions S acl key user toRem
      = match removeLoop { acl := acl, arr := ptrs, len := ptrs.length } toRem with
        | none => .panics
        | some (.error e, st) => .returns (.error e) (st.manager user)
        | some (.ok (), st) => storeAndReturn S (st.manager user) user (st.arr.take st.len) := by
  simp only [RemovePermissions, hadmin, getPerms_of_memory S acl user ptrs hperms]
  cases removeLoop { acl := acl, arr := ptrs, len := ptrs.length } toRem with
  | none => rfl
  | some r =>
    obtain ⟨res, st⟩ := r
    cases res with
    | error e => rfl
    | ok u => rfl

/-- The function `updatePermAdd` keeps the table and the type of the object. -/
theorem updatePermAdd_same_table (v a v' : Permission) (h : updatePermAdd v a = some v') :
    v'.Table = v.Table ∧ v'.Typ = v.Typ := by
  unfold updatePermAdd at h
  by_cases ha : a.RowKeys = none
  · simp [ha] at h
    rw [← h]
    exact ⟨rfl, rfl⟩
  · simp only [ha, if_false] at h
    cases hv : v.RowKeys with
    | none =>
      simp [hv] at h
      rw [← h]
      exact ⟨rfl, rfl⟩
    | some K =>
      simp only [hv] at h
      cases hk : addKeys K (a.RowKeys.getD []) with
      | none => simp [hk] at h
      | some K' =>
        simp [hk] at h
        rw [← h]
        exact ⟨rfl, rfl⟩

/-- An object with scope All is left as it is by `updatePermAdd`. -/
theorem updatePermAdd_blanket (v a : Permission) (hv : v.RowKeys = none) :
    updatePermAdd v a = some v := by
  obtain ⟨ty, tb, rk⟩ := v
  simp only at hv
  subst hv
  by_cases ha : a.RowKeys = none <;> simp [updatePermAdd, ha]

/-- The inner loop of `AddPermissions` changes the memory only: it keeps the table and
type of every object, keeps scope All, and leaves alone every object that is not in the
slice or has another table or type than the addition. -/
theorem addToMatching_frame {σ : Type} (ta : Permission) (ptrs : List Ptr) :
    ∀ (acl acl1 : ACLManager σ), addToMatching ta acl ptrs = some acl1 →
      acl1 = { acl with heap := acl1.heap } ∧
      ∀ q, (acl1.heap q).Table = (acl.heap q).Table ∧ (acl1.heap q).Typ = (acl.heap q).Typ ∧
        ((acl.heap q).RowKeys = none → (acl1.heap q).RowKeys = none) ∧
        (q ∉ ptrs → acl1.heap q = acl.heap q) ∧
        (¬ sameTableAndType (acl.heap q) ta → acl1.heap q = acl.heap q) := by
  induction ptrs with
  | nil =>
    intro acl acl1 h
    simp only [addToMatching, Option.some.injEq] at h
    subst h
    exact ⟨rfl, fun q => ⟨rfl, rfl, fun h => h, fun _ => rfl, fun _ => rfl⟩⟩
  | cons p ps ih =>
    intro acl acl1 h
    by_cases hm : (acl.heap p).Table = ta.Table ∧ (acl.heap p).Typ = ta.Typ
    · cases hu : updatePermAdd (acl.heap p) ta with
      | none => simp [addToMatching, hm, hu] at h
      | some v =>
        simp only [addToMatching, hm, and_self, if_true, hu] at h
        obtain ⟨h1, h2⟩ := ih _ acl1 h
        obtain ⟨hvt, hvy⟩ := updatePermAdd_same_table _ _ _ hu
        refine ⟨by rw [h1], ?_⟩
        intro q
        obtain ⟨a1, a2, a3, a4, a5⟩ := h2 q
        by_cases hq : q = p
        · subst hq
          simp only [Function.update_same] at a1 a2 a3 a4 a5
          refine ⟨a1.trans hvt, a2.trans hvy, ?_, ?_, ?_⟩
          · intro hnone
            apply a3
            rw [updatePermAdd_blanket _ ta hnone] at hu
            cases hu
            exact hnone
          · intro hnot
            exact absurd (List.mem_cons_self _ _) hnot
          · intro hnot
            exact absurd hm hnot
        · simp only [Function.update_noteq hq] at a1 a2 a3 a4 a5
          refine ⟨a1, a2, a3, ?_, a5⟩
          intro hnot
          exact a4 (fun hps => hnot (List.mem_cons_of_mem _ hps))
    · simp only [addToMatching, hm, if_false] at h
      obtain ⟨h1, h2⟩ := ih acl acl1 h
      refine ⟨h1, ?_⟩
      intro q
      obtain ⟨a1, a2, a3, a4, a5⟩ := h2 q
      refine ⟨a1, a2, a3, ?_, a5⟩
      intro hnot
      exact a4 (fun hps => hnot (List.mem_cons_of_mem _ hps))

/-- The loop of `AddPermissions` for one addition: the inner loop, then the addition is
placed at the next free address and appended to the slice. -/
theorem addLoop_single {σ : Type} (acl : ACLManager σ) (ptrs : List Ptr) (ta : Permission) :
    addLoop acl ptrs [ta]
      = match addToMatching ta acl ptrs with
        | none => none
        | some acl1 =>
          some (ptrs ++ [acl1.next],
            { acl1 with heap := Function.update acl1.heap acl1.next ta,
                        next := acl1.next + 1 }) := by
  cases h : addToMatching ta acl ptrs <;> simp [addLoop, h]

/-- Appending permissions after a list on which `reqPasses` returns `true` keeps the
result: the function has returned before it reaches them. -/
theorem reqPasses_append_of_true (req : Permission) (perms more : List Permission)
    (h : reqPasses req perms = some true) : reqPasses req (perms ++ more) = some true := by
  induction perms with
  | nil => simp [reqPasses] at h
  | cons q rest ih =>
    by_cases hm : q.Table = req.Table ∧ q.Typ = req.Typ
    · cases hq : q.RowKeys with
      | none => simp [reqPasses, hm, hq]
      | some granted =>
        cases hr : req.RowKeys with
        | none => simp [reqPasses, hm, hq, hr] at h
        | some wanted =>
          cases hk : reqKeysFound granted wanted with
          | none => simp [reqPasses, hm, hq, hr, hk] at h
          | some b =>
            cases b with
            | false => simp [reqPasses, hm, hq, hr, hk] at h
            | true =>
              have h2 : reqPasses req rest = some true := by
                simpa [reqPasses, hm, hq, hr, hk] using h
              simpa [reqPasses, hm, hq, hr, hk] using ih h2
    · rw [reqPasses_cons_nomatch req q rest hm] at h
      rw [List.cons_append, reqPasses_cons_nomatch req q (rest ++ more) hm]
      exact ih h

/-- When no two permissions share (table, mode), a requirement that passes keeps passing
after the objects of the list are replaced by objects with the same table and type in
which scope All is kept. -/
theorem reqPasses_pointwise (req : Permission) (h0 h1 : Ptr → Permission)
    (hrel : ∀ q, (h1 q).Table = (h0 q).Table ∧ (h1 q).Typ = (h0 q).Typ ∧
      ((h0 q).RowKeys = none → (h1 q).RowKeys = none)) (ptrs : List Ptr)
    (huniq : (ptrs.map h0).Pairwise (fun a b => ¬ (a.Table = b.Table ∧ a.Typ = b.Typ)))
    (hpass : reqPasses req (ptrs.map h0) = some true) :
    reqPasses req (ptrs.map h1) = some true := by
  induction ptrs with
  | nil => simp [reqPasses] at hpass
  | cons q qs ih =>
    rw [List.map_cons, List.pairwise_cons] at huniq
    rw [List.map_cons] at hpass ⊢
    obtain ⟨r1, r2, r3⟩ := hrel q
    by_cases hm : (h0 q).Table = req.Table ∧ (h0 q).Typ = req.Typ
    · have hm1 : (h1 q).Table = req.Table ∧ (h1 q).Typ = req.Typ :=
        ⟨r1.trans hm.1, r2.trans hm.2⟩
      cases hq : (h0 q).RowKeys with
      | none => simp [reqPasses, hm1, r3 hq]
      | some granted =>
        exfalso
        cases hr : req.RowKeys with
        | none => simp [reqPasses, hm, hq, hr] at hpass
        | some wanted =>
          cases hk : reqKeysFound granted wanted with
          | none => simp [reqPasses, hm, hq, hr, hk] at hpass
          | some b =>
            cases b with
            | false => simp [reqPasses, hm, hq, hr, hk] at hpass
            | true =>
              have h2 : reqPasses req (qs.map h0) = some true := by
                simpa [reqPasses, hm, hq, hr, hk] using hpass
              obtain ⟨p, hp, hpm, _⟩ := reqPasses_true_blanket req _ h2
              exact huniq.1 p hp ⟨hm.1.trans hpm.1.symm, hm.2.trans hpm.2.symm⟩
    · have hm1 : ¬ ((h1 q).Table = req.Table ∧ (h1 q).Typ = req.Typ) := by
        rw [r1, r2]; exact hm
      rw [reqPasses_cons_nomatch req _ _ hm] at hpass
      rw [reqPasses_cons_nomatch req _ _ hm1]
      exact ih huniq.2 hpass

/-- C17 as amended: for a grant list in which no two permissions share (table, mode), a
requirement that `reqPasses` lets pass still passes against the grant list that
`AddPermissions` writes to the store for one addition. -/
theorem AddPermissions_keeps_passing {σ : Type} (S : ACLStorage σ) (acl : ACLManager σ)
    (key user : String) (ptrs : List Ptr) (r p : Permission)
    (hadmin : acl.adminKeys key = true) (hperms : acl.perms user = some ptrs)
    (hfresh : ∀ q ∈ ptrs, q < acl.next)
    (huniq : (deref acl ptrs).Pairwise (fun a b => ¬ (a.Table = b.Table ∧ a.Typ = b.Typ)))
    (hpass : reqPasses r (deref acl ptrs) = some true)
    (written : List Ptr) (acl1 : ACLManager σ)
    (hadd : addLoop acl ptrs [p] = some (written, acl1)) :
    AddPermissions S acl key user [p] = storeAndReturn S acl1 user written ∧
    reqPasses r (deref acl1 written) = some true := by
  constructor
  · rw [AddPermissions_eq_addLoop S acl key user [p] ptrs hadmin hperms, hadd]
  · rw [addLoop_single] at hadd
    cases hm : addToMatching p acl ptrs with
    | none => simp [hm] at hadd
    | some acl0 =>
      simp only [hm, Option.some.injEq, Prod.mk.injEq] at hadd
      obtain ⟨hw, ha⟩ := hadd
      obtain ⟨hst, hq⟩ := addToMatching_frame p ptrs acl acl0 hm
      have hnext : acl0.next = acl.next := by rw [hst]
      subst hw
      subst ha
      unfold deref
      rw [List.map_append]
      apply reqPasses_append_of_true
      have hmap : ptrs.map (Function.update acl0.heap acl0.next p) = ptrs.map acl0.heap := by
        apply List.map_congr_left
        intro q hqm
        have : q ≠ acl0.next := by
          have h1 := hfresh q hqm
          rw [← hnext] at h1
          exact Nat.ne_of_lt h1
        simp [Function.update_noteq this]
      show reqPasses r (ptrs.map (Function.update acl0.heap acl0.next p)) = some true
      rw [hmap]
      exact reqPasses_pointwise r acl.heap acl0.heap
        (fun q => ⟨(hq q).1, (hq q).2.1, (hq q).2.2.1⟩) ptrs huniq hpass

/-- On an object whose keys are sorted and of one length with the keys of the addition,
`updatePermAdd` returns, and a second `updatePermAdd` with the same addition changes
nothing. -/
theorem updatePermAdd_idempotent (v a : Permission) (L : Nat)
    (hv : ∀ K, v.RowKeys = some K → keysSorted K ∧ ∀ k ∈ K, k.length = L)
    (ha : ∀ A, a.RowKeys = some A → ∀ k ∈ A, k.length = L) :
    ∃ v', updatePermAdd v a = some v' ∧ updatePermAdd v' a = some v' := by
  cases hA : a.RowKeys with
  | none =>
    refine ⟨{ v with RowKeys := none }, by simp [updatePermAdd, hA], ?_⟩
    exact updatePermAdd_blanket _ a rfl
  | some A =>
    cases hK : v.RowKeys with
    | none => exact ⟨v, updatePermAdd_blanket v a hK, updatePermAdd_blanket v a hK⟩
    | some K =>
      obtain ⟨hs, hl⟩ := hv K hK
      obtain ⟨K', h1, h2, h3, h4⟩ := addKeys_sorted L A K hs hl (ha A hA)
      refine ⟨{ v with RowKeys := some K' }, by simp [updatePermAdd, hA, hK, h1], ?_⟩
      have h5 : addKeys K' A = some K' :=
        addKeys_of_subset L K' h2 h3 A (fun k hk => (h4 k).mpr (Or.inr hk))
      simp [updatePermAdd, hA, h5]

/-- The inner loop of `AddPermissions` computes `mergedHeap`, also when the slice holds an
address more than once, provided `updatePermAdd` returns on the objects concerned and a
repeated `updatePermAdd` changes nothing. -/
theorem addToMatching_exact {σ : Type} (ta : Permission) (h0 : Ptr → Permission)
    (all : List Ptr)
    (hH : ∀ q ∈ all, sameTableAndType (h0 q) ta →
      ∃ v, updatePermAdd (h0 q) ta = some v ∧ updatePermAdd v ta = some v) :
    ∀ (rest vis : List Ptr) (acl : ACLManager σ), (∀ q ∈ rest, q ∈ all) →
      acl.heap = mergedHeap ta h0 vis →
      addToMatching ta acl rest = some { acl with heap := mergedHeap ta h0 (vis ++ rest) } := by
  intro rest
  induction rest with
  | nil =>
    intro vis acl _ hheap
    simp only [addToMatching, List.append_nil, ← hheap]
  | cons q rest ih =>
    intro vis acl hall hheap
    have hq : q ∈ all := hall q (List.mem_cons_self _ _)
    have hrest : ∀ x ∈ rest, x ∈ all := fun x hx => hall x (List.mem_cons_of_mem _ hx)
    by_cases hm : sameTableAndType (h0 q) ta
    · obtain ⟨v, hv1, hv2⟩ := hH q hq hm
      obtain ⟨hvt, hvy⟩ := updatePermAdd_same_table _ _ _ hv1
      have hcur : acl.heap q = v ∨ acl.heap q = h0 q := by
        rw [hheap]
        unfold mergedHeap
        by_cases hvis : q ∈ vis
        · left; simp [hvis, hm, hv1]
        · right; simp [hvis]
      have hmatch : (acl.heap q).Table = ta.Table ∧ (acl.heap q).Typ = ta.Typ := by
        rcases hcur with h | h
        · rw [h, hvt, hvy]; exact hm
        · rw [h]; exact hm
      have hupd : updatePermAdd (acl.heap q) ta = some v := by
        rcases hcur with h | h
        · rw [h]; exact hv2
        · rw [h]; exact hv1
      have hnew : Function.update acl.heap q v = mergedHeap ta h0 (vis ++ [q]) := by
        funext x
        by_cases hx : x = q
        · subst hx
          simp [mergedHeap, hm, hv1]
        · rw [Function.update_noteq hx, hheap]
          simp [mergedHeap, hx]
      have := ih (vis ++ [q]) { acl with heap := Function.update acl.heap q v } hrest hnew
      simp only [addToMatching, hmatch, and_self, if_true, hupd]
      rw [this]
      simp [List.append_assoc]
    · have hcur : acl.heap q = h0 q := by
        rw [hheap]
        simp [mergedHeap, hm]
      have hnomatch : ¬ ((acl.heap q).Table = ta.Table ∧ (acl.heap q).Typ = ta.Typ) := by
        rw [hcur]; exact hm
      have hnew : acl.heap = mergedHeap ta h0 (vis ++ [q]) := by
        rw [hheap]
        funext x
        by_cases hx : x = q
        · subst hx
          simp [mergedHeap, hm]
        · simp [mergedHeap, hx]
      have := ih (vis ++ [q]) acl hrest hnew
      simp only [addToMatching, hnomatch, if_false]
      rw [this]
      simp [List.append_assoc]

/-- The inner loop of `AddPermissions` from the start of the slice. -/
theorem addToMatching_merged {σ : Type} (ta : Permission) (acl : ACLManager σ)
    (ptrs : List Ptr)
    (hH : ∀ q ∈ ptrs, sameTableAndType (acl.heap q) ta →
      ∃ v, updatePermAdd (acl.heap q) ta = some v ∧ updatePermAdd v ta = some v) :
    addToMatching ta acl ptrs = some { acl with heap := mergedHeap ta acl.heap ptrs } := by
  have h0 : acl.heap = mergedHeap ta acl.heap [] := by
    funext x
    simp [mergedHeap]
  have := addToMatching_exact ta acl.heap ptrs hH ptrs [] acl (fun q hq => hq) h0
  simpa using this

/-- When `updatePermAdd` changes none of the objects concerned, the inner loop of
`AddPermissions` leaves the manager as it is. -/
theorem addToMatching_fixed {σ : Type} (ta : Permission) (acl : ACLManager σ)
    (ptrs : List Ptr)
    (hfix : ∀ q ∈ ptrs, sameTableAndType (acl.heap q) ta →
      updatePermAdd (acl.heap q) ta = some (acl.heap q)) :
    addToMatching ta acl ptrs = some acl := by
  rw [addToMatching_merged ta acl ptrs
    (fun q hq hm => ⟨acl.heap q, hfix q hq hm, hfix q hq hm⟩)]
  have : mergedHeap ta acl.heap ptrs = acl.heap := by
    funext x
    unfold mergedHeap
    by_cases hx : x ∈ ptrs ∧ sameTableAndType (acl.heap x) ta
    · rw [if_pos hx, hfix x hx.1 hx.2]
      rfl
    · rw [if_neg hx]
  rw [this]

/-- The loop of `AddPermissions` for one addition that changes none of the objects of the
slice: the addition is appended, nothing else happens. -/
theorem addLoop_single_fixed {σ : Type} (p : Permission) (b : ACLManager σ)
    (ptrs : List Ptr)
    (hfix : ∀ q ∈ ptrs, sameTableAndType (b.heap q) p →
      updatePermAdd (b.heap q) p = some (b.heap q)) :
    addLoop b ptrs [p] = some (ptrs ++ [b.next],
      { b with heap := Function.update b.heap b.next p, next := b.next + 1 }) := by
  rw [addLoop_single, addToMatching_fixed p b ptrs hfix]

/-- C18 as amended: when every Rows permission of the grant list with the table and mode
of `p` has its keys sorted ascending and duplicate-free, and these keys and the keys of
`p` have one length, then a second `AddPermissions` with `[p]`, right after the first,
writes the same grant list to the store as the first and leaves the same grants in
memory. -/
theorem AddPermissions_twice_writes_same {σ : Type} (S : ACLStorage σ) (acl : ACLManager σ)
    (key user : String) (ptrs : List Ptr) (p : Permission) (L : Nat)
    (hadmin : acl.adminKeys key = true) (hperms : acl.perms user = some ptrs)
    (hfresh : ∀ q ∈ ptrs, q < acl.next)
    (hsorted : ∀ q ∈ ptrs, sameTableAndType (acl.heap q) p →
      ∀ K, (acl.heap q).RowKeys = some K → keysSorted K ∧ ∀ k ∈ K, k.length = L)
    (hp : ∀ A, p.RowKeys = some A → ∀ k ∈ A, k.length = L) :
    ∃ written acl1, addLoop acl ptrs [p] = some (written, acl1) ∧
      AddPermissions S acl key user [p] = storeAndReturn S acl1 user written ∧
      ∀ sto, ∃ written2 acl2,
        addLoop { acl1 with storage := sto } ptrs [p] = some (written2, acl2) ∧
        AddPermissions S { acl1 with storage := sto } key user [p]
          = storeAndReturn S acl2 user written2 ∧
        deref acl2 written2 = deref acl1 written ∧
        memoryGrants acl2 user = memoryGrants acl1 user := by
  have hH : ∀ q ∈ ptrs, sameTableAndType (acl.heap q) p →
      ∃ v, updatePermAdd (acl.heap q) p = some v ∧ updatePermAdd v p = some v :=
    fun q hq hm => updatePermAdd_idempotent (acl.heap q) p L (hsorted q hq hm) hp
  have hfirst := addToMatching_merged p acl ptrs hH
  have hadd1 : addLoop acl ptrs [p] = some (ptrs ++ [acl.next],
      { acl with heap := Function.update (mergedHeap p acl.heap ptrs) acl.next p,
                 next := acl.next + 1 }) := by
    rw [addLoop_single, hfirst]
  refine ⟨ptrs ++ [acl.next],
    { acl with heap := Function.update (mergedHeap p acl.heap ptrs) acl.next p,
               next := acl.next + 1 }, hadd1, ?_, ?_⟩
  · rw [AddPermissions_eq_addLoop S acl key user [p] ptrs hadmin hperms, hadd1]
  · intro sto
    have hne : ∀ q ∈ ptrs, q ≠ acl.next := fun q hq => Nat.ne_of_lt (hfresh q hq)
    have hne2 : ∀ q ∈ ptrs, q ≠ acl.next + 1 := fun q hq =>
      Nat.ne_of_lt (Nat.lt_succ_of_lt (hfresh q hq))
    let b : ACLManager σ :=
      { acl with heap := Function.update (mergedHeap p acl.heap ptrs) acl.next p,
                 next := acl.next + 1, storage := sto }
    have hadmin_b : b.adminKeys key = true := hadmin
    have hperms_b : b.perms user = some ptrs := hperms
    have hfix : ∀ q ∈ ptrs, sameTableAndType (b.heap q) p →
        updatePermAdd (b.heap q) p = some (b.heap q) := by
      intro q hq
      show sameTableAndType (Function.update (mergedHeap p acl.heap ptrs) acl.next p q) p →
        updatePermAdd (Function.update (mergedHeap p acl.heap ptrs) acl.next p q) p
          = some (Function.update (mergedHeap p acl.heap ptrs) acl.next p q)
      rw [Function.update_noteq (hne q hq)]
      unfold mergedHeap
      by_cases hm : sameTableAndType (acl.heap q) p
      · obtain ⟨v, hv1, hv2⟩ := hH q hq hm
        simp only [hq, hm, and_self, if_true, hv1, Option.getD_some]
        intro _
        exact hv2
      · rw [if_neg (fun h => hm h.2)]
        intro hm2
        exact absurd hm2 hm
    have hadd2 := addLoop_single_fixed p b ptrs hfix
    refine ⟨ptrs ++ [b.next],
      { b with heap := Function.update b.heap b.next p, next := b.next + 1 }, hadd2, ?_, ?_, ?_⟩
    · exact (AddPermissions_eq_addLoop S b key user [p] ptrs hadmin_b hperms_b).trans
        (by rw [hadd2])
    · show List.map (Function.update
            (Function.update (mergedHeap p acl.heap ptrs) acl.next p) (acl.next + 1) p)
          (ptrs ++ [acl.next + 1])
        = List.map (Function.update (mergedHeap p acl.heap ptrs) acl.next p)
          (ptrs ++ [acl.next])
      simp only [List.map_append, List.map_cons, List.map_nil, Function.update_same]
      congr 1
      apply List.map_congr_left
      intro q hq
      rw [Function.update_noteq (hne2 q hq)]
    · show Option.map (List.map (Function.update
            (Function.update (mergedHeap p acl.heap ptrs) acl.next p) (acl.next + 1) p))
          (acl.perms user)
        = Option.map (List.map (Function.update (mergedHeap p acl.heap ptrs) acl.next p))
          (acl.perms user)
      rw [hperms]
      simp only [Option.map_some', Option.some.injEq]
      apply List.map_congr_left
      intro q hq
      rw [Function.update_noteq (hne2 q hq)]

/-- The function `updatePermRemove` keeps the table and the type of the object. -/
theorem updatePermRemove_same_table (v r v' : Permission) (res : Except Error Bool)
    (h : updatePermRemove v r = some (res, v')) :
    v'.Table = v.Table ∧ v'.Typ = v.Typ := by
  unfold updatePermRemove at h
  cases hr : r.RowKeys with
  | none =>
    cases hv : v.RowKeys with
    | none =>
      simp [hr, hv] at h
      rw [← h.2]
      exact ⟨rfl, rfl⟩
    | some K =>
      simp [hr, hv] at h
      rw [← h.2]
      exact ⟨rfl, rfl⟩
  | some R =>
    cases hv : v.RowKeys with
    | none =>
      simp [hr, hv] at h
      rw [← h.2]
      exact ⟨rfl, rfl⟩
    | some K =>
      simp only [hr, hv] at h
      cases hk : removeKeys K R with
      | none => simp [hk] at h
      | some K' =>
        simp [hk] at h
        rw [← h.2]
        exact ⟨rfl, rfl⟩

/-- Past the end of the slice the inner loop of `RemovePermissions` is over. -/
theorem removeFromMatching_done {σ : Type} (ta : Permission) (n steps : Nat)
    (st : RemoveState σ) :
    removeFromMatching ta n steps n st = some (.ok (), st) := by
  cases steps <;> simp [removeFromMatching]

/-- The inner loop of `RemovePermissions` passes over objects with another table or type
than the removal. -/
theorem removeFromMatching_skip {σ : Type} (ta : Permission) (n : Nat) :
    ∀ (d steps k : Nat) (st : RemoveState σ), k + d ≤ n →
      (∀ idx, k ≤ idx → idx < k + d →
        ∃ q, st.arr[idx]? = some q ∧ ¬ sameTableAndType (st.acl.heap q) ta) →
      removeFromMatching ta n (steps + d) k st = removeFromMatching ta n steps (k + d) st := by
  intro d
  induction d with
  | zero =>
    intro steps k st _ _
    rfl
  | succ d ih =>
    intro steps k st hk hno
    obtain ⟨q, hq, hnm⟩ := hno k (le_refl _) (by omega)
    have hlt : k < n := by omega
    have hnm2 : ¬ ((st.acl.heap q).Table = ta.Table ∧ (st.acl.heap q).Typ = ta.Typ) := hnm
    have hstep : removeFromMatching ta n (steps + d + 1) k st
        = removeFromMatching ta n (steps + d) (k + 1) st := by
      simp only [removeFromMatching, hlt, if_true, hq, hnm2, if_false]
    rw [show steps + (d + 1) = steps + d + 1 by omega, hstep,
      ih steps (k + 1) st (by omega) (fun idx h1 h2 => hno idx (by omega) (by omega))]
    rw [show k + 1 + d = k + (d + 1) by omega]

/-- The inner loop of `RemovePermissions` over a slice in which the object at position `i`
is the only one with the table and type of the removal: the result of `updatePermRemove`
on that object decides. An error ends the call; `true` makes the last element of the
slice take position `i` and the slice lose its last element; `false` keeps the slice. -/
theorem removeFromMatching_unique {σ : Type} (ta : Permission) (acl : ACLManager σ)
    (ptrs : List Ptr) (i : Nat) (q0 last : Ptr) (hi : ptrs[i]? = some q0)
    (hlast : ptrs[ptrs.length - 1]? = some last)
    (hm : sameTableAndType (acl.heap q0) ta)
    (honly : ∀ j q, ptrs[j]? = some q → sameTableAndType (acl.heap q) ta → j = i) :
    removeFromMatching ta ptrs.length ptrs.length 0
        { acl := acl, arr := ptrs, len := ptrs.length }
      = match updatePermRemove (acl.heap q0) ta with
        | none => none
        | some (.error e, _) => some (.error e, { acl := acl, arr := ptrs, len := ptrs.length })
        | some (.ok true, v) =>
          some (.ok (), { acl := { acl with heap := Function.update acl.heap q0 v },
                          arr := ptrs.set i last, len := ptrs.length - 1 })
        | some (.ok false, v) =>
          some (.ok (), { acl := { acl with heap := Function.update acl.heap q0 v },
                          arr := ptrs, len := ptrs.length }) := by
  have hin : i < ptrs.length := (List.getElem?_eq_some.mp hi).1
  have hm2 : (acl.heap q0).Table = ta.Table ∧ (acl.heap q0).Typ = ta.Typ := hm
  have hskip := removeFromMatching_skip ta ptrs.length i (ptrs.length - i) 0
    ({ acl := acl, arr := ptrs, len := ptrs.length } : RemoveState σ) (by omega)
    (by
      intro idx _ hidx
      have hidx2 : idx < ptrs.length := by omega
      refine ⟨ptrs[idx], List.getElem?_eq_getElem hidx2, ?_⟩
      intro hmm
      have := honly idx _ (List.getElem?_eq_getElem hidx2) hmm
      omega)
  rw [show ptrs.length - i + i = ptrs.length by omega, Nat.zero_add] at hskip
  rw [hskip, show ptrs.length - i = (ptrs.length - i - 1) + 1 by omega]
  simp only [removeFromMatching, hin, if_true, hi, hm2, and_self]
  cases hu : updatePermRemove (acl.heap q0) ta with
  | none => rfl
  | some res =>
    obtain ⟨e, v⟩ := res
    cases e with
    | error err => rfl
    | ok b =>
      cases b with
      | true => simp only [if_true, hlast]
      | false =>
        simp only [Bool.false_eq_true, if_false]
        obtain ⟨hvt, hvy⟩ := updatePermRemove_same_table _ _ _ _ hu
        have hskip2 := removeFromMatching_skip ta ptrs.length (ptrs.length - i - 1) 0 (i + 1)
          ({ acl := { acl with heap := Function.update acl.heap q0 v }, arr := ptrs,
             len := ptrs.length } : RemoveState σ) (by omega)
          (by
            intro idx hlo hidx
            have hidx2 : idx < ptrs.length := by omega
            refine ⟨ptrs[idx], List.getElem?_eq_getElem hidx2, ?_⟩
            intro hmm
            have hmm2 : sameTableAndType (acl.heap ptrs[idx]) ta := by
              by_cases hq : ptrs[idx] = q0
              · rw [hq]; exact hm
              · have : Function.update acl.heap q0 v ptrs[idx] = acl.heap ptrs[idx] :=
                  Function.update_noteq hq _ _
                simp only [this] at hmm
                exact hmm
            have := honly idx _ (List.getElem?_eq_getElem hidx2) hmm2
            omega)
        rw [Nat.zero_add] at hskip2
        rw [hskip2, show i + 1 + (ptrs.length - i - 1) = ptrs.length by omega]
        exact removeFromMatching_done ta ptrs.length 0 _

/-- Writing the last element of a list over position `i` and dropping the last position
leaves the list without its element at `i`, up to order. -/
theorem swap_delete_perm {α : Type} (l : List α) :
    ∀ (i : Nat) (x : α), i < l.length → l[l.length - 1]? = some x →
      ((l.set i x).take (l.length - 1)).Perm (l.eraseIdx i) := by
  induction l with
  | nil => intro i x hi; simp at hi
  | cons a t ih =>
    intro i x hi hx
    cases t with
    | nil =>
      have : i = 0 := by simpa using hi
      subst this
      simp
    | cons b u =>
      have hx2 : (b :: u)[(b :: u).length - 1]? = some x := by
        simpa using hx
      cases i with
      | zero =>
        have hlast : (b :: u).dropLast ++ [x] = b :: u := by
          have h1 := List.dropLast_append_getLast? (l := b :: u) x
            (by rw [List.getLast?_eq_getElem?]; exact hx2)
          exact h1
        have htake : ((a :: b :: u).set 0 x).take ((a :: b :: u).length - 1)
            = x :: (b :: u).dropLast := by
          simp [List.dropLast_eq_take]
        rw [htake]
        show (x :: (b :: u).dropLast).Perm (b :: u)
        conv_rhs => rw [← hlast]
        exact (List.perm_append_singleton x _).symm
      | succ j =>
        have hj : j < (b :: u).length := by simpa using hi
        have := ih j x hj hx2
        have htake : ((a :: b :: u).set (j + 1) x).take ((a :: b :: u).length - 1)
            = a :: ((b :: u).set j x).take ((b :: u).length - 1) := by
          simp
        rw [htake]
        show (a :: ((b :: u).set j x).take ((b :: u).length - 1)).Perm
          (a :: (b :: u).eraseIdx j)
        exact List.Perm.cons a this

/-- `RemovePermissions` for an admin key, a user whose slice is in memory and a first
removal `r`, when the object at position `i` of the slice is the only one with the table
and type of `r`: the loop for `r` is decided by `updatePermRemove` on that object. -/
theorem removeLoop_first_unique {σ : Type} (acl : ACLManager σ) (ptrs : List Ptr)
    (r : Permission) (more : List Permission) (i : Nat) (q0 last : Ptr)
    (hi : ptrs[i]? = some q0) (hlast : ptrs[ptrs.length - 1]? = some last)
    (hm : sameTableAndType (acl.heap q0) r)
    (honly : ∀ j q, ptrs[j]? = some q → sameTableAndType (acl.heap q) r → j = i) :
    removeLoop { acl := acl, arr := ptrs, len := ptrs.length } (r :: more)
      = match updatePermRemove (acl.heap q0) r with
        | none => none
        | some (.error e, _) => some (.error e, { acl := acl, arr := ptrs, len := ptrs.length })
        | some (.ok true, v) =>
          removeLoop { acl := { acl with heap := Function.update acl.heap q0 v },
                       arr := ptrs.set i last, len := ptrs.length - 1 } more
        | some (.ok false, v) =>
          removeLoop { acl := { acl with heap := Function.update acl.heap q0 v },
                       arr := ptrs, len := ptrs.length } more := by
  simp only [removeLoop]
  rw [removeFromMatching_unique r acl ptrs i q0 last hi hlast hm honly]
  cases hu : updatePermRemove (acl.heap q0) r with
  | none => rfl
  | some res =>
    obtain ⟨e, v⟩ := res
    cases e with
    | error err => rfl
    | ok b => cases b <;> rfl

/-- The manager of the state in which the loops of `RemovePermissions` start is the
manager itself. -/
theorem RemoveState.manager_initial {σ : Type} (acl : ACLManager σ) (user : String)
    (ptrs : List Ptr) (len : Nat) (hperms : acl.perms user = some ptrs) :
    RemoveState.manager user { acl := acl, arr := ptrs, len := len } = acl := by
  have hupd : Function.update acl.perms user (some ptrs) = acl.perms := by
    rw [← hperms]
    exact Function.update_eq_self _ _
  simp only [RemoveState.manager, hupd]

/-- The objects that remain after the deletion of the only object with the table and type
of `r`: the grants the slice points to after the swap, read in the memory after the
update, are the grants before without the one at position `i`, up to order. -/
theorem deref_swap_delete {σ : Type} (acl : ACLManager σ) (ptrs : List Ptr) (r v : Permission)
    (i : Nat) (q0 last : Ptr) (perms : String → Option (List Ptr))
    (hi : ptrs[i]? = some q0) (hlast : ptrs[ptrs.length - 1]? = some last)
    (honly : ∀ j q, ptrs[j]? = some q → sameTableAndType (acl.heap q) r → j = i)
    (hm : sameTableAndType (acl.heap q0) r) :
    (deref { acl with heap := Function.update acl.heap q0 v, perms := perms }
      ((ptrs.set i last).take (ptrs.length - 1))).Perm ((deref acl ptrs).eraseIdx i) := by
  have hin : i < ptrs.length := (List.getElem?_eq_some.mp hi).1
  have hne : ∀ q ∈ (ptrs.set i last).take (ptrs.length - 1), q ≠ q0 := by
    intro q hq hqq
    obtain ⟨j, hj⟩ := List.mem_iff_getElem?.mp hq
    rw [List.getElem?_take] at hj
    by_cases hjn : j < ptrs.length - 1
    · rw [if_pos hjn, List.getElem?_set] at hj
      by_cases hij : i = j
      · rw [if_pos hij, if_pos hin] at hj
        injection hj with hj
        have := honly (ptrs.length - 1) last hlast (by rw [hj, hqq]; exact hm)
        omega
      · rw [if_neg hij] at hj
        have := honly j q hj (by rw [hqq]; exact hm)
        omega
    · rw [if_neg hjn] at hj
      cases hj
  have hmap : deref { acl with heap := Function.update acl.heap q0 v, perms := perms }
      ((ptrs.set i last).take (ptrs.length - 1))
      = (((ptrs.map acl.heap).set i (acl.heap last)).take ((ptrs.map acl.heap).length - 1)) := by
    unfold deref
    rw [List.length_map, ← List.map_set, ← List.map_take]
    apply List.map_congr_left
    intro q hq
    exact Function.update_noteq (hne q hq) _ _
  rw [hmap]
  unfold deref
  apply swap_delete_perm
  · rw [List.length_map]; exact hin
  · rw [List.length_map, List.getElem?_map, hlast]
    rfl

/-- The grants after an update of the only object with the table and type of `r`, which is
at position `i` of the slice: the grant at position `i` is the new value, the others are
as before. -/
theorem deref_update_unique {σ : Type} (acl : ACLManager σ) (ptrs : List Ptr)
    (r v : Permission) (i : Nat) (q0 : Ptr) (hi : ptrs[i]? = some q0)
    (honly : ∀ j q, ptrs[j]? = some q → sameTableAndType (acl.heap q) r → j = i)
    (hm : sameTableAndType (acl.heap q0) r) :
    deref { acl with heap := Function.update acl.heap q0 v } ptrs
      = (deref acl ptrs).set i v := by
  have hin : i < ptrs.length := (List.getElem?_eq_some.mp hi).1
  unfold deref
  apply List.ext_getElem?
  intro j
  rw [List.getElem?_map, List.getElem?_set, List.getElem?_map, List.length_map]
  by_cases hij : i = j
  · subst hij
    rw [if_pos rfl, if_pos hin, hi]
    simp
  · rw [if_neg hij]
    cases hj : ptrs[j]? with
    | none => rfl
    | some q =>
      have hq : q ≠ q0 := by
        intro hqq
        have := honly j q hj (by rw [hqq]; exact hm)
        omega
      simp [Function.update_noteq hq]

/-- `RemovePermissions` with a first removal `r` whose table and type only the object at
position `i` of the user's slice has: the call in terms of the result of
`updatePermRemove` on that object. -/
theorem RemovePermissions_first_unique {σ : Type} (S : ACLStorage σ) (acl : ACLManager σ)
    (key user : String) (ptrs : List Ptr) (r : Permission) (more : List Permission)
    (i : Nat) (q0 last : Ptr)
    (hadmin : acl.adminKeys key = true) (hperms : acl.perms user = some ptrs)
    (hi : ptrs[i]? = some q0) (hlast : ptrs[ptrs.length - 1]? = some last)
    (hm : sameTableAndType (acl.heap q0) r)
    (honly : ∀ j q, ptrs[j]? = some q → sameTableAndType (acl.heap q) r → j = i) :
    RemovePermissions S acl key user (r :: more)
      = match updatePermRemove (acl.heap q0) r with
        | none => .panics
        | some (.error e, _) => .returns (.error e) acl
        | some (.ok true, v) =>
          match removeLoop { acl := { acl with heap := Function.update acl.heap q0 v },
                             arr := ptrs.set i last, len := ptrs.length - 1 } more with
          | none => .panics
          | some (.error e, st) => .returns (.error e) (st.manager user)
          | some (.ok (), st) =>
            storeAndReturn S (st.manager user) user (st.arr.take st.len)
        | some (.ok false, v) =>
          match removeLoop { acl := { acl with heap := Function.update acl.heap q0 v },
                             arr := ptrs, len := ptrs.length } more with
          | none => .panics
          | some (.error e, st) => .returns (.error e) (st.manager user)
          | some (.ok (), st) =>
            storeAndReturn S (st.manager user) user (st.arr.take st.len) := by
  rw [RemovePermissions_eq_removeLoop S acl key user (r :: more) ptrs hadmin hperms,
    removeLoop_first_unique acl ptrs r more i q0 last hi hlast hm honly]
  cases hu : updatePermRemove (acl.heap q0) r with
  | none => rfl
  | some res =>
    obtain ⟨e, v⟩ := res
    cases e with
    | error err =>
      simp only [RemoveState.manager_initial acl user ptrs ptrs.length hperms]
    | ok b => cases b <;> rfl

/-- The four cases of one removal: `RemovePermissions` treats a removal `r` against the only permission
`p` of the user's grant list with the table and mode of `r` as follows. `r = All`,
`p = All`: `p` is deleted from the list that is written. `r = All`, `p = Rows`: the list
is written as it is. `r = Rows`, `p = All`: the whole call, whatever removals follow,
returns the remove-specific-from-blanket error and leaves manager and store as they were.
`r = Rows R`, `p = Rows K` with `K` sorted ascending and duplicate-free and the keys of
`K` and `R` of one length: the keys of `p` become the keys of `K` that are not in `R`, in
the same order, and `p` is deleted from the list exactly when no key remains. Deleting
leaves the other permissions in the list, in another order. -/
theorem RemovePermissions_unique_cases {σ : Type} (S : ACLStorage σ) (acl : ACLManager σ)
    (key user : String) (ptrs : List Ptr) (r : Permission) (i : Nat) (q0 : Ptr)
    (hadmin : acl.adminKeys key = true) (hperms : acl.perms user = some ptrs)
    (hi : ptrs[i]? = some q0) (hm : sameTableAndType (acl.heap q0) r)
    (honly : ∀ j q, ptrs[j]? = some q → sameTableAndType (acl.heap q) r → j = i) :
    (r.RowKeys = none → (acl.heap q0).RowKeys = none →
      ∃ acl1 written, RemovePermissions S acl key user [r] = storeAndReturn S acl1 user written ∧
        (deref acl1 written).Perm ((deref acl ptrs).eraseIdx i)) ∧
    (r.RowKeys = none → (acl.heap q0).RowKeys ≠ none →
      RemovePermissions S acl key user [r] = storeAndReturn S acl user ptrs) ∧
    (r.RowKeys ≠ none → (acl.heap q0).RowKeys = none → ∀ more,
      RemovePermissions S acl key user (r :: more)
        = .returns (.error Error.removeSpecificFromBlanket) acl) ∧
    (∀ (K R : List (List String)) (L : Nat), (acl.heap q0).RowKeys = some K →
      r.RowKeys = some R → keysSorted K → (∀ k ∈ K, k.length = L) → (∀ k ∈ R, k.length = L) →
      (K.filter (fun k => decide (k ∉ R)) = [] →
        ∃ acl1 written,
          RemovePermissions S acl key user [r] = storeAndReturn S acl1 user written ∧
          (deref acl1 written).Perm ((deref acl ptrs).eraseIdx i)) ∧
      (K.filter (fun k => decide (k ∉ R)) ≠ [] →
        ∃ acl1, RemovePermissions S acl key user [r] = storeAndReturn S acl1 user ptrs ∧
          acl1.perms = acl.perms ∧
          deref acl1 ptrs = (deref acl ptrs).set i
            { acl.heap q0 with RowKeys := some (K.filter (fun k => decide (k ∉ R))) })) := by
  have hin : i < ptrs.length := (List.getElem?_eq_some.mp hi).1
  obtain ⟨last, hlast⟩ : ∃ last, ptrs[ptrs.length - 1]? = some last :=
    ⟨_, List.getElem?_eq_getElem (by omega)⟩
  have hcall := fun more => RemovePermissions_first_unique S acl key user ptrs r more i q0 _
    hadmin hperms hi hlast hm honly
  obtain ⟨c1, c2, c3, c4⟩ := updatePermRemove_cases (acl.heap q0) r
  have hself : ({ acl with heap := Function.update acl.heap q0 (acl.heap q0) } : ACLManager σ)
      = acl := by
    rw [Function.update_eq_self]
  refine ⟨?_, ?_, ?_, ?_⟩
  · intro hr hp
    have h := hcall []
    rw [c1 hr hp] at h
    exact ⟨_, _, h, deref_swap_delete acl ptrs r _ i q0 _ _ hi hlast honly hm⟩
  · intro hr hp
    have h := hcall []
    rw [c2 hr hp] at h
    rw [h]
    simp only [removeLoop, hself, RemoveState.manager_initial acl user ptrs ptrs.length hperms,
      List.take_length]
  · intro hr hp more
    have h := hcall more
    rw [c3 hr hp] at h
    exact h
  · intro K R L hK hR hs hKl hRl
    have hc := c4 K R L hK hR hs hKl hRl
    constructor
    · intro hempty
      have h := hcall []
      rw [hc, hempty] at h
      exact ⟨_, _, h, deref_swap_delete acl ptrs r _ i q0 _ _ hi hlast honly hm⟩
    · intro hne
      have h := hcall []
      rw [hc] at h
      simp only [hne, decide_False] at h
      refine ⟨{ acl with heap := (Function.update acl.heap q0
          { acl.heap q0 with RowKeys := some (K.filter (fun k => decide (k ∉ R))) }) },
        ?_, rfl, ?_⟩
      · rw [h]
        simp only [removeLoop, List.take_length]
        congr 1
        exact RemoveState.manager_initial _ user ptrs ptrs.length hperms
      · exact deref_update_unique acl ptrs r _ i q0 hi honly hm

/-- The inner loop of `RemovePermissions`, at any point of the call, over a slice in which
the object at position `i` is the only one with the table and type of the removal. -/
theorem removeFromMatching_unique_at {σ : Type} (ta : Permission) (st : RemoveState σ)
    (i : Nat) (q0 last : Ptr) (hil : i < st.len) (hi : st.arr[i]? = some q0)
    (hlen : st.len ≤ st.arr.length) (hlast : st.arr[st.len - 1]? = some last)
    (hm : sameTableAndType (st.acl.heap q0) ta)
    (honly : ∀ j q, j < st.len → st.arr[j]? = some q →
      sameTableAndType (st.acl.heap q) ta → j = i) :
    removeFromMatching ta st.len st.len 0 st
      = match updatePermRemove (st.acl.heap q0) ta with
        | none => none
        | some (.error e, _) => some (.error e, st)
        | some (.ok true, v) =>
          some (.ok (), { acl := { st.acl with heap := Function.update st.acl.heap q0 v },
                          arr := st.arr.set i last, len := st.len - 1 })
        | some (.ok false, v) =>
          some (.ok (), { st with
            acl := { st.acl with heap := Function.update st.acl.heap q0 v } }) := by
  obtain ⟨acl, arr, len⟩ := st
  simp only at hil hi hlen hlast hm honly ⊢
  have hm2 : (acl.heap q0).Table = ta.Table ∧ (acl.heap q0).Typ = ta.Typ := hm
  have hskip := removeFromMatching_skip ta len i (len - i) 0
    ({ acl := acl, arr := arr, len := len } : RemoveState σ) (by omega)
    (by
      intro idx _ hidx
      have hidx2 : idx < arr.length := by omega
      refine ⟨arr[idx], List.getElem?_eq_getElem hidx2, ?_⟩
      intro hmm
      have := honly idx _ (by omega) (List.getElem?_eq_getElem hidx2) hmm
      omega)
  rw [show len - i + i = len by omega, Nat.zero_add] at hskip
  rw [hskip, show len - i = (len - i - 1) + 1 by omega]
  simp only [removeFromMatching, hil, if_true, hi, hm2, and_self]
  cases hu : updatePermRemove (acl.heap q0) ta with
  | none => rfl
  | some res =>
    obtain ⟨e, v⟩ := res
    cases e with
    | error err => rfl
    | ok b =>
      cases b with
      | true => simp only [if_true, hlast]
      | false =>
        simp only [Bool.false_eq_true, if_false]
        have hskip2 := removeFromMatching_skip ta len (len - i - 1) 0 (i + 1)
          ({ acl := { acl with heap := Function.update acl.heap q0 v }, arr := arr,
             len := len } : RemoveState σ) (by omega)
          (by
            intro idx hlo hidx
            have hidx2 : idx < arr.length := by omega
            refine ⟨arr[idx], List.getElem?_eq_getElem hidx2, ?_⟩
            intro hmm
            have hmm2 : sameTableAndType (acl.heap arr[idx]) ta := by
              by_cases hq : arr[idx] = q0
              · rw [hq]; exact hm
              · have : Function.update acl.heap q0 v arr[idx] = acl.heap arr[idx] :=
                  Function.update_noteq hq _ _
                simp only [this] at hmm
                exact hmm
            have := honly idx _ (by omega) (List.getElem?_eq_getElem hidx2) hmm2
            omega)
        rw [Nat.zero_add] at hskip2
        rw [hskip2, show i + 1 + (len - i - 1) = len by omega]
        exact removeFromMatching_done ta len 0 _

/-- The loops of `RemovePermissions` do not touch the store, keep the array behind the
slice at its length, and never lengthen the slice. -/
theorem removeFromMatching_frame {σ : Type} (ta : Permission) (n : Nat) :
    ∀ (steps i : Nat) (st st1 : RemoveState σ) (res : Except Error Unit),
      removeFromMatching ta n steps i st = some (res, st1) →
      st1.acl.storage = st.acl.storage ∧ st1.arr.length = st.arr.length ∧
        st1.len ≤ st.len := by
  intro steps
  induction steps with
  | zero =>
    intro i st st1 res h
    simp only [removeFromMatching, Option.some.injEq, Prod.mk.injEq] at h
    rw [← h.2]
    exact ⟨rfl, rfl, Nat.le_refl _⟩
  | succ steps ih =>
    intro i st st1 res h
    simp only [removeFromMatching] at h
    by_cases hin : i < n
    · simp only [hin, if_true] at h
      cases hp : st.arr[i]? with
      | none => simp [hp] at h
      | some p =>
        simp only [hp] at h
        by_cases hm : (st.acl.heap p).Table = ta.Table ∧ (st.acl.heap p).Typ = ta.Typ
        · simp only [hm, and_self, if_true] at h
          cases hu : updatePermRemove (st.acl.heap p) ta with
          | none => simp [hu] at h
          | some r =>
            obtain ⟨e, v⟩ := r
            simp only [hu] at h
            cases e with
            | error err =>
              simp only [Option.some.injEq, Prod.mk.injEq] at h
              rw [← h.2]
              exact ⟨rfl, rfl, Nat.le_refl _⟩
            | ok b =>
              cases b with
              | true =>
                simp only [if_true] at h
                cases hl : st.arr[st.len - 1]? with
                | none => simp [hl] at h
                | some last =>
                  simp only [hl, Option.some.injEq, Prod.mk.injEq] at h
                  rw [← h.2]
                  exact ⟨rfl, List.length_set _ _ _, Nat.sub_le _ _⟩
              | false =>
                simp only [Bool.false_eq_true, if_false] at h
                have h2 := ih _ _ _ _ h
                exact h2
        · simp only [hm, if_false] at h
          exact ih _ _ _ _ h
    · simp only [hin, if_false, Option.some.injEq, Prod.mk.injEq] at h
      rw [← h.2]
      exact ⟨rfl, rfl, Nat.le_refl _⟩

/-- The outer loop of `RemovePermissions` does not touch the store, keeps the array at
its length, and never lengthens the slice. -/
theorem removeLoop_frame {σ : Type} (toRem : List Permission) :
    ∀ (st st1 : RemoveState σ) (res : Except Error Unit),
      removeLoop st toRem = some (res, st1) →
      st1.acl.storage = st.acl.storage ∧ st1.arr.length = st.arr.length ∧
        st1.len ≤ st.len := by
  induction toRem with
  | nil =>
    intro st st1 res h
    simp only [removeLoop, Option.some.injEq, Prod.mk.injEq] at h
    rw [← h.2]
    exact ⟨rfl, rfl, Nat.le_refl _⟩
  | cons ta toRem ih =>
    intro st st1 res h
    simp only [removeLoop] at h
    cases hr : removeFromMatching ta st.len st.len 0 st with
    | none => simp [hr] at h
    | some r =>
      obtain ⟨e, st2⟩ := r
      have hst := removeFromMatching_frame ta st.len st.len 0 st st2 e hr
      cases e with
      | error err =>
        simp only [hr, Option.some.injEq, Prod.mk.injEq] at h
        rw [← h.2]
        exact hst
      | ok u =>
        simp only [hr] at h
        have h2 := ih st2 st1 res h
        exact ⟨h2.1.trans hst.1, h2.2.1.trans hst.2.1, Nat.le_trans h2.2.2 hst.2.2⟩

/-- The outer loop of `RemovePermissions` over a list of removals in two parts: the second
part is run from the state that the first part ends in. -/
theorem removeLoop_append {σ : Type} (pre rest : List Permission) :
    ∀ (st st1 : RemoveState σ), removeLoop st pre = some (.ok (), st1) →
      removeLoop st (pre ++ rest) = removeLoop st1 rest := by
  induction pre with
  | nil =>
    intro st st1 h
    simp only [removeLoop, Option.some.injEq, Prod.mk.injEq, true_and] at h
    rw [h]
    rfl
  | cons ta pre ih =>
    intro st st1 h
    simp only [removeLoop, List.cons_append] at h ⊢
    cases hr : removeFromMatching ta st.len st.len 0 st with
    | none => simp [hr] at h
    | some r =>
      obtain ⟨e, st2⟩ := r
      cases e with
      | error err => simp [hr] at h
      | ok u =>
        simp only [hr] at h ⊢
        exact ih st2 st1 h

/-- The treatment of one removal by the outer loop of `RemovePermissions`, at any point of
the call, when the object at position `i` of the slice is the only one with the table and
type of the removal. -/
theorem removeLoop_unique_cases {σ : Type} (st : RemoveState σ) (r : Permission)
    (more : List Permission) (i : Nat) (q0 : Ptr)
    (hlen : st.len ≤ st.arr.length) (hil : i < st.len) (hi : st.arr[i]? = some q0)
    (hm : sameTableAndType (st.acl.heap q0) r)
    (honly : ∀ j q, j < st.len → st.arr[j]? = some q →
      sameTableAndType (st.acl.heap q) r → j = i) :
    (r.RowKeys = none → (st.acl.heap q0).RowKeys = none →
      ∃ st1, removeLoop st (r :: more) = removeLoop st1 more ∧
        st1.grants.Perm (st.grants.eraseIdx i)) ∧
    (r.RowKeys = none → (st.acl.heap q0).RowKeys ≠ none →
      removeLoop st (r :: more) = removeLoop st more) ∧
    (r.RowKeys ≠ none → (st.acl.heap q0).RowKeys = none →
      removeLoop st (r :: more) = some (.error Error.removeSpecificFromBlanket, st)) ∧
    (∀ (K R : List (List String)) (L : Nat), (st.acl.heap q0).RowKeys = some K →
      r.RowKeys = some R → keysSorted K → (∀ k ∈ K, k.length = L) → (∀ k ∈ R, k.length = L) →
      (K.filter (fun k => decide (k ∉ R)) = [] →
        ∃ st1, removeLoop st (r :: more) = removeLoop st1 more ∧
          st1.grants.Perm (st.grants.eraseIdx i)) ∧
      (K.filter (fun k => decide (k ∉ R)) ≠ [] →
        ∃ st1, removeLoop st (r :: more) = removeLoop st1 more ∧
          st1.grants = st.grants.set i
            { st.acl.heap q0 with RowKeys := some (K.filter (fun k => decide (k ∉ R))) })) := by
  obtain ⟨acl, arr, len⟩ := st
  simp only at hlen hil hi hm honly ⊢
  obtain ⟨last, hlast⟩ : ∃ last, arr[len - 1]? = some last :=
    ⟨_, List.getElem?_eq_getElem (by omega)⟩
  have hstep := removeFromMatching_unique_at r
    ({ acl := acl, arr := arr, len := len } : RemoveState σ) i q0 last hil hi hlen hlast hm
    honly
  simp only at hstep
  -- the live slice
  have htl : (arr.take len).length = len := by
    rw [List.length_take]; omega
  have hti : (arr.take len)[i]? = some q0 := by
    rw [List.getElem?_take, if_pos hil]; exact hi
  have htlast : (arr.take len)[(arr.take len).length - 1]? = some last := by
    rw [htl, List.getElem?_take, if_pos (by omega)]; exact hlast
  have htonly : ∀ j q, (arr.take len)[j]? = some q → sameTableAndType (acl.heap q) r →
      j = i := by
    intro j q hj hmm
    rw [List.getElem?_take] at hj
    by_cases hjl : j < len
    · rw [if_pos hjl] at hj
      exact honly j q hjl hj hmm
    · rw [if_neg hjl] at hj
      cases hj
  have hswap : (arr.set i last).take (len - 1)
      = ((arr.take len).set i last).take ((arr.take len).length - 1) := by
    rw [htl, List.set_take, List.set_take, List.take_take]
    congr 2
    omega
  have hdelete : ∀ v : Permission,
      (RemoveState.grants
        ({ acl := { acl with heap := Function.update acl.heap q0 v },
           arr := arr.set i last, len := len - 1 } : RemoveState σ)).Perm
        ((RemoveState.grants ({ acl := acl, arr := arr, len := len } : RemoveState σ)).eraseIdx
          i) := by
    intro v
    have := deref_swap_delete acl (arr.take len) r v i q0 _ acl.perms hti htlast htonly hm
    simp only [RemoveState.grants, hswap]
    exact this
  obtain ⟨c1, c2, c3, c4⟩ := updatePermRemove_cases (acl.heap q0) r
  have hself : ({ acl with heap := Function.update acl.heap q0 (acl.heap q0) } : ACLManager σ)
      = acl := by
    rw [Function.update_eq_self]
  refine ⟨?_, ?_, ?_, ?_⟩
  · intro hr hp
    rw [c1 hr hp] at hstep
    refine ⟨{ acl := { acl with heap := Function.update acl.heap q0 (acl.heap q0) },
              arr := arr.set i last, len := len - 1 }, ?_, hdelete _⟩
    simp only [removeLoop, hstep]
  · intro hr hp
    rw [c2 hr hp] at hstep
    simp only [removeLoop, hstep, hself]
  · intro hr hp
    rw [c3 hr hp] at hstep
    simp only [removeLoop, hstep]
  · intro K R L hK hR hs hKl hRl
    rw [c4 K R L hK hR hs hKl hRl] at hstep
    constructor
    · intro hempty
      rw [hempty] at hstep
      refine ⟨{ acl := { acl with heap := (Function.update acl.heap q0
                  { acl.heap q0 with RowKeys := some [] }) },
                arr := arr.set i last, len := len - 1 }, ?_, hdelete _⟩
      simp only [removeLoop, hstep, decide_True]
    · intro hne
      simp only [hne, decide_False] at hstep
      refine ⟨{ acl := { acl with heap := (Function.update acl.heap q0
                  { acl.heap q0 with RowKeys := some (K.filter (fun k => decide (k ∉ R))) }) },
                arr := arr, len := len }, ?_, ?_⟩
      · simp only [removeLoop, hstep]
      · exact deref_update_unique acl (arr.take len) r _ i q0 hti htonly hm

/-- C13 as amended: within a call of `RemovePermissions` by an admin, the removal `r`
that comes after the removals `pre` is treated as follows against `p`, the only permission
with the table and mode of `r` in the slice `perms` as the earlier removals left it; `p`
is at position `i` of the slice. The call is the loop over the removals followed, when the
loop ends without error, by the write of the slice to the store. `r = All`, `p = All`: the
loop goes on with a slice that holds the permissions of the old slice without `p`, in
another order. `r = All`, `p = Rows`: the loop goes on with the state as it is. `r = Rows`,
`p = All`: the call returns the remove-specific-from-blanket error and the store is as it
was before the call. `r = Rows R`, `p = Rows K` with `K` sorted ascending and
duplicate-free and the keys of `K` and `R` of one length: the keys of `p` become the keys
of `K` that are not in `R`, in the same order, when one remains, and `p` is deleted from
the slice when none remains. -/
theorem RemovePermissions_each_removal {σ : Type} (S : ACLStorage σ) (acl : ACLManager σ)
    (key user : String) (ptrs : List Ptr) (pre : List Permission) (r : Permission)
    (more : List Permission) (st : RemoveState σ) (i : Nat) (q0 : Ptr)
    (hadmin : acl.adminKeys key = true) (hperms : acl.perms user = some ptrs)
    (hpre : removeLoop { acl := acl, arr := ptrs, len := ptrs.length } pre
      = some (.ok (), st))
    (hil : i < st.len) (hi : st.arr[i]? = some q0)
    (hm : sameTableAndType (st.acl.heap q0) r)
    (honly : ∀ j q, j < st.len → st.arr[j]? = some q →
      sameTableAndType (st.acl.heap q) r → j = i) :
    (RemovePermissions S acl key user (pre ++ r :: more)
      = match removeLoop { acl := acl, arr := ptrs, len := ptrs.length }
          (pre ++ r :: more) with
        | none => .panics
        | some (.error e, st2) => .returns (.error e) (st2.manager user)
        | some (.ok (), st2) =>
          storeAndReturn S (st2.manager user) user (st2.arr.take st2.len)) ∧
    (r.RowKeys = none → (st.acl.heap q0).RowKeys = none →
      ∃ st1, removeLoop { acl := acl, arr := ptrs, len := ptrs.length } (pre ++ r :: more)
          = removeLoop st1 more ∧
        st1.grants.Perm (st.grants.eraseIdx i)) ∧
    (r.RowKeys = none → (st.acl.heap q0).RowKeys ≠ none →
      removeLoop { acl := acl, arr := ptrs, len := ptrs.length } (pre ++ r :: more)
        = removeLoop st more) ∧
    (r.RowKeys ≠ none → (st.acl.heap q0).RowKeys = none →
      RemovePermissions S acl key user (pre ++ r :: more)
          = .returns (.error Error.removeSpecificFromBlanket) (st.manager user) ∧
        (st.manager user).storage = acl.storage) ∧
    (∀ (K R : List (List String)) (L : Nat), (st.acl.heap q0).RowKeys = some K →
      r.RowKeys = some R → keysSorted K → (∀ k ∈ K, k.length = L) → (∀ k ∈ R, k.length = L) →
      (K.filter (fun k => decide (k ∉ R)) = [] →
        ∃ st1, removeLoop { acl := acl, arr := ptrs, len := ptrs.length } (pre ++ r :: more)
            = removeLoop st1 more ∧
          st1.grants.Perm (st.grants.eraseIdx i)) ∧
      (K.filter (fun k => decide (k ∉ R)) ≠ [] →
        ∃ st1, removeLoop { acl := acl, arr := ptrs, len := ptrs.length } (pre ++ r :: more)
            = removeLoop st1 more ∧
          st1.grants = st.grants.set i
            { st.acl.heap q0 with RowKeys := some (K.filter (fun k => decide (k ∉ R))) })) := by
  have happ := removeLoop_append pre (r :: more) _ st hpre
  have hfr := removeLoop_frame pre _ st _ hpre
  have hlen : st.len ≤ st.arr.length := by
    have h1 := hfr.2.1
    have h2 := hfr.2.2
    simp only at h1 h2
    omega
  have hlink := RemovePermissions_eq_removeLoop S acl key user (pre ++ r :: more) ptrs hadmin
    hperms
  obtain ⟨c1, c2, c3, c4⟩ := removeLoop_unique_cases st r more i q0 hlen hil hi hm honly
  refine ⟨hlink, ?_, ?_, ?_, ?_⟩
  · intro hr hp
    obtain ⟨st1, h1, h2⟩ := c1 hr hp
    exact ⟨st1, happ.trans h1, h2⟩
  · intro hr hp
    exact happ.trans (c2 hr hp)
  · intro hr hp
    constructor
    · rw [hlink, happ, c3 hr hp]
    · exact hfr.1
  · intro K R L hK hR hs hKl hRl
    obtain ⟨d1, d2⟩ := c4 K R L hK hR hs hKl hRl
    constructor
    · intro hempty
      obtain ⟨st1, h1, h2⟩ := d1 hempty
      exact ⟨st1, happ.trans h1, h2⟩
    · intro hne
      obtain ⟨st1, h1, h2⟩ := d2 hne
      exact ⟨st1, happ.trans h1, h2⟩

/-- In a grant list where no two permissions share (table, mode), the object with the
table and type of `r` is at one position of the slice only. -/
theorem unique_position {σ : Type} (acl : ACLManager σ) (ptrs : List Ptr) (r : Permission)
    (huniq : (deref acl ptrs).Pairwise (fun a b => ¬ (a.Table = b.Table ∧ a.Typ = b.Typ)))
    (i : Nat) (q0 : Ptr) (hi : ptrs[i]? = some q0) (hm : sameTableAndType (acl.heap q0) r) :
    ∀ j q, ptrs[j]? = some q → sameTableAndType (acl.heap q) r → j = i := by
  intro j q hj hq
  by_contra hne
  have hin : i < (deref acl ptrs).length := by
    rw [deref, List.length_map]; exact (List.getElem?_eq_some.mp hi).1
  have hjn : j < (deref acl ptrs).length := by
    rw [deref, List.length_map]; exact (List.getElem?_eq_some.mp hj).1
  have hgi : (deref acl ptrs)[i] = acl.heap q0 := by
    have : (deref acl ptrs)[i]? = some (acl.heap q0) := by
      rw [deref, List.getElem?_map, hi]; rfl
    exact (List.getElem?_eq_some.mp this).2
  have hgj : (deref acl ptrs)[j] = acl.heap q := by
    have : (deref acl ptrs)[j]? = some (acl.heap q) := by
      rw [deref, List.getElem?_map, hj]; rfl
    exact (List.getElem?_eq_some.mp this).2
  have hpw := List.pairwise_iff_getElem.mp huniq
  rcases Nat.lt_or_gt_of_ne hne with hlt | hgt
  · have := hpw j i hjn hin hlt
    rw [hgi, hgj] at this
    exact this ⟨hq.1.trans hm.1.symm, hq.2.trans hm.2.symm⟩
  · have := hpw i j hin hjn hgt
    rw [hgi, hgj] at this
    exact this ⟨hm.1.trans hq.1.symm, hm.2.trans hq.2.symm⟩

/-- `RemovePermissions` with one removal whose table and type no object of the user's
slice has: the loop changes nothing and the slice is written as it is. -/
theorem RemovePermissions_no_match {σ : Type} (S : ACLStorage σ) (acl : ACLManager σ)
    (key user : String) (ptrs : List Ptr) (r : Permission)
    (hadmin : acl.adminKeys key = true) (hperms : acl.perms user = some ptrs)
    (hno : ∀ q ∈ ptrs, ¬ sameTableAndType (acl.heap q) r) :
    RemovePermissions S acl key user [r] = storeAndReturn S acl user ptrs := by
  rw [RemovePermissions_eq_removeLoop S acl key user [r] ptrs hadmin hperms]
  have hskip := removeFromMatching_skip r ptrs.length ptrs.length 0 0
    ({ acl := acl, arr := ptrs, len := ptrs.length } : RemoveState σ) (by omega)
    (by
      intro idx _ hidx
      have hidx2 : idx < ptrs.length := by omega
      exact ⟨ptrs[idx], List.getElem?_eq_getElem hidx2, hno _ (List.getElem_mem _)⟩)
  simp only [Nat.zero_add] at hskip
  simp only [removeLoop, hskip, removeFromMatching_done,
    RemoveState.manager_initial acl user ptrs ptrs.length hperms, List.take_length]

/-- C19 as amended: for a grant list in which no two permissions share (table, mode) and
a key list `A` for `(t, m)`, where the list holds either no permission for `(t, m)` or a
permission `Rows K` with `K` sorted ascending, duplicate-free, non-empty, disjoint from
`A`, and the keys of `K` and `A` of one length: `AddPermissions` with `[(t, m, Rows A)]`
followed by `RemovePermissions` with `[(t, m, Rows A)]` both get to their write to the
store, and the second writes the grant list the user had at the start, which is also the
grant list in memory afterwards. -/
theorem add_then_remove_restores {σ : Type} (S : ACLStorage σ) (acl : ACLManager σ)
    (key user : String) (ptrs : List Ptr) (t : String) (m : PermissionType)
    (A : List (List String)) (L : Nat)
    (hadmin : acl.adminKeys key = true) (hperms : acl.perms user = some ptrs)
    (hfresh : ∀ q ∈ ptrs, q < acl.next)
    (huniq : (deref acl ptrs).Pairwise (fun a b => ¬ (a.Table = b.Table ∧ a.Typ = b.Typ)))
    (hcase : (∀ q ∈ ptrs, ¬ sameTableAndType (acl.heap q) ⟨m, t, some A⟩) ∨
      (∃ q ∈ ptrs, sameTableAndType (acl.heap q) ⟨m, t, some A⟩ ∧
        ∃ K, (acl.heap q).RowKeys = some K ∧ keysSorted K ∧ K ≠ [] ∧ (∀ k ∈ K, k ∉ A) ∧
          (∀ k ∈ K, k.length = L) ∧ (∀ k ∈ A, k.length = L))) :
    ∃ written acl1, addLoop acl ptrs [⟨m, t, some A⟩] = some (written, acl1) ∧
      AddPermissions S acl key user [⟨m, t, some A⟩] = storeAndReturn S acl1 user written ∧
      ∀ sto, ∃ acl2,
        RemovePermissions S { acl1 with storage := sto } key user [⟨m, t, some A⟩]
          = storeAndReturn S acl2 user ptrs ∧
        deref acl2 ptrs = deref acl ptrs ∧
        memoryGrants acl2 user = memoryGrants acl user := by
  have hne : ∀ q ∈ ptrs, q ≠ acl.next := fun q hq => Nat.ne_of_lt (hfresh q hq)
  have hmem : memoryGrants acl user = some (ptrs.map acl.heap) := by
    simp [memoryGrants, hperms, deref]
  rcases hcase with hno | ⟨q0, hq0, hm, K, hK, hs, hKne, hdisj, hKl, hAl⟩
  · -- no permission for (t, m)
    have hfix : ∀ q ∈ ptrs, sameTableAndType (acl.heap q) ⟨m, t, some A⟩ →
        updatePermAdd (acl.heap q) ⟨m, t, some A⟩ = some (acl.heap q) :=
      fun q hq hmm => absurd hmm (hno q hq)
    have hadd := addLoop_single_fixed ⟨m, t, some A⟩ acl ptrs hfix
    refine ⟨_, _, hadd, ?_, ?_⟩
    · rw [AddPermissions_eq_addLoop S acl key user _ ptrs hadmin hperms, hadd]
    · intro sto
      let b : ACLManager σ :=
        { acl with heap := Function.update acl.heap acl.next ⟨m, t, some A⟩,
                   next := acl.next + 1, storage := sto }
      have hbq : ∀ q ∈ ptrs, b.heap q = acl.heap q := fun q hq =>
        Function.update_noteq (hne q hq) _ _
      have hrem := RemovePermissions_no_match S b key user ptrs ⟨m, t, some A⟩ hadmin hperms
        (fun q hq => by rw [hbq q hq]; exact hno q hq)
      have hder : deref b ptrs = deref acl ptrs := List.map_congr_left hbq
      refine ⟨b, hrem, hder, ?_⟩
      rw [hmem]
      show Option.map (deref b) (acl.perms user) = _
      rw [hperms]
      exact congrArg some hder
  · -- a permission Rows K, disjoint from A
    obtain ⟨i, hi⟩ := List.mem_iff_getElem?.mp hq0
    have honly := unique_position acl ptrs ⟨m, t, some A⟩ huniq i q0 hi hm
    have hq_eq : ∀ q ∈ ptrs, sameTableAndType (acl.heap q) ⟨m, t, some A⟩ → q = q0 := by
      intro q hq hmm
      obtain ⟨j, hj⟩ := List.mem_iff_getElem?.mp hq
      have := honly j q hj hmm
      rw [this, hi] at hj
      injection hj with hj
      exact hj.symm
    obtain ⟨K1, hadd1, hs1, hl1, hmem1⟩ := addKeys_sorted L A K hs hKl hAl
    have hupd : updatePermAdd (acl.heap q0) ⟨m, t, some A⟩
        = some { acl.heap q0 with RowKeys := some K1 } := by
      simp [updatePermAdd, hK, hadd1]
    have hH : ∀ q ∈ ptrs, sameTableAndType (acl.heap q) ⟨m, t, some A⟩ →
        ∃ v, updatePermAdd (acl.heap q) ⟨m, t, some A⟩ = some v ∧
          updatePermAdd v ⟨m, t, some A⟩ = some v := by
      intro q hq hmm
      rw [hq_eq q hq hmm]
      exact updatePermAdd_idempotent (acl.heap q0) ⟨m, t, some A⟩ L
        (fun K' hK' => by
          rw [hK] at hK'
          injection hK' with hK'
          rw [← hK']
          exact ⟨hs, hKl⟩)
        (fun A' hA' => by
          simp only [Option.some.injEq] at hA'
          rw [← hA']
          exact hAl)
    have hfirst := addToMatching_merged ⟨m, t, some A⟩ acl ptrs hH
    have hadd : addLoop acl ptrs [⟨m, t, some A⟩] = some (ptrs ++ [acl.next],
        { acl with
            heap := Function.update (mergedHeap ⟨m, t, some A⟩ acl.heap ptrs) acl.next
              ⟨m, t, some A⟩,
            next := acl.next + 1 }) := by
      rw [addLoop_single, hfirst]
    refine ⟨_, _, hadd, ?_, ?_⟩
    · rw [AddPermissions_eq_addLoop S acl key user _ ptrs hadmin hperms, hadd]
    · intro sto
      let b : ACLManager σ :=
        { acl with
            heap := Function.update (mergedHeap ⟨m, t, some A⟩ acl.heap ptrs) acl.next
              ⟨m, t, some A⟩,
            next := acl.next + 1, storage := sto }
      have hbq0 : b.heap q0 = { acl.heap q0 with RowKeys := some K1 } := by
        show Function.update (mergedHeap ⟨m, t, some A⟩ acl.heap ptrs) acl.next
          ⟨m, t, some A⟩ q0 = _
        rw [Function.update_noteq (hne q0 hq0)]
        simp [mergedHeap, hq0, hm, hupd]
      have hbq : ∀ q ∈ ptrs, q ≠ q0 → b.heap q = acl.heap q := by
        intro q hq hqq
        show Function.update (mergedHeap ⟨m, t, some A⟩ acl.heap ptrs) acl.next
          ⟨m, t, some A⟩ q = _
        rw [Function.update_noteq (hne q hq)]
        have : ¬ sameTableAndType (acl.heap q) ⟨m, t, some A⟩ := fun h => hqq (hq_eq q hq h)
        simp [mergedHeap, this]
      have hbm : sameTableAndType (b.heap q0) ⟨m, t, some A⟩ := by
        rw [hbq0]; exact hm
      have hbonly : ∀ j q, ptrs[j]? = some q → sameTableAndType (b.heap q) ⟨m, t, some A⟩ →
          j = i := by
        intro j q hj hmm
        by_cases hqq : q = q0
        · rw [hqq] at hj
          exact honly j q0 hj hm
        · rw [hbq q (List.getElem?_mem hj) hqq] at hmm
          exact honly j q hj hmm
      have hfilter : K1.filter (fun k => decide (k ∉ A)) = K := by
        rw [addKeys_filter A A (fun a ha => ha) K K1 hadd1, List.filter_eq_self]
        intro k hk
        simpa using hdisj k hk
      have hone := (RemovePermissions_unique_cases S b key user ptrs ⟨m, t, some A⟩ i q0
        hadmin hperms hi hbm hbonly).2.2.2 K1 A L (by rw [hbq0]) rfl hs1 hl1 hAl
      rw [hfilter] at hone
      obtain ⟨acl2, hcall, hp2, hder⟩ := hone.2 hKne
      have hval : ({ b.heap q0 with RowKeys := some K } : Permission) = acl.heap q0 := by
        rw [hbq0]
        revert hK
        generalize acl.heap q0 = v
        intro hK
        obtain ⟨ty, tb, rk⟩ := v
        simp only at hK
        subst hK
        rfl
      have hder2 : deref acl2 ptrs = deref acl ptrs := by
        rw [hder, hval]
        unfold deref
        apply List.ext_getElem?
        intro j
        rw [List.getElem?_set, List.getElem?_map, List.getElem?_map, List.length_map]
        by_cases hij : i = j
        · subst hij
          rw [if_pos rfl, if_pos (List.getElem?_eq_some.mp hi).1, hi]
          rfl
        · rw [if_neg hij]
          cases hj : ptrs[j]? with
          | none => rfl
          | some q =>
            have hqq : q ≠ q0 := by
              intro hqe
              rw [hqe] at hj
              exact hij (honly j q0 hj hm).symm
            show some (b.heap q) = some (acl.heap q)
            rw [hbq q (List.getElem?_mem hj) hqq]
      refine ⟨acl2, hcall, hder2, ?_⟩
      rw [hmem]
      show Option.map (deref acl2) (acl2.perms user) = _
      rw [hp2]
      show Option.map (deref acl2) (acl.perms user) = _
      rw [hperms]
      exact congrArg some hder2

/-- Counterexample to C13 as stated. `U` holds `(t, Read, Rows [[5]])`, sorted, and an
admin removes `(t, Read, Rows [[5,6]])`: the key `[5]` is not in the removal, yet
`pkCmp` compares the one component of `[5]` only, the binary search reports the key
found, the key is removed and the permission is deleted. With the keys `[[5],[5]]`,
ascending with a duplicate, the removal of `[[5]]` leaves one `[5]` behind. -/
theorem RemovePermissions_rows_other_length_or_duplicate :
    keysSorted [["5"]] ∧
    [["5"]].filter (fun k => decide (k ∉ [["5", "6"]])) = [["5"]] ∧
    (∃ acl1, RemovePermissions logStore (exampleManager [⟨Read, "t", some [["5"]]⟩]) "KA" "U"
        [⟨Read, "t", some [["5", "6"]]⟩] = .returns (.ok ()) acl1 ∧
      acl1.storage.head? = some ("U", [])) ∧
    [["5"], ["5"]].filter (fun k => decide (k ∉ [["5"]])) = [] ∧
    (∃ acl1, RemovePermissions logStore (exampleManager [⟨Read, "t", some [["5"], ["5"]]⟩])
        "KA" "U" [⟨Read, "t", some [["5"]]⟩] = .returns (.ok ()) acl1 ∧
      acl1.storage.head? = some ("U", [⟨Read, "t", some [["5"]]⟩])) :=
  ⟨by decide, by decide, ⟨_, rfl, rfl⟩, by decide, ⟨_, rfl, rfl⟩⟩

/-- Witness of C13 as amended: `U` holds `(t1, Read, Rows [[10],[5]])` and
`(t1, Write, All)`; an admin removes `(t1, Write, All)` and then
`(t1, Read, Rows [[5]])`. The second removal meets the slice of length one that the first
left, and the keys of the only permission become `[[10]]`. -/
theorem RemovePermissions_each_removal_witness :
    ∃ st1 : RemoveState (List (String × List Permission)),
      removeLoop
          { acl := exampleManager [⟨Read, "t1", some [["10"], ["5"]]⟩, ⟨Write, "t1", none⟩],
            arr := [0, 1], len := 2 }
          ([⟨Write, "t1", none⟩] ++ [⟨Read, "t1", some [["5"]]⟩])
        = removeLoop st1 [] ∧
      st1.grants = [⟨Read, "t1", some [["10"]]⟩] :=
  ((RemovePermissions_each_removal logStore
    (exampleManager [⟨Read, "t1", some [["10"], ["5"]]⟩, ⟨Write, "t1", none⟩]) "KA" "U"
    [0, 1] [⟨Write, "t1", none⟩] ⟨Read, "t1", some [["5"]]⟩ []
    { acl := { exampleManager [⟨Read, "t1", some [["10"], ["5"]]⟩, ⟨Write, "t1", none⟩] with
               heap := Function.update
                 (exampleManager
                   [⟨Read, "t1", some [["10"], ["5"]]⟩, ⟨Write, "t1", none⟩]).heap 1
                 ⟨Write, "t1", none⟩ },
      arr := [0, 1], len := 1 }
    0 0 rfl rfl rfl (by decide) rfl (by decide)
    (by
      intro j q hj _ _
      exact Nat.lt_one_iff.mp hj)).2.2.2.2
    [["10"], ["5"]] [["5"]] 1 rfl rfl (by decide) (by decide) (by decide)).2 (by decide)

/-- Counterexample to C17 as stated. The grant list holds `(t, Read, Rows [[1],[5],[2]])`,
whose keys are not sorted, and then `(t, Read, All)`. The requirement
`(t, Read, Rows [[5]])` passes: the binary search finds `[5]`, and the loop goes on to the
blanket permission. After the addition of `(t, Read, Rows [[7]])` the first permission has
the keys `[[1],[5],[2],[7]]`, the binary search misses `[5]`, and the requirement fails
against the list written to the store. -/
theorem AddPermissions_breaks_passing :
    reqPasses ⟨Read, "t", some [["5"]]⟩
      [⟨Read, "t", some [["1"], ["5"], ["2"]]⟩, ⟨Read, "t", none⟩] = some true ∧
    ∃ acl1, AddPermissions logStore
        (exampleManager [⟨Read, "t", some [["1"], ["5"], ["2"]]⟩, ⟨Read, "t", none⟩]) "KA" "U"
        [⟨Read, "t", some [["7"]]⟩] = .returns (.ok ()) acl1 ∧
      acl1.storage.head? = some ("U",
        [⟨Read, "t", some [["1"], ["5"], ["2"], ["7"]]⟩, ⟨Read, "t", none⟩,
          ⟨Read, "t", some [["7"]]⟩]) ∧
      reqPasses ⟨Read, "t", some [["5"]]⟩
        [⟨Read, "t", some [["1"], ["5"], ["2"], ["7"]]⟩, ⟨Read, "t", none⟩,
          ⟨Read, "t", some [["7"]]⟩] = some false :=
  ⟨by decide, _, rfl, rfl, by decide⟩

/-- Witness of C17 as amended: `U` holds `(t1, Read, All)` and `(t1, Write, Rows [[5]])`;
the requirement `(t1, Read, Rows [[7]])` passes before and after the addition of
`(t1, Write, Rows [[6]])`. -/
theorem AddPermissions_keeps_passing_witness :
    ∃ written acl1,
      addLoop (exampleManager [⟨Read, "t1", none⟩, ⟨Write, "t1", some [["5"]]⟩]) [0, 1]
        [⟨Write, "t1", some [["6"]]⟩] = some (written, acl1) ∧
      AddPermissions logStore
        (exampleManager [⟨Read, "t1", none⟩, ⟨Write, "t1", some [["5"]]⟩]) "KA" "U"
        [⟨Write, "t1", some [["6"]]⟩] = storeAndReturn logStore acl1 "U" written ∧
      reqPasses ⟨Read, "t1", some [["7"]]⟩ (deref acl1 written) = some true :=
  ⟨_, _, rfl, AddPermissions_keeps_passing logStore
    (exampleManager [⟨Read, "t1", none⟩, ⟨Write, "t1", some [["5"]]⟩]) "KA" "U" [0, 1]
    ⟨Read, "t1", some [["7"]]⟩ ⟨Write, "t1", some [["6"]]⟩ rfl rfl (by decide) (by decide)
    (by decide) _ _ rfl⟩

/-- Counterexample to C18 as stated. `U` holds `(t, Read, Rows [[1],[9],[1],[9],[9]])`,
whose keys are not sorted. The first addition of `(t, Read, Rows [[5]])` places `[5]` at
position 3; the second addition does not find it there and places a second `[5]` at
position 1: the two calls write different grant lists. -/
theorem AddPermissions_twice_differs_unsorted :
    ∃ acl1 acl2,
      AddPermissions logStore
        (exampleManager [⟨Read, "t", some [["1"], ["9"], ["1"], ["9"], ["9"]]⟩]) "KA" "U"
        [⟨Read, "t", some [["5"]]⟩] = .returns (.ok ()) acl1 ∧
      acl1.storage.head? = some ("U",
        [⟨Read, "t", some [["1"], ["9"], ["1"], ["5"], ["9"], ["9"]]⟩,
          ⟨Read, "t", some [["5"]]⟩]) ∧
      AddPermissions logStore acl1 "KA" "U" [⟨Read, "t", some [["5"]]⟩]
        = .returns (.ok ()) acl2 ∧
      acl2.storage.head? = some ("U",
        [⟨Read, "t", some [["1"], ["5"], ["9"], ["1"], ["5"], ["9"], ["9"]]⟩,
          ⟨Read, "t", some [["5"]]⟩]) :=
  ⟨_, _, rfl, rfl, rfl, rfl⟩

/-- Witness of C18 as amended: `U` holds `(t1, Read, Rows [[10],[5]])` and the addition is
`(t1, Read, Rows [[7]])`. -/
theorem AddPermissions_twice_writes_same_witness :
    ∃ written acl1,
      addLoop (exampleManager [⟨Read, "t1", some [["10"], ["5"]]⟩]) [0]
        [⟨Read, "t1", some [["7"]]⟩] = some (written, acl1) ∧
      AddPermissions logStore (exampleManager [⟨Read, "t1", some [["10"], ["5"]]⟩]) "KA" "U"
        [⟨Read, "t1", some [["7"]]⟩] = storeAndReturn logStore acl1 "U" written ∧
      ∀ sto, ∃ written2 acl2,
        addLoop { acl1 with storage := sto } [0] [⟨Read, "t1", some [["7"]]⟩]
          = some (written2, acl2) ∧
        AddPermissions logStore { acl1 with storage := sto } "KA" "U"
          [⟨Read, "t1", some [["7"]]⟩] = storeAndReturn logStore acl2 "U" written2 ∧
        deref acl2 written2 = deref acl1 written ∧
        memoryGrants acl2 "U" = memoryGrants acl1 "U" :=
  AddPermissions_twice_writes_same logStore
    (exampleManager [⟨Read, "t1", some [["10"], ["5"]]⟩]) "KA" "U" [0]
    ⟨Read, "t1", some [["7"]]⟩ 1 rfl rfl (by decide)
    (by
      intro q hq _ K hK
      simp only [List.mem_singleton] at hq
      subst hq
      have hK2 : K = [["10"], ["5"]] := by
        injection hK with h
        exact h.symm
      subst hK2
      exact ⟨by decide, by decide⟩)
    (by
      intro A hA
      have hA2 : A = [["7"]] := by
        injection hA with h
        exact h.symm
      subst hA2
      decide)

/-- Counterexample to C19 as stated. `U` holds `(t, Read, Rows [[5]])` and `A = [[5,6]]`:
the invariants hold and `[5]` is not in `A`. The addition finds `[5,6]` "present"
(`pkCmp [5] [5,6]` is `0`) and adds no key; the removal finds it again, removes `[5]` and
deletes the permission: the grant list written last is empty, not the one `U` had. -/
theorem add_then_remove_other_length :
    keysSorted [["5"]] ∧ keysSorted [["5", "6"]] ∧ (∀ k ∈ [["5"]], k ∉ [["5", "6"]]) ∧
    pkCmp ["5"] ["5", "6"] = some 0 ∧
    ∃ acl1 acl2,
      AddPermissions logStore (exampleManager [⟨Read, "t", some [["5"]]⟩]) "KA" "U"
        [⟨Read, "t", some [["5", "6"]]⟩] = .returns (.ok ()) acl1 ∧
      RemovePermissions logStore acl1 "KA" "U" [⟨Read, "t", some [["5", "6"]]⟩]
        = .returns (.ok ()) acl2 ∧
      acl2.storage.head? = some ("U", []) ∧
      memoryGrants acl2 "U" = some [⟨Read, "t", some []⟩] :=
  ⟨by decide, by decide, by decide, by decide, _, _, rfl, rfl, rfl, rfl⟩

/-- Witness of C19 as amended: `U` holds `(t1, Read, Rows [[10],[5]])` and
`(t2, Read, All)`, and `A = [[7]]` for `(t1, Read)`. -/
theorem add_then_remove_restores_witness :
    ∃ written acl1,
      addLoop (exampleManager [⟨Read, "t1", some [["10"], ["5"]]⟩, ⟨Read, "t2", none⟩]) [0, 1]
        [⟨Read, "t1", some [["7"]]⟩] = some (written, acl1) ∧
      AddPermissions logStore
        (exampleManager [⟨Read, "t1", some [["10"], ["5"]]⟩, ⟨Read, "t2", none⟩]) "KA" "U"
        [⟨Read, "t1", some [["7"]]⟩] = storeAndReturn logStore acl1 "U" written ∧
      ∀ sto, ∃ acl2,
        RemovePermissions logStore { acl1 with storage := sto } "KA" "U"
          [⟨Read, "t1", some [["7"]]⟩] = storeAndReturn logStore acl2 "U" [0, 1] ∧
        deref acl2 [0, 1]
          = deref (exampleManager [⟨Read, "t1", some [["10"], ["5"]]⟩, ⟨Read, "t2", none⟩])
              [0, 1] ∧
        memoryGrants acl2 "U"
          = memoryGrants
              (exampleManager [⟨Read, "t1", some [["10"], ["5"]]⟩, ⟨Read, "t2", none⟩]) "U" :=
  add_then_remove_restores logStore
    (exampleManager [⟨Read, "t1", some [["10"], ["5"]]⟩, ⟨Read, "t2", none⟩]) "KA" "U" [0, 1]
    "t1" Read [["7"]] 1 rfl rfl (by decide) (by decide)
    (Or.inr ⟨0, by decide, by decide, [["10"], ["5"]], rfl, by decide, by decide, by decide,
      by decide, by decide⟩)

/-! ## Theorems: the keys that the analyzer reads off a WHERE clause -/

/-- A spec with a value for every primary-key column has the row of these values. -/
theorem specRow_of_all (spec : Spec) (pk : List String) (h : ∀ c ∈ pk, spec c ≠ none) :
    specRow spec pk = some (pk.map (fun c => (spec c).getD "")) := by
  induction pk with
  | nil => rfl
  | cons d pk ih =>
    have hd := h d (List.mem_cons_self _ _)
    have ih2 := ih (fun c hc => h c (List.mem_cons_of_mem _ hc))
    cases hv : spec d with
    | none => exact absurd hv hd
    | some v => simp [specRow, hv, ih2]

/-- Specs that all have a value for every primary-key column have one row each, in the
order of the specs. -/
theorem specRows_of_all (pk : List String) (specs : List Spec)
    (h : ∀ s ∈ specs, ∀ c ∈ pk, s c ≠ none) :
    specRows pk specs = some (specs.map (fun s => pk.map (fun c => (s c).getD ""))) := by
  induction specs with
  | nil => rfl
  | cons s specs ih =>
    have hs := specRow_of_all s pk (h s (List.mem_cons_self _ _))
    have ih2 := ih (fun s' hs' => h s' (List.mem_cons_of_mem _ hs'))
    simp [specRows, hs, ih2]

/-- The loop over the specs ends with `return nil` exactly when one spec has no value for
one of the primary-key columns. -/
theorem specRows_eq_none_iff (pk : List String) (specs : List Spec) :
    specRows pk specs = none ↔ ∃ s ∈ specs, ∃ c ∈ pk, s c = none := by
  constructor
  · intro h
    by_contra hno
    have hall : ∀ s ∈ specs, ∀ c ∈ pk, s c ≠ none := by
      intro s hs c hc hn
      exact hno ⟨s, hs, c, hc, hn⟩
    rw [specRows_of_all pk specs hall] at h
    cases h
  · intro h
    obtain ⟨s, hs, hc⟩ := h
    exact specRows_missing_column pk specs ⟨s, hs, specRow_missing_column s pk hc⟩

/-- The walk of a WHERE expression never returns a non-nil empty list of specs. -/
theorem recurseOnWhereExpr_ne_nil (e : Expr) : recurseOnWhereExpr e ≠ some [] := by
  induction e with
  | ComparisonExpr op left right _ _ =>
    cases op <;> cases left <;> cases right <;> simp [recurseOnWhereExpr]
  | AndExpr left right _ _ =>
    simp only [recurseOnWhereExpr]
    split <;> simp
  | OrExpr left right ihl ihr =>
    simp only [recurseOnWhereExpr]
    split
    · rename_i l r hl hr
      intro h
      simp only [List.nil_append, Option.some.injEq, List.append_eq_nil] at h
      rw [h.1] at hl
      exact ihl hl
    · simp
  | _ => simp [recurseOnWhereExpr]

/-- The function `whereNodeToRows` on a WHERE clause whose walk returned specs. -/
theorem whereNodeToRows_of_walk (w : Expr) (P : List String) (specs : List Spec)
    (hwalk : recurseOnWhereExpr w = some specs) :
    whereNodeToRows (some ⟨w⟩) P = specRows P specs := by
  have hne : specs ≠ [] := by
    intro h
    rw [h] at hwalk
    exact recurseOnWhereExpr_ne_nil w hwalk
  cases hr : specRows P specs with
  | none => simp [whereNodeToRows, hwalk, hr]
  | some rows =>
    have hlen := (specRows_eq_map P specs rows hr).2
    have hrows : rows.length ≠ 0 := by
      rw [hlen, List.length_map]
      exact fun h => hne (List.length_eq_zero.mp h)
    simp [whereNodeToRows, hwalk, hr, hrows]

/-- C21: for a non-empty primary-key column list `P` and a WHERE expression whose walk
returns `n ≥ 1` specs that each give a value for every column of `P`, `whereNodeToRows`
returns `n` keys in the order of the specs; key `j` has the length of `P` and its `i`-th
component is the value of spec `j` for column `i` of `P`. What the specs give for columns
outside `P` is ignored: a WHERE expression whose specs agree with these on the columns of
`P` has the same keys. -/
theorem whereNodeToRows_one_key_per_spec (w : Expr) (P : List String) (specs : List Spec)
    (hP : P ≠ []) (hwalk : recurseOnWhereExpr w = some specs) (hn : 1 ≤ specs.length)
    (hall : ∀ s ∈ specs, ∀ c ∈ P, s c ≠ none) :
    ∃ rows, whereNodeToRows (some ⟨w⟩) P = some rows ∧ rows.length = specs.length ∧
      (∀ (j : Nat) (s : Spec), specs[j]? = some s →
        ∃ row : List String, rows[j]? = some row ∧ row.length = P.length ∧
          ∀ (i : Nat) (c : String), P[i]? = some c → row[i]? = s c) ∧
      (∀ w' specs', recurseOnWhereExpr w' = some specs' →
        List.Forall₂ (fun s s' => ∀ c ∈ P, s c = s' c) specs specs' →
        whereNodeToRows (some ⟨w'⟩) P = some rows) := by
  have _hP := hP
  have _hn := hn
  refine ⟨specs.map (fun s => P.map (fun c => (s c).getD "")), ?_, ?_, ?_, ?_⟩
  · rw [whereNodeToRows_of_walk w P specs hwalk, specRows_of_all P specs hall]
  · rw [List.length_map]
  · intro j s hj
    refine ⟨P.map (fun c => (s c).getD ""), ?_, ?_, ?_⟩
    · rw [List.getElem?_map, hj]; rfl
    · rw [List.length_map]
    · intro i c hi
      have hs : s ∈ specs := by
        obtain ⟨_, h2⟩ := List.getElem?_eq_some.mp hj
        rw [← h2]
        exact List.getElem_mem _
      have hc : c ∈ P := by
        obtain ⟨_, h2⟩ := List.getElem?_eq_some.mp hi
        rw [← h2]
        exact List.getElem_mem _
      rw [List.getElem?_map, hi]
      cases hv : s c with
      | none => exact absurd hv (hall s hs c hc)
      | some v => simp [hv]
  · intro w' specs' hwalk' hagree
    have hall' : ∀ s' ∈ specs', ∀ c ∈ P, s' c ≠ none := by
      clear hwalk hwalk' hn _hn
      induction hagree with
      | nil => simp
      | cons hab _ ih =>
        intro s' hs' c hc
        rcases List.mem_cons.mp hs' with he | hm
        · rw [he, ← hab c hc]
          exact hall _ (List.mem_cons_self _ _) c hc
        · exact ih (fun s hs => hall s (List.mem_cons_of_mem _ hs)) s' hm c hc
    have hmap : specs'.map (fun s => P.map (fun c => (s c).getD ""))
        = specs.map (fun s => P.map (fun c => (s c).getD "")) := by
      clear hwalk hwalk' hn _hn hall hall'
      induction hagree with
      | nil => rfl
      | cons hab _ ih =>
        rw [List.map_cons, List.map_cons, ih]
        congr 1
        apply List.map_congr_left
        intro c hc
        rw [hab c hc]
    rw [whereNodeToRows_of_walk w' P specs' hwalk', specRows_of_all P specs' hall', hmap]

/-- A row that satisfies a WHERE expression agrees with one of the specs of its walk on
every column that the spec gives a value for. -/
theorem recurseOnWhereExpr_covers (row : String → String) (other : Expr → Bool) (e : Expr) :
    ∀ specs, recurseOnWhereExpr e = some specs → rowSatisfies row other e = true →
      ∃ s ∈ specs, ∀ c v, s c = some v → row c = v := by
  induction e with
  | ComparisonExpr op left right ihl ihr =>
    clear ihl ihr
    intro specs hw hsat
    cases op <;> cases left <;> cases right <;>
      simp only [recurseOnWhereExpr, ne_eq, not_true_eq_false, not_false_eq_true, if_true,
        if_false, reduceCtorEq, Option.some.injEq] at hw
    rename_i col literal
    simp only [rowSatisfies, decide_eq_true_eq] at hsat
    refine ⟨Spec.single col literal, by rw [← hw]; exact List.mem_singleton.mpr rfl, ?_⟩
    intro c v hc
    unfold Spec.single at hc
    by_cases hcc : c = col
    · rw [if_pos hcc] at hc
      injection hc with hc
      rw [hcc, ← hc]
      exact hsat
    · rw [if_neg hcc] at hc
      cases hc
  | AndExpr left right ihl ihr =>
    intro specs hw hsat
    simp only [rowSatisfies, Bool.and_eq_true] at hsat
    simp only [recurseOnWhereExpr] at hw
    split at hw
    · rename_i l r hl hr
      obtain ⟨sl, hsl, hagl⟩ := ihl [l] hl hsat.1
      obtain ⟨sr, hsr, hagr⟩ := ihr [r] hr hsat.2
      rw [List.mem_singleton] at hsl hsr
      subst hsl
      subst hsr
      injection hw with hw
      refine ⟨_, by rw [← hw]; exact List.mem_singleton.mpr rfl, ?_⟩
      intro c v hc
      unfold Spec.copyInto at hc
      cases hr2 : sr c with
      | some v2 =>
        simp only [hr2, Option.some.injEq] at hc
        rw [← hc]
        exact hagr c v2 hr2
      | none =>
        simp only [hr2] at hc
        cases hl2 : sl c with
        | some v2 =>
          simp only [hl2, Option.some.injEq] at hc
          rw [← hc]
          exact hagl c v2 hl2
        | none => simp [hl2] at hc
    · cases hw
  | OrExpr left right ihl ihr =>
    intro specs hw hsat
    simp only [rowSatisfies, Bool.or_eq_true] at hsat
    simp only [recurseOnWhereExpr] at hw
    split at hw
    · rename_i l r hl hr
      injection hw with hw
      rw [List.nil_append] at hw
      rcases hsat with hs | hs
      · obtain ⟨s, hsm, hag⟩ := ihl l hl hs
        exact ⟨s, by rw [← hw]; exact List.mem_append_left _ hsm, hag⟩
      · obtain ⟨s, hsm, hag⟩ := ihr r hr hs
        exact ⟨s, by rw [← hw]; exact List.mem_append_right _ hsm, hag⟩
    · cases hw
  | _ =>
    intro specs hw
    simp [recurseOnWhereExpr] at hw

/-- C23: the WHERE inference is sound. For a WHERE expression, a primary-key column list
`P` and a row that satisfies the expression, where `col = literal` holds exactly when the
row has the literal for the column: if `whereNodeToRows` returns the Rows scope `R`, then
the tuple of the row's values for the columns of `P` is one of the keys of `R`. -/
theorem whereNodeToRows_sound (w : Expr) (P : List String) (row : String → String)
    (other : Expr → Bool) (R : List (List String))
    (hsat : rowSatisfies row other w = true)
    (hrows : whereNodeToRows (some ⟨w⟩) P = some R) :
    P.map row ∈ R := by
  cases hw : recurseOnWhereExpr w with
  | none => simp [whereNodeToRows, hw, specRows] at hrows
  | some specs =>
    rw [whereNodeToRows_of_walk w P specs hw] at hrows
    obtain ⟨hall, hR⟩ := specRows_eq_map P specs R hrows
    obtain ⟨s, hs, hag⟩ := recurseOnWhereExpr_covers row other w specs hw hsat
    have hkey : P.map (fun c => (s c).getD "") = P.map row := by
      apply List.map_congr_left
      intro c hc
      cases hv : s c with
      | none => exact absurd hv (hall s hs c hc)
      | some v => exact (hag c v hv).symm
    rw [hR, ← hkey]
    exact List.mem_map_of_mem _ hs

/-- With no primary-key column every spec has the empty row. -/
theorem specRows_nil_pk (specs : List Spec) :
    specRows [] specs = some (List.replicate specs.length []) := by
  induction specs with
  | nil => rfl
  | cons s specs ih => simp [specRows, specRow, ih, List.replicate_succ]

/-- C24: for a table whose primary-key column list is empty or absent from the schema and
a WHERE expression whose walk returns specs, there are `n ≥ 1` specs and
`whereNodeToRows` returns the Rows scope of `n` keys of length `0`, which is the scope of
the requirement that the visitor of `Parse` builds for a SELECT on the table. The walk
never returns a non-nil empty list, and `whereNodeToRows` returns nil (scope All) exactly
for a missing WHERE, a nil walk, or a spec without a value for a primary-key column. -/
theorem whereNodeToRows_empty_pk (tableToPK : String → Option (List String))
    (t : TableExpr) (more : List TableExpr) (reqs : List RequiredPermission) (w : Expr)
    (specs : List Spec)
    (hpk : tableToPK (sqlString t) = none ∨ tableToPK (sqlString t) = some [])
    (hwalk : recurseOnWhereExpr w = some specs) :
    1 ≤ specs.length ∧
    whereNodeToRows (some ⟨w⟩) (pkOf tableToPK (sqlString t))
      = some (List.replicate specs.length []) ∧
    visitNode tableToPK reqs (.Select (t :: more) (some ⟨w⟩))
      = some (.ok (reqs ++ [⟨⟨Read, sqlString t, some (List.replicate specs.length [])⟩,
          .Select (t :: more) (some ⟨w⟩)⟩])) ∧
    (∀ e, recurseOnWhereExpr e ≠ some []) ∧
    (∀ (where_ : Option Where) (P : List String), whereNodeToRows where_ P = none ↔
      where_ = none ∨ ∃ e, where_ = some ⟨e⟩ ∧
        (recurseOnWhereExpr e = none ∨
          ∃ specs', recurseOnWhereExpr e = some specs' ∧
            ∃ s ∈ specs', ∃ c ∈ P, s c = none)) := by
  have hpk2 : pkOf tableToPK (sqlString t) = [] := by
    rcases hpk with h | h <;> simp [pkOf, h]
  have hrows : whereNodeToRows (some ⟨w⟩) (pkOf tableToPK (sqlString t))
      = some (List.replicate specs.length []) := by
    rw [hpk2, whereNodeToRows_of_walk w [] specs hwalk, specRows_nil_pk]
  refine ⟨?_, hrows, ?_, recurseOnWhereExpr_ne_nil, ?_⟩
  · cases specs with
    | nil => exact absurd hwalk (recurseOnWhereExpr_ne_nil w)
    | cons s specs => simp
  · simp only [visitNode, hrows]
  · intro where_ P
    cases where_ with
    | none => simp [whereNodeToRows]
    | some wh =>
      obtain ⟨e⟩ := wh
      cases hw : recurseOnWhereExpr e with
      | none => simp [whereNodeToRows, hw, specRows]
      | some specs' =>
        rw [whereNodeToRows_of_walk e P specs' hw, specRows_eq_none_iff]
        simp [hw]

/-! ## Theorems: the primary-key schema read from SQLite -/

/-- The outer loop of `GetPKs` returns the map it was given. -/
theorem scanTables_keeps_map (db : SQLiteDB) (rows : List (Except String String))
    (pks pks' : String → Option (List String)) (h : scanTables db rows pks = .ok pks') :
    pks' = pks := by
  induction rows with
  | nil =>
    simp only [scanTables, Except.ok.injEq] at h
    exact h.symm
  | cons r rows ih =>
    cases r with
    | error err => simp [scanTables] at h
    | ok tableName =>
      simp only [scanTables] at h
      cases hi : db.tableInfo tableName with
      | error err => simp [hi] at h
      | ok pkRows =>
        simp only [hi] at h
        cases hc : scanColumns pkRows [] with
        | error err => simp [hc] at h
        | ok cols =>
          simp only [hc] at h
          exact ih h

/-- Whatever the database holds, a map that `GetPKs` returns has no entry. -/
theorem GetPKs_no_entry (db : SQLiteDB) (pks : String → Option (List String))
    (h : db.GetPKs = .ok pks) (t : String) : pks t = none := by
  unfold SQLiteDB.GetPKs at h
  cases hr : db.tables with
  | error err => simp [hr] at h
  | ok rows =>
    simp only [hr] at h
    rw [scanTables_keeps_map db rows _ pks h]

/-- C22, evaluated on the code: for the database with table `t1(k, v)`, primary key `k`,
and table `t2(k1, k2, v)`, primary key `(k1, k2)`, the method `GetPKs` returns without
error a map that has no entry for `t1` and none for `t2`. The list that the inner loop
builds for `t2` is `[k1]`: the column `k2`, whose `pk` is `2`, is left out; and the list
is dropped, since nothing assigns it to `pks[tableName]`. -/
theorem GetPKs_returns_empty_map :
    (∃ pks, exampleDB.GetPKs = .ok pks ∧ pks "t1" = none ∧ pks "t2" = none) ∧
    scanColumns [.ok ⟨0, "k", "INTEGER", 1, none, 1⟩, .ok ⟨1, "v", "TEXT", 0, none, 0⟩] []
      = .ok ["k"] ∧
    scanColumns [.ok ⟨0, "k1", "INTEGER", 1, none, 1⟩, .ok ⟨1, "k2", "INTEGER", 1, none, 2⟩,
        .ok ⟨2, "v", "TEXT", 0, none, 0⟩] []
      = .ok ["k1"] :=
  ⟨⟨_, rfl, rfl, rfl⟩, rfl, rfl⟩

/-- Witness of C21: `(k = 5) OR (k = 6 AND y = 10)` with `P = [k]`; the keys are
`[[5],[6]]`, and `k = 5 OR k = 10` has the keys `[[5],[10]]`. -/
theorem whereNodeToRows_one_key_per_spec_witness :
    whereNodeToRows
      (some ⟨.OrExpr (.ComparisonExpr .EqualOp (.ColName "k") (.Literal "5"))
        (.AndExpr (.ComparisonExpr .EqualOp (.ColName "k") (.Literal "6"))
          (.ComparisonExpr .EqualOp (.ColName "y") (.Literal "10")))⟩) ["k"]
      = some [["5"], ["6"]] ∧
    whereNodeToRows
      (some ⟨.OrExpr (.ComparisonExpr .EqualOp (.ColName "k") (.Literal "5"))
        (.ComparisonExpr .EqualOp (.ColName "k") (.Literal "10"))⟩) ["k"]
      = some [["5"], ["10"]] ∧
    ∃ rows, whereNodeToRows
        (some ⟨.OrExpr (.ComparisonExpr .EqualOp (.ColName "k") (.Literal "5"))
          (.AndExpr (.ComparisonExpr .EqualOp (.ColName "k") (.Literal "6"))
            (.ComparisonExpr .EqualOp (.ColName "y") (.Literal "10")))⟩) ["k"]
        = some rows ∧
      rows.length = 2 :=
  ⟨by decide, by decide,
    match whereNodeToRows_one_key_per_spec
      (.OrExpr (.ComparisonExpr .EqualOp (.ColName "k") (.Literal "5"))
        (.AndExpr (.ComparisonExpr .EqualOp (.ColName "k") (.Literal "6"))
          (.ComparisonExpr .EqualOp (.ColName "y") (.Literal "10"))))
      ["k"]
      [Spec.single "k" "5",
        Spec.copyInto (Spec.copyInto (fun _ => none) (Spec.single "k" "6"))
          (Spec.single "y" "10")]
      (by decide) rfl (by decide) (by decide) with
    | ⟨rows, h1, h2, _⟩ => ⟨rows, h1, h2⟩⟩

/-- Witness of C23: the row with `k = 6` and `y = 10` satisfies
`(k = 5) OR (k = 6 AND y = 10)`, and its key `[6]` is among the keys `[[5],[6]]`. -/
theorem whereNodeToRows_sound_witness :
    ["k"].map (fun c => if c = "k" then "6" else "10") ∈ [["5"], ["6"]] :=
  whereNodeToRows_sound
    (.OrExpr (.ComparisonExpr .EqualOp (.ColName "k") (.Literal "5"))
      (.AndExpr (.ComparisonExpr .EqualOp (.ColName "k") (.Literal "6"))
        (.ComparisonExpr .EqualOp (.ColName "y") (.Literal "10"))))
    ["k"] (fun c => if c = "k" then "6" else "10") (fun _ => false) [["5"], ["6"]]
    (by decide) (by decide)

/-- Witness of C24: `SELECT * FROM t3 WHERE k = 5 OR k = 10` with a schema that has no
table `t3`; the requirement has the two keys `[[],[]]`. -/
theorem whereNodeToRows_empty_pk_witness :
    whereNodeToRows
      (some ⟨.OrExpr (.ComparisonExpr .EqualOp (.ColName "k") (.Literal "5"))
        (.ComparisonExpr .EqualOp (.ColName "k") (.Literal "10"))⟩)
      (pkOf (exampleManager []).tablePKs (sqlString (.AliasedTableExpr "t3" "")))
      = some (List.replicate [Spec.single "k" "5", Spec.single "k" "10"].length []) :=
  (whereNodeToRows_empty_pk (exampleManager []).tablePKs (.AliasedTableExpr "t3" "") [] []
    (.OrExpr (.ComparisonExpr .EqualOp (.ColName "k") (.Literal "5"))
      (.ComparisonExpr .EqualOp (.ColName "k") (.Literal "10")))
    [Spec.single "k" "5", Spec.single "k" "10"] (Or.inl (by decide)) rfl).2.1

end SqliteAcl
